import Mathlib

/-!
# header-gen: declarator synthesis and the declaration reachability engine

A shallow embedding of `clang-plugins/decl-filter/DeclFilter.cpp` (and of the
identical `printNameWithType` of `clang-plugins/printer/DumpDecls.cpp`).

* `std::string` is a list of characters (`Str`); a `size_t` position is a `Nat`
  and the value `std::string::npos` is `none`.
* The string primitives `find`, `rfind` and `insert` follow the C++ library.
-/

namespace HeaderGen

/-! ## Strings -/

/-- A `std::string`, as the list of its characters. -/
abbrev Str := List Char

/-- Scan of `std::string::find`: the first offset at or after the current one at
which `needle` is a prefix of the remaining text; `i` is the index of the head of
the remaining text. -/
def findGo (needle : Str) : Nat → Str → Option Nat
  | i, [] => if needle.isPrefixOf [] then some i else none
  | i, c :: t => if needle.isPrefixOf (c :: t) then some i else findGo needle (i + 1) t

/-- The call `s.find(needle, pos)`: the index of the first occurrence of `needle`
that starts at or after `pos`, `none` (npos) when there is none or `pos` is past
the end. -/
def find (s needle : Str) (pos : Nat) : Option Nat :=
  if pos ≤ s.length then findGo needle pos (s.drop pos) else none

/-- The call `s.find(needle, pos)` for a `size_t` variable `pos` that may hold
npos: npos is larger than every size, so nothing is found from it. -/
def findFrom (s needle : Str) : Option Nat → Option Nat
  | none => none
  | some pos => find s needle pos

/-- Scan of `std::string::rfind`: the last offset, not after `limit` when there is
one, at which `needle` is a prefix of the remaining text. -/
def rfindGo (needle : Str) (limit : Option Nat) : Nat → Str → Option Nat
  | i, [] =>
    if needle.isPrefixOf [] && (match limit with | none => true | some l => decide (i ≤ l))
    then some i else none
  | i, c :: t =>
    match rfindGo needle limit (i + 1) t with
    | some j => some j
    | none =>
      if needle.isPrefixOf (c :: t) && (match limit with | none => true | some l => decide (i ≤ l))
      then some i else none

/-- The call `s.rfind(needle, pos)`: the index of the last occurrence of `needle`
that starts at or before `pos` (`none` for the default npos: anywhere). -/
def rfind (s needle : Str) (pos : Option Nat) : Option Nat := rfindGo needle pos 0 s

/-- The call `s.insert(pos, x)` for `pos ≤ s.size()`: `x` is spliced in before
index `pos`. (For `pos > s.size()` C++ throws `std::out_of_range`; the callers
below only pass positions returned by a successful search.) -/
def insert (s : Str) (pos : Nat) (x : Str) : Str := s.take pos ++ x ++ s.drop pos

/-- Does `s` end with `suffix` (`llvm::StringRef::endswith`). -/
def endswith (s suffix : Str) : Bool := suffix.isSuffixOf s

/-! ## Declarator synthesis: `printNameWithType` and `dumpFunction` -/

/-- The C string held by `char arg[3] = " a"` when its second byte is `b`: a
space followed by that byte, cut at a NUL byte. -/
def argText (b : Nat) : Str := if b = 0 then [' '] else [' ', Char.ofNat b]

/-- The loop `while ((pos = acc.find(",", pos)) != npos) { acc = acc.insert(pos,
arg); arg[1]++; pos += 3; }` of `printNameWithType`; `arg` is the byte `arg[1]`.
Returns the final `acc` and `arg[1]`. Every pass moves `pos` past one more comma,
so `fuel` equal to the length of `acc` is never exhausted. -/
def commaLoop : Nat → Str → Nat → Option Nat → Str × Nat
  | 0, acc, arg, _ => (acc, arg)
  | fuel + 1, acc, arg, pos =>
    match findFrom acc [','] pos with
    | none => (acc, arg)
    | some p => commaLoop fuel (insert acc p (argText arg)) ((arg + 1) % 256) (some (p + 3))

/-- The loop `pos = 0; while ((pos = acc.find("(*)", pos)) != npos) pos++;` of
`printNameWithType`: returns the final value of `pos` (npos once the loop has
ended). -/
def fnPtrLoop : Nat → Str → Nat → Option Nat
  | 0, _, pos => some pos
  | fuel + 1, acc, pos =>
    match find acc ['(', '*', ')'] pos with
    | none => none
    | some p => fnPtrLoop fuel acc (p + 1)

/-- The block run under `if (addFormal)` in `printNameWithType`, on the text `acc`
that already holds the name. -/
def addFormalNames (acc : Str) : Str :=
  match find acc ['(', 'v', 'o', 'i', 'd', ')'] 0 with
  | some _ => acc
  | none =>
    -- `pos` holds npos here, and the comma search starts from it
    let r := commaLoop acc.length acc 97 none
    let acc := r.1
    let arg := r.2
    match find acc ['.', '.', '.'] 0 with
    | some _ => acc
    | none =>
      -- the position computed by the `(*)` loop is overwritten by `rfind`
      let _pos := fnPtrLoop (acc.length + 1) acc 0
      match rfind acc [')'] none with
      | some p => insert acc p (argText arg)
      | none => acc

/-- `DeclFilterConsumer::printNameWithType` (DeclFilter.cpp:285-327), the same
text as `DumpDeclsConsumer::printNameWithType` (DumpDecls.cpp:301-343). -/
def printNameWithType (name type : Str) (addFormal : Bool) : Str :=
  match find type ['(', '*', ')'] 0 with
  | some pos =>
    let acc := insert type (pos + 2) name
    if addFormal then addFormalNames acc else acc
  | none =>
    let viaParen : Option Str :=
      match find type ['t', 'y', 'p', 'e', 'o', 'f'] 0 with
      | none =>
        match find type ['('] 0 with
        | some pos => some (insert type pos (['('] ++ name ++ [')']))
        | none => none
      | some _ => none
    match viaParen with
    | some acc => acc
    | none =>
      match find type ['['] 0 with
      | some pos => insert type pos name
      | none => type ++ [' '] ++ name

/-- The C string held by `char pn[2]` after `pn[0] = 97 + i` (the letter `a`
plus `i`, as a byte): one character, or nothing when the byte is NUL. -/
def paramName (i : Nat) : Str :=
  if (97 + i) % 256 = 0 then [] else [Char.ofNat ((97 + i) % 256)]

/-- The argument loop of `dumpFunction` (DeclFilter.cpp:346-351) from index `i`
on, appending to the stream `os`; `size` is `args.size()`. -/
def dumpArgs (size : Nat) : Nat → List Str → Str → Str
  | _, [], os => os
  | i, a :: rest, os =>
    let os := os ++ printNameWithType (paramName i) a false
    let os := if i + 1 < size then os ++ [',', ' '] else os
    dumpArgs size (i + 1) rest os

/-- The prototype text built by `dumpFunction` (DeclFilter.cpp:329-357) from the
return-type text, the name, the parameter type texts and `isVariadic()`. -/
def dumpFunctionText (ret name : Str) (args : List Str) (variadic : Bool) : Str :=
  let os := ret ++ [' '] ++ name ++ ['(']
  let os := dumpArgs args.length 0 args os
  let os := if variadic then os ++ [',', ' ', '.', '.', '.'] else os
  os ++ [')']

/-- The prototype text built by `dumpVar` (DeclFilter.cpp:359-368). -/
def dumpVarText (name type : Str) : Str :=
  ['e', 'x', 't', 'e', 'r', 'n', ' '] ++ printNameWithType name type false

/-- The parameter declarations of a prototype, from index `i` on: the `k`-th type
text rendered by `printNameWithType` with the `k`-th generated name. -/
def argDecls : Nat → List Str → List Str
  | _, [] => []
  | i, a :: rest => printNameWithType (paramName i) a false :: argDecls (i + 1) rest


/-! ## Declarations, types and the translation unit

The clang AST is an arena of `n` declarations addressed by `Fin n`; a `Decl *` is
an index into it, so every pointer is valid. The arena is immutable: the engine
only changes the `Referenced` bits and its own lists, which live in `State`. -/

/-- The declaration classes that `markDependencies` tells apart with `dyn_cast`,
in the order it tests them; `other` is any class it does not test for. -/
inductive DeclKind where
  | function
  | record
  | typedef
  | enum
  | var
  | field
  | indirectField
  | empty
  | other
  deriving DecidableEq, Repr

/-- A clang type (`QualType`, qualifiers dropped by `getTypePtr`), by type class.
Sugar nodes carry the type they desugar to. -/
inductive QualType (n : Nat) where
  /-- `BuiltinType`. -/
  | builtin
  /-- `TypeOfExprType`, with the type of the expression. -/
  | typeOfExpr (underlying : QualType n)
  /-- `TypedefType`: `getDecl()` and the type the typedef desugars to. -/
  | typedef (decl : Fin n) (underlying : QualType n)
  /-- `RecordType` of a struct (`isUnion = false`) or a union, with `getDecl()`. -/
  | record (isUnion : Bool) (decl : Fin n)
  /-- `EnumType`, with `getDecl()`. -/
  | enum (decl : Fin n)
  /-- `PointerType`. -/
  | pointer (pointee : QualType n)
  /-- `ElaboratedType`. -/
  | elaborated (named : QualType n)
  /-- `ArrayType`. -/
  | array (element : QualType n)
  /-- `TypeOfType`. -/
  | typeOf (underlying : QualType n)
  /-- `FunctionProtoType`. -/
  | functionProto (args : List (QualType n)) (result : QualType n)
  /-- `ParenType`. -/
  | paren (inner : QualType n)
  /-- Any other sugar class (for instance `AttributedType`). -/
  | otherSugar (desugared : QualType n)
  /-- Any other canonical class (for instance `FunctionNoProtoType`, `VectorType`). -/
  | unhandled

/-- The call `getUnqualifiedDesugaredType()`: all sugar stripped from the top. -/
def QualType.desugar {n : Nat} : QualType n → QualType n
  | .typeOfExpr u => u.desugar
  | .typedef _ u => u.desugar
  | .elaborated t => t.desugar
  | .typeOf u => u.desugar
  | .paren t => t.desugar
  | .otherSugar t => t.desugar
  | t => t

/-- The call `T->getAsStructureType()`: the struct the type is, looking through
sugar, if it is one. -/
def getAsStructureType {n : Nat} (t : QualType n) : Option (Fin n) :=
  match t.desugar with
  | .record false d => some d
  | _ => none

/-- The call `T->getAsUnionType()`: the union the type is, looking through sugar,
if it is one. -/
def getAsUnionType {n : Nat} (t : QualType n) : Option (Fin n) :=
  match t.desugar with
  | .record true d => some d
  | _ => none

/-- One function parameter: `getOriginalType()` and its `getAsString()`. -/
structure Param (n : Nat) where
  type : QualType n
  text : Str

/-- What the engine reads from one `Decl`. -/
structure Decl (n : Nat) where
  /-- The class of the declaration. -/
  kind : DeclKind
  /-- The text `getNameAsString()` of a `NamedDecl`; empty otherwise. -/
  name : Str
  /-- The declaration `getTypedefNameForAnonDecl()` of a record, if any. -/
  typedefNameForAnonDecl : Option (Fin n)
  /-- The text `SM.getFilename(D->getLocStart())`; empty for a macro-born one. -/
  file : Str
  startLine : Nat
  startColumn : Nat
  endLine : Nat
  endColumn : Nat
  /-- The flag `hasBody()`. -/
  hasBody : Bool
  /-- The flag `isVariadic()` of a function. -/
  isVariadic : Bool
  /-- The parameters of a function. -/
  params : List (Param n)
  /-- The result type of a function, the underlying type of a typedef, the type
  of a variable, field or indirect field. -/
  type : QualType n
  /-- The text `getAsString()` of `type`. -/
  typeText : Str
  /-- The declarations lexically inside a record, `decls_begin() .. decls_end()`. -/
  members : List (Fin n)
  /-- The first declaration of the entity (`getCanonicalDecl()`): two
  declarations are redeclarations of each other when they have the same one. -/
  canonical : Fin n

/-- One parsed translation unit, as the engine sees it when `PrintStats` starts. -/
structure TU (n : Nat) where
  /-- The arena of declarations, in source order. -/
  decl : Fin n → Decl n
  /-- The declarations passed to `HandleTopLevelDecl`, in order: they make up
  `_Ds` and carry the top-level flag. -/
  topLevel : List (Fin n)
  /-- The map `_locations`: the fallback file recorded for a declaration. -/
  locations : Fin n → Str
  /-- The declarations whose `Referenced` bit the parser has set (the seeds). -/
  referenced : List (Fin n)

/-- A row of the table `decls`. -/
structure DeclRecord where
  header : Str
  name : Str
  startLine : Nat
  startColumn : Nat
  endLine : Nat
  endColumn : Nat
  kind : DeclKind
  fromMacro : Bool
  hasBody : Bool
  deriving DecidableEq

/-- A row of the table `prototypes`. -/
structure PrototypeRecord where
  name : Str
  text : Str
  header : Str
  isFunction : Bool
  deriving DecidableEq

/-- A line written to the diagnostic stream `out`. -/
inductive Diag where
  /-- The line `not handled class(...)` of `markTypeReferenced`. -/
  | notHandledType
  /-- The line `Unhandled decl: ...` of `markDependencies`. -/
  | unhandledDecl
  deriving DecidableEq

/-- The mutable state of `DeclFilterConsumer` during `PrintStats`. The rows are
the `INSERT` statements handed to `executeSql`, in order, with a database open
(the store itself, its key constraints and the size of the statement buffer are
outside the model). -/
structure State (n : Nat) where
  /-- The declarations whose `Referenced` bit is set. -/
  referenced : List (Fin n)
  /-- The pending list `_Ds`. -/
  Ds : List (Fin n)
  /-- The rows inserted into `decls`. -/
  decls : List DeclRecord
  /-- The rows inserted into `prototypes`. -/
  prototypes : List PrototypeRecord
  /-- The diagnostic lines written. -/
  out : List Diag
  /-- Trace: the declarations the closure loop has taken, in order. -/
  processed : List (Fin n)

/-! ## The reachability engine -/

/-- The redeclaration chain `redecls_begin() .. redecls_end()` of `d`: `d` first,
then the earlier declarations of the entity from the nearest one back to the
first, then the later ones from the latest one down. -/
def TU.redecls {n : Nat} (tu : TU n) (d : Fin n) : List (Fin n) :=
  d :: (((List.finRange n).filter
          (fun j => decide (j < d) && decide ((tu.decl j).canonical = (tu.decl d).canonical))).reverse
        ++ ((List.finRange n).filter
          (fun j => decide (d < j) && decide ((tu.decl j).canonical = (tu.decl d).canonical))).reverse)

/-- The call `D->isReferenced()`: the `Referenced` bit of `D` or of one of its
redeclarations is set. -/
def isReferenced {n : Nat} (tu : TU n) (s : State n) (d : Fin n) : Bool :=
  (tu.redecls d).any (fun r => decide (r ∈ s.referenced))

/-- `DeclFilterConsumer::markDeclReferenced` (DeclFilter.cpp:169-183). -/
def markDeclReferenced {n : Nat} (tu : TU n) (s : State n) (d : Fin n) : State n :=
  if isReferenced tu s d then s
  else
    let s := { s with referenced := d :: s.referenced, Ds := s.Ds ++ [d] }
    if (tu.decl d).kind = DeclKind.record then
      { s with Ds := s.Ds ++ (tu.redecls d).filter (fun rd => decide (rd ≠ d)) }
    else s

mutual
/-- `DeclFilterConsumer::markTypeReferenced` (DeclFilter.cpp:185-251); the tests
are made in the order of the source (its second `PointerType` test, line 240, can
never be reached and is left out). -/
def markTypeReferenced {n : Nat} (tu : TU n) (s : State n) (t : QualType n) : State n :=
  match t with
  | .builtin => s
  | .typeOfExpr _ => s
  | .typedef d _ => markDeclReferenced tu s d
  | t =>
    match getAsStructureType t with
    | some d => markDeclReferenced tu s d
    | none =>
      match getAsUnionType t with
      | some d => markDeclReferenced tu s d
      | none =>
        match t with
        | .enum d => markDeclReferenced tu s d
        | .pointer p => markTypeReferenced tu s p
        | .elaborated t => markTypeReferenced tu s t
        | .array e => markTypeReferenced tu s e
        | .typeOf u => markTypeReferenced tu s u
        | .functionProto args r => markTypeReferenced tu (markTypesReferenced tu s args) r
        | .paren t => markTypeReferenced tu s t
        | _ => { s with out := s.out ++ [Diag.notHandledType] }
/-- The loop `for (i ...) markTypeReferenced(...)` over a list of types. -/
def markTypesReferenced {n : Nat} (tu : TU n) (s : State n) (ts : List (QualType n)) : State n :=
  match ts with
  | [] => s
  | t :: rest => markTypesReferenced tu (markTypeReferenced tu s t) rest
end

/-- The fields of a record, `field_begin() .. field_end()`: its members that are
`FieldDecl`s. -/
def TU.fields {n : Nat} (tu : TU n) (d : Fin n) : List (Fin n) :=
  (tu.decl d).members.filter (fun m => decide ((tu.decl m).kind = DeclKind.field))

/-- `DeclFilterConsumer::markDependencies` (DeclFilter.cpp:253-279). -/
def markDependencies {n : Nat} (tu : TU n) (s : State n) (d : Fin n) : State n :=
  match (tu.decl d).kind with
  | .function =>
    markTypeReferenced tu
      (markTypesReferenced tu s ((tu.decl d).params.map (fun p => p.type))) (tu.decl d).type
  | .record =>
    let s := (tu.decl d).members.foldl (markDeclReferenced tu) s
    markTypesReferenced tu s ((tu.fields d).map (fun f => (tu.decl f).type))
  | .typedef => markTypeReferenced tu s (tu.decl d).type
  | .enum => s
  | .var => markTypeReferenced tu s (tu.decl d).type
  | .field => markTypeReferenced tu s (tu.decl d).type
  | .indirectField => markTypeReferenced tu s (tu.decl d).type
  | .empty => s
  | .other => { s with out := s.out ++ [Diag.unhandledDecl] }

/-- The file a declaration is taken to be in by `PrintStats`: its own, or
`tryFindFile(D)` (DeclFilter.cpp:281-283) when its own is empty. -/
def fileOf {n : Nat} (tu : TU n) (d : Fin n) : Str :=
  if (tu.decl d).file = [] then tu.locations d else (tu.decl d).file

/-- The test `file.endswith(".c")`: the declaration is in the primary file. -/
def inPrimaryFile {n : Nat} (tu : TU n) (d : Fin n) : Bool :=
  endswith (fileOf tu d) ['.', 'c']

/-- The flag `isTopLevelDeclInObjCContainer()`, set by `HandleTopLevelDecl`. -/
def isTopLevel {n : Nat} (tu : TU n) (d : Fin n) : Bool := decide (d ∈ tu.topLevel)

/-- The name the closure loop records for a declaration (DeclFilter.cpp:453-463):
its own, or for an unnamed record the name of its typedef when it has one. -/
def declName {n : Nat} (tu : TU n) (d : Fin n) : Str :=
  if (tu.decl d).name = [] then
    if (tu.decl d).kind = DeclKind.record then
      match (tu.decl d).typedefNameForAnonDecl with
      | some t => if (tu.decl t).name = [] then (tu.decl d).name else (tu.decl t).name
      | none => (tu.decl d).name
    else (tu.decl d).name
  else (tu.decl d).name

/-- The row the closure loop inserts into `decls` for a declaration
(DeclFilter.cpp:491-493). -/
def declRecord {n : Nat} (tu : TU n) (d : Fin n) : DeclRecord :=
  { header := fileOf tu d
    name := declName tu d
    startLine := (tu.decl d).startLine
    startColumn := (tu.decl d).startColumn
    endLine := (tu.decl d).endLine
    endColumn := (tu.decl d).endColumn
    kind := (tu.decl d).kind
    fromMacro := decide ((tu.decl d).file = [])
    hasBody := (tu.decl d).hasBody }

/-- The row `dumpFunction` inserts into `prototypes` (DeclFilter.cpp:329-357). -/
def dumpFunction {n : Nat} (tu : TU n) (d : Fin n) (file : Str) : PrototypeRecord :=
  { name := (tu.decl d).name
    text := dumpFunctionText (tu.decl d).typeText (tu.decl d).name
      ((tu.decl d).params.map (fun p => p.text)) (tu.decl d).isVariadic
    header := file
    isFunction := true }

/-- The row `dumpVar` inserts into `prototypes` (DeclFilter.cpp:359-368). -/
def dumpVar {n : Nat} (tu : TU n) (d : Fin n) (file : Str) : PrototypeRecord :=
  { name := (tu.decl d).name
    text := dumpVarText (tu.decl d).name (tu.decl d).typeText
    header := file
    isFunction := false }

/-- The state when `PrintStats` starts: the bits set by the parser, `_Ds` as
collected by `HandleTopLevelDecl`, nothing written yet. -/
def initState {n : Nat} (tu : TU n) : State n :=
  { referenced := tu.referenced
    Ds := tu.topLevel
    decls := []
    prototypes := []
    out := []
    processed := [] }

/-- Step 1 of `PrintStats` (DeclFilter.cpp:424-445): erase from `_Ds` every
declaration that is neither referenced nor in the primary file. -/
def prune {n : Nat} (tu : TU n) (s : State n) : State n :=
  { s with Ds := s.Ds.filter (fun d => isReferenced tu s d || inPrimaryFile tu d) }

/-- What the closure loop writes for a declaration outside the primary file
(DeclFilter.cpp:490-498). -/
def persist {n : Nat} (tu : TU n) (s : State n) (d : Fin n) : State n :=
  if isTopLevel tu d then
    let s := { s with decls := s.decls ++ [declRecord tu d] }
    if (tu.decl d).kind = DeclKind.function then
      { s with prototypes := s.prototypes ++ [dumpFunction tu d (fileOf tu d)] }
    else if (tu.decl d).kind = DeclKind.var then
      { s with prototypes := s.prototypes ++ [dumpVar tu d (fileOf tu d)] }
    else s
  else s

/-- One pass of the loop of step 2 of `PrintStats` (DeclFilter.cpp:449-500) on a
non-empty `_Ds`. The iterator `i` starts at `begin()` and every pass ends with
`_Ds.erase(i++)`, so it is always at the front; dependencies are pushed at the
back; the front is erased. -/
def closureStep {n : Nat} (tu : TU n) (s : State n) : State n :=
  match s.Ds with
  | [] => s
  | d :: _ =>
    if inPrimaryFile tu d then
      let s := markDependencies tu s d
      { s with Ds := s.Ds.tail, processed := s.processed ++ [d] }
    else
      let s := markDependencies tu s d
      let s := persist tu s d
      { s with Ds := s.Ds.tail, processed := s.processed ++ [d] }

/-- Step 2 of `PrintStats`: `while (!_Ds.empty())`, for at most `fuel` passes. -/
def closureLoop {n : Nat} (tu : TU n) : Nat → State n → State n
  | 0, s => s
  | fuel + 1, s => if s.Ds = [] then s else closureLoop tu fuel (closureStep tu s)

/-- The number of declarations of the arena that are not referenced. -/
def unreferencedCount {n : Nat} (tu : TU n) (s : State n) : Nat :=
  ((List.finRange n).filter (fun j => !isReferenced tu s j)).length

/-- A number of passes that the closure loop never needs more than: one per
pending declaration and one per declaration that can still be pushed. -/
def closureFuel {n : Nat} (tu : TU n) (s : State n) : Nat :=
  s.Ds.length + unreferencedCount tu s

/-- `DeclFilterConsumer::PrintStats` (DeclFilter.cpp:423-501). -/
def PrintStats {n : Nat} (tu : TU n) : State n :=
  let s := prune tu (initState tu)
  closureLoop tu (closureFuel tu s) s

/-! ## Dependencies and reachability -/

mutual
/-- The declarations `markTypeReferenced` calls `markDeclReferenced` on for a
type, in order (theorem `markTypeReferenced_eq`). -/
def typeTargets {n : Nat} (t : QualType n) : List (Fin n) :=
  match t with
  | .builtin => []
  | .typeOfExpr _ => []
  | .typedef d _ => [d]
  | t =>
    match getAsStructureType t with
    | some d => [d]
    | none =>
      match getAsUnionType t with
      | some d => [d]
      | none =>
        match t with
        | .enum d => [d]
        | .pointer p => typeTargets p
        | .elaborated t => typeTargets t
        | .array e => typeTargets e
        | .typeOf u => typeTargets u
        | .functionProto args r => typesTargets args ++ typeTargets r
        | .paren t => typeTargets t
        | _ => []
/-- The same for a list of types. -/
def typesTargets {n : Nat} (ts : List (QualType n)) : List (Fin n) :=
  match ts with
  | [] => []
  | t :: rest => typeTargets t ++ typesTargets rest
end

/-- The declarations `markDependencies` calls `markDeclReferenced` on for a
declaration, directly or through `markTypeReferenced`, in order (theorem
`markDependencies_eq`). -/
def depTargets {n : Nat} (tu : TU n) (d : Fin n) : List (Fin n) :=
  match (tu.decl d).kind with
  | .function =>
    typesTargets ((tu.decl d).params.map (fun p => p.type)) ++ typeTargets (tu.decl d).type
  | .record =>
    (tu.decl d).members ++ typesTargets ((tu.fields d).map (fun f => (tu.decl f).type))
  | .typedef => typeTargets (tu.decl d).type
  | .enum => []
  | .var => typeTargets (tu.decl d).type
  | .field => typeTargets (tu.decl d).type
  | .indirectField => typeTargets (tu.decl d).type
  | .empty => []
  | .other => []

/-- The declarations `markDeclReferenced` pushes when it newly marks `e`: `e`
and, for a record, its other redeclarations (theorem `markDeclReferenced_eq`). -/
def pushed {n : Nat} (tu : TU n) (e : Fin n) : List (Fin n) :=
  if (tu.decl e).kind = DeclKind.record then
    [e] ++ (tu.redecls e).filter (fun rd => decide (rd ≠ e))
  else [e]

/-- The dependencies of a declaration: what `markDependencies` can mark and
push for it. -/
def deps {n : Nat} (tu : TU n) (d : Fin n) : List (Fin n) :=
  (depTargets tu d).flatMap (pushed tu)

/-- A declaration is a root when it is referenced before `PrintStats` (seed) or
lies in the primary file. -/
def isRoot {n : Nat} (tu : TU n) (d : Fin n) : Bool :=
  isReferenced tu (initState tu) d || inPrimaryFile tu d

/-- A root that is also in the collected list `_Ds`. -/
def isCollectedRoot {n : Nat} (tu : TU n) (d : Fin n) : Bool :=
  isTopLevel tu d && isRoot tu d

/-- Reachability from the declarations satisfying `root` through `deps`. -/
inductive Reach {n : Nat} (tu : TU n) (root : Fin n → Bool) : Fin n → Prop where
  | base {d : Fin n} : root d = true → Reach tu root d
  | step {d e : Fin n} : Reach tu root d → e ∈ deps tu d → Reach tu root e

/-! ## Auxiliary definitions for the proofs -/

/-- The state with diagnostic lines appended to `out`. -/
def addOut {n : Nat} (s : State n) (ds : List Diag) : State n :=
  { s with out := s.out ++ ds }

/-- The calls `markDeclReferenced` on a list of declarations, in order. -/
def markAll {n : Nat} (tu : TU n) (s : State n) (ts : List (Fin n)) : State n :=
  ts.foldl (markDeclReferenced tu) s

mutual
/-- The diagnostic lines `markTypeReferenced` writes for a type. -/
def typeDiags {n : Nat} (t : QualType n) : List Diag :=
  match t with
  | .builtin => []
  | .typeOfExpr _ => []
  | .typedef _ _ => []
  | t =>
    match getAsStructureType t with
    | some _ => []
    | none =>
      match getAsUnionType t with
      | some _ => []
      | none =>
        match t with
        | .enum _ => []
        | .pointer p => typeDiags p
        | .elaborated t => typeDiags t
        | .array e => typeDiags e
        | .typeOf u => typeDiags u
        | .functionProto args r => typesDiags args ++ typeDiags r
        | .paren t => typeDiags t
        | _ => [Diag.notHandledType]
/-- The same for a list of types. -/
def typesDiags {n : Nat} (ts : List (QualType n)) : List Diag :=
  match ts with
  | [] => []
  | t :: rest => typeDiags t ++ typesDiags rest
end

/-- The diagnostic lines `markDependencies` writes for a declaration. -/
def depDiags {n : Nat} (tu : TU n) (d : Fin n) : List Diag :=
  match (tu.decl d).kind with
  | .function =>
    typesDiags ((tu.decl d).params.map (fun p => p.type)) ++ typeDiags (tu.decl d).type
  | .record => typesDiags ((tu.fields d).map (fun f => (tu.decl f).type))
  | .typedef => typeDiags (tu.decl d).type
  | .enum => []
  | .var => typeDiags (tu.decl d).type
  | .field => typeDiags (tu.decl d).type
  | .indirectField => typeDiags (tu.decl d).type
  | .empty => []
  | .other => [Diag.unhandledDecl]

/-- Origin invariant: everything pending or taken is reachable from a root, and
every row written is the row of a declaration taken, top-level and outside the
primary file. -/
def Origin {n : Nat} (tu : TU n) (s : State n) : Prop :=
  (∀ x, x ∈ s.Ds → Reach tu (isRoot tu) x) ∧
  (∀ x, x ∈ s.processed → Reach tu (isRoot tu) x) ∧
  (∀ r, r ∈ s.decls → ∃ d, d ∈ s.processed ∧ isTopLevel tu d = true ∧
    inPrimaryFile tu d = false ∧ r = declRecord tu d) ∧
  (∀ r, r ∈ s.prototypes → ∃ d, d ∈ s.processed ∧ isTopLevel tu d = true ∧
    inPrimaryFile tu d = false ∧
    (((tu.decl d).kind = DeclKind.function ∧ r = dumpFunction tu d (fileOf tu d)) ∨
     ((tu.decl d).kind = DeclKind.var ∧ r = dumpVar tu d (fileOf tu d))))

/-! ## Example translation units -/

/-- A declaration of the given canonical declaration, class, name, file and line,
with every other attribute at its default, to be overridden. -/
def Decl.blank {n : Nat} (canonical : Fin n) (kind : DeclKind) (name file : Str)
    (line : Nat) : Decl n :=
  { kind := kind
    name := name
    typedefNameForAnonDecl := none
    file := file
    startLine := line
    startColumn := 1
    endLine := line
    endColumn := 1
    hasBody := false
    isVariadic := false
    params := []
    type := QualType.builtin
    typeText := []
    members := []
    canonical := canonical }

/-- The end-to-end scenario of the specification (unittests/basic.d/basic.h): a
header with `typedef unsigned int u32; struct ttt { u32 i; }; int foo(struct ttt
*x);` and a primary file `main.c` whose `main` calls `foo`.
Arena: 0 `u32`, 1 `struct ttt`, 2 its field `i`, 3 `foo`, 4 `main`. -/
def tuBasic : TU 5 :=
  { decl := fun d =>
      match d with
      | 0 => { Decl.blank 0 DeclKind.typedef "u32".toList "basic.h".toList 14 with
                typeText := "unsigned int".toList }
      | 1 => { Decl.blank 1 DeclKind.record "ttt".toList "basic.h".toList 16 with
                endLine := 18, members := [2] }
      | 2 => { Decl.blank 2 DeclKind.field "i".toList "basic.h".toList 17 with
                type := QualType.typedef 0 QualType.builtin, typeText := "u32".toList }
      | 3 => { Decl.blank 3 DeclKind.function "foo".toList "basic.h".toList 20 with
                params := [{ type := QualType.pointer (QualType.elaborated (QualType.record false 1)),
                             text := "struct ttt *".toList }]
                typeText := "int".toList }
      | 4 => { Decl.blank 4 DeclKind.function "main".toList "main.c".toList 3 with
                hasBody := true, typeText := "int".toList }
    topLevel := [0, 1, 3, 4]
    locations := fun _ => []
    referenced := [3] }

/-- The same header, with a primary file whose `main` does not call `foo` but reads
the field, `p->i`, of a `struct ttt *p` it declares locally: the parser sets the
`Referenced` bit of the field `i` only. -/
def tuFieldSeed : TU 5 :=
  { tuBasic with referenced := [2] }

/-- The forward-declaration scenario of the specification, after
unittests/struct.d/basic.h: a header with `struct dir;`, later `struct dir { int
d; };` and `extern struct inode foo_4(struct dir *);`, and a primary file whose
`main` calls `foo_4`.
Arena: 0 `struct dir;`, 1 `struct inode`, 2 the definition of `struct dir` (a
redeclaration of 0), 3 its field, 4 `foo_4`, 5 `main`. -/
def tuForward : TU 6 :=
  { decl := fun d =>
      match d with
      | 0 => Decl.blank 0 DeclKind.record "dir".toList "basic.h".toList 28
      | 1 => { Decl.blank 1 DeclKind.record "inode".toList "basic.h".toList 35 with endLine := 37 }
      | 2 => { Decl.blank 0 DeclKind.record "dir".toList "basic.h".toList 38 with
                endLine := 40, members := [3] }
      | 3 => { Decl.blank 3 DeclKind.field "d".toList "basic.h".toList 39 with
                typeText := "int".toList }
      | 4 => { Decl.blank 4 DeclKind.function "foo_4".toList "basic.h".toList 41 with
                params := [{ type := QualType.pointer (QualType.elaborated (QualType.record false 2)),
                             text := "struct dir *".toList }]
                type := QualType.elaborated (QualType.record false 1)
                typeText := "struct inode".toList }
      | 5 => { Decl.blank 5 DeclKind.function "main".toList "main.c".toList 3 with
                hasBody := true, typeText := "int".toList }
    topLevel := [0, 1, 2, 4, 5]
    locations := fun _ => []
    referenced := [4] }

/-- A header `t.h` with a typedef written twice (C11), each followed by a function
that names it, and a primary file whose `main` calls both functions.
Arena: 0 `typedef int T;`, 1 `void bar(T);`, 2 `typedef int T;` again (a
redeclaration of 0), 3 `void foo(T);`, 4 `main`. -/
def tuTypedefTwice : TU 5 :=
  { decl := fun d =>
      match d with
      | 0 => { Decl.blank 0 DeclKind.typedef "T".toList "t.h".toList 1 with
                typeText := "int".toList }
      | 1 => { Decl.blank 1 DeclKind.function "bar".toList "t.h".toList 2 with
                params := [{ type := QualType.typedef 0 QualType.builtin, text := "T".toList }]
                typeText := "void".toList }
      | 2 => { Decl.blank 0 DeclKind.typedef "T".toList "t.h".toList 3 with
                typeText := "int".toList }
      | 3 => { Decl.blank 3 DeclKind.function "foo".toList "t.h".toList 4 with
                params := [{ type := QualType.typedef 2 QualType.builtin, text := "T".toList }]
                typeText := "void".toList }
      | 4 => { Decl.blank 4 DeclKind.function "main".toList "main.c".toList 3 with
                hasBody := true, typeText := "int".toList }
    topLevel := [0, 1, 2, 3, 4]
    locations := fun _ => []
    referenced := [1, 3] }

/-! ## Further definitions for the reachability engine -/

/-- The loop of step 1 of `PrintStats` (DeclFilter.cpp:426-445) as written: the
iterator stands between `before` and the rest of `_Ds`; `_Ds.erase(i++)` drops
the declaration under it, `i++` keeps it. Returns `_Ds` when the iterator has
reached the end. -/
def pruneLoop {n : Nat} (tu : TU n) (s : State n) : List (Fin n) → List (Fin n) → List (Fin n)
  | before, [] => before
  | before, d :: after =>
    if !isReferenced tu s d && !endswith (fileOf tu d) ['.', 'c'] then
      pruneLoop tu s before after
    else pruneLoop tu s (before ++ [d]) after

/-- The referenced flags only grow from `s` to `t`: every `Referenced` bit set in
`s` is set in `t`, and every declaration for which `isReferenced()` holds in `s`
still has it in `t`. -/
def RefGrows {n : Nat} (tu : TU n) (s t : State n) : Prop :=
  (∀ x, x ∈ s.referenced → x ∈ t.referenced) ∧
  (∀ x, isReferenced tu s x = true → isReferenced tu t x = true)

/-! ## `SimplifyPath` (DumpDecls.cpp) -/

/-- The value of a `size_t` that holds a position: npos is the largest one. -/
def sizeValue : Option Nat → Nat
  | none => 2 ^ 64 - 1
  | some p => p

/-- Conversion of a `size_t` value to `int` (32 bits, two's complement). -/
def toInt32 (v : Nat) : Int :=
  if v % 2 ^ 32 < 2 ^ 31 then ((v % 2 ^ 32 : Nat) : Int)
  else ((v % 2 ^ 32 : Nat) : Int) - 2 ^ 32

/-- Conversion of an `int` to `size_t` (64 bits). -/
def toSize (i : Int) : Nat := (i % 2 ^ 64).toNat

/-- The call `s.substr(pos, count)`: at most `count` characters from index `pos`;
`none` when `pos > s.size()` (C++ throws `std::out_of_range`). -/
def substr (s : Str) (pos count : Nat) : Option Str :=
  if pos ≤ s.length then some ((s.drop pos).take count) else none

/-- How a call of `SimplifyPath` ends. -/
inductive PathResult where
  /-- It returns this path. -/
  | value (path : Str)
  /-- A `substr` throws `std::out_of_range`. -/
  | outOfRange
  /-- The loop is still running after the allowed number of passes. -/
  | outOfFuel
  deriving DecidableEq

/-- The body of the loop of `SimplifyPath` (DumpDecls.cpp:49-53), `p` being the
position `path.find("/../")` has found: the new value of `path`. The positions
are kept in `int` variables and go back to `size_t` at each use. -/
def simplifyBody (path : Str) (p : Nat) : Option Str :=
  let pos_dot : Int := toInt32 p
  let pos_delete : Int :=
    toInt32 (sizeValue (rfind path ['/'] (some (toSize (pos_dot - 1)))))
  match substr path 0 (toSize (pos_delete + 1)),
        substr path (toSize (pos_dot + 4))
          (toSize ((path.length : Int) - (toSize pos_dot : Int) - 4)) with
  | some left, some right => some (left ++ right)
  | _, _ => none

/-- The loop `while (path.find("/../") != npos)` of `SimplifyPath`, for at most
`fuel` passes of its body. -/
def simplifyLoop : Nat → Str → PathResult
  | 0, path =>
    match find path ['/', '.', '.', '/'] 0 with
    | none => PathResult.value path
    | some _ => PathResult.outOfFuel
  | fuel + 1, path =>
    match find path ['/', '.', '.', '/'] 0 with
    | none => PathResult.value path
    | some p =>
      match simplifyBody path p with
      | some path' => simplifyLoop fuel path'
      | none => PathResult.outOfRange

/-- `SimplifyPath` (DumpDecls.cpp:44-56), its loop allowed `fuel` passes. -/
def SimplifyPath (fuel : Nat) (path : Str) : PathResult :=
  match find path ['/', '.', '.', '/'] 0 with
  | none => PathResult.value path
  | some _ => simplifyLoop fuel path

/-! ## Macro records: `DeclFilterCallbacks` (DeclFilter.cpp:54-163) -/

/-- What the callbacks read from the macro name token: the identifier, and the
file and expansion line of the token's location. -/
structure Token where
  name : Str
  file : Str
  line : Nat

/-- What `addMacro` reads from the `MacroInfo` of a directive: the file of the
definition location and the expansion line and column of the definition's start
and end. -/
structure MacroInfo where
  file : Str
  startLine : Nat
  startColumn : Nat
  endLine : Nat
  endColumn : Nat

/-- A preprocessor event about a macro, as the preprocessor reports it to its
`PPCallbacks`. `md` is the `MacroDirective *` of the call: `none` is a null
pointer, the macro is not defined at that point. -/
inductive PPEvent where
  /-- `MacroDefined`: a `#define` (a definition or a redefinition). -/
  | macroDefined (tok : Token) (md : MacroInfo)
  /-- `MacroUndefined`: an `#undef`. -/
  | macroUndefined (tok : Token) (md : Option MacroInfo)
  /-- `Defined`: a `defined(X)` in a condition. -/
  | defined (tok : Token) (md : Option MacroInfo)
  /-- `Ifdef`: an `#ifdef`. -/
  | ifdef (tok : Token) (md : Option MacroInfo)
  /-- `Ifndef`: an `#ifndef`. -/
  | ifndef (tok : Token) (md : Option MacroInfo)
  /-- `MacroExpands`: an expansion of the macro. -/
  | macroExpands (tok : Token) (md : Option MacroInfo)

/-- A row of the table `macros`. -/
structure MacroRecord where
  header : Str
  name : Str
  startLine : Nat
  startColumn : Nat
  endLine : Nat
  endColumn : Nat
  deriving DecidableEq

/-- `DeclFilterCallbacks::addMacro` (DeclFilter.cpp:57-70): the row of the
macro's definition range, appended to the rows inserted so far. -/
def addMacro (rows : List MacroRecord) (tok : Token) (mi : MacroInfo) : List MacroRecord :=
  rows ++ [{ header := mi.file, name := tok.name, startLine := mi.startLine,
             startColumn := mi.startColumn, endLine := mi.endLine,
             endColumn := mi.endColumn }]

/-- `DeclFilterCallbacks::removeMacro` (DeclFilter.cpp:72-82): a row at the line
of the `#undef`, with both columns 1. -/
def removeMacro (rows : List MacroRecord) (tok : Token) : List MacroRecord :=
  rows ++ [{ header := tok.file, name := tok.name, startLine := tok.line,
             startColumn := 1, endLine := tok.line, endColumn := 1 }]

/-- The callback `DeclFilterCallbacks` runs for an event (DeclFilter.cpp:91-122).
The class does not override `MacroDefined`: the empty one of `PPCallbacks` runs.
The others act `if (MD)`. -/
def onMacroEvent (rows : List MacroRecord) : PPEvent → List MacroRecord
  | .macroDefined _ _ => rows
  | .macroUndefined tok md =>
    match md with
    | some _ => removeMacro rows tok
    | none => rows
  | .defined tok md =>
    match md with
    | some mi => addMacro rows tok mi
    | none => rows
  | .ifdef tok md =>
    match md with
    | some mi => addMacro rows tok mi
    | none => rows
  | .ifndef tok md =>
    match md with
    | some mi => addMacro rows tok mi
    | none => rows
  | .macroExpands tok md =>
    match md with
    | some mi => addMacro rows tok mi
    | none => rows

/-- The rows inserted into `macros` for a stream of events. -/
def macroRows (events : List PPEvent) : List MacroRecord :=
  events.foldl onMacroEvent []

/-- The rows an event stands for in `macros`: none for a definition or for an
event on a macro that is not defined; for a use of a defined macro the row of the
macro's definition; for an `#undef` of a defined macro a row at the `#undef`. -/
def rowsOfEvent : PPEvent → List MacroRecord
  | .macroDefined _ _ => []
  | .macroUndefined tok (some _) =>
    [{ header := tok.file, name := tok.name, startLine := tok.line,
       startColumn := 1, endLine := tok.line, endColumn := 1 }]
  | .defined tok (some mi) | .ifdef tok (some mi) | .ifndef tok (some mi)
  | .macroExpands tok (some mi) =>
    [{ header := mi.file, name := tok.name, startLine := mi.startLine,
       startColumn := mi.startColumn, endLine := mi.endLine, endColumn := mi.endColumn }]
  | _ => []

/-- The macro `MAX_INT` of unittests/basic.d/basic.h, line 3. -/
def maxIntToken : Token := { name := "MAX_INT".toList, file := "basic.h".toList, line := 3 }

/-- The definition range of `MAX_INT`. -/
def maxIntInfo : MacroInfo :=
  { file := "basic.h".toList, startLine := 3, startColumn := 9, endLine := 3, endColumn := 17 }

/-! ## Declarations nested in a record -/

/-- The declaration `x` is lexically inside the record `d`, at any depth: it is a
member of `d`, or a member of a record that is itself inside `d`. -/
inductive Nested {n : Nat} (tu : TU n) (d : Fin n) : Fin n → Prop where
  | member {x : Fin n} : x ∈ (tu.decl d).members → Nested tu d x
  | deeper {m x : Fin n} : Nested tu d m → (tu.decl m).kind = DeclKind.record →
      x ∈ (tu.decl m).members → Nested tu d x

/-- A header `n.h` with `typedef unsigned int u32; struct outer { struct inner {
u32 y; } in; }; void use(struct outer *);` and a primary file whose `main` calls
`use`. Arena: 0 `u32`, 1 `struct outer`, 2 `struct inner` (inside 1), 3 the field
`in` of 1, 4 the field `y` of 2, 5 `use`, 6 `main`. -/
def tuNested : TU 7 :=
  { decl := fun d =>
      match d with
      | 0 => { Decl.blank 0 DeclKind.typedef "u32".toList "n.h".toList 1 with
                typeText := "unsigned int".toList }
      | 1 => { Decl.blank 1 DeclKind.record "outer".toList "n.h".toList 2 with
                endLine := 6, members := [2, 3] }
      | 2 => { Decl.blank 2 DeclKind.record "inner".toList "n.h".toList 3 with
                endLine := 5, members := [4] }
      | 3 => { Decl.blank 3 DeclKind.field "in".toList "n.h".toList 3 with
                endLine := 5
                type := QualType.elaborated (QualType.record false 2)
                typeText := "struct inner".toList }
      | 4 => { Decl.blank 4 DeclKind.field "y".toList "n.h".toList 4 with
                type := QualType.typedef 0 QualType.builtin, typeText := "u32".toList }
      | 5 => { Decl.blank 5 DeclKind.function "use".toList "n.h".toList 7 with
                params := [{ type := QualType.pointer (QualType.elaborated (QualType.record false 1)),
                             text := "struct outer *".toList }]
                typeText := "void".toList }
      | 6 => { Decl.blank 6 DeclKind.function "main".toList "main.c".toList 3 with
                hasBody := true, typeText := "int".toList }
    topLevel := [0, 1, 5, 6]
    locations := fun _ => []
    referenced := [5] }

/-- The same translation unit when the parser has also set the `Referenced` bit
of the nested `struct inner`. -/
def tuNestedSeed : TU 7 :=
  { tuNested with referenced := [5, 2] }

/-! ## `printRecord` and `printEnum` (DumpDecls.cpp)

A record is given with the declarations lexically inside it, as a tree. The
consumer keeps the set `explored`, the map `defs` and what it writes. -/

/-- The answer of `getTypeString(qt)` depends on `isEnumeralType()`,
`isStructureType()` and `isUnionType()`, tested in that order. -/
inductive TypeTag where
  | enumType
  | structType
  | unionType
  | other
  deriving DecidableEq

/-- What `printRecord` reads from a `FieldDecl`. -/
structure FieldInfo where
  /-- The text `getNameAsString()`; empty for an anonymous member. -/
  name : Str
  /-- The text `getType().getAsString()`. -/
  typeText : Str
  /-- The flag `getType()->hasUnnamedOrLocalType()`. -/
  hasUnnamedOrLocalType : Bool
  /-- The kind of `getType()`. -/
  typeTag : TypeTag
  /-- The text `getLocStart().printToString(SM)`: file, line and column. -/
  locStart : Str
  /-- The text `getLocEnd().printToString(SM)`. -/
  locEnd : Str

/-- What `printEnum` reads from an `EnumDecl`. -/
structure EnumInfo where
  name : Str
  /-- The name of `getTypedefNameForAnonDecl()`, when there is one. -/
  typedefName : Option Str
  locStart : Str
  locEnd : Str
  /-- The enumerators: name and `getInitVal().toString(10)`. -/
  enumerators : List (Str × Str)

/-- What `printRecord` reads from a `RecordDecl`, its members apart. -/
structure RecordInfo where
  name : Str
  /-- The name of `getTypedefNameForAnonDecl()`, when there is one. -/
  typedefName : Option Str
  locStart : Str
  locEnd : Str
  /-- The flag `isUnion()`. -/
  isUnion : Bool
  /-- The test `d->getDefinition() && d->getDefinition() != d`. -/
  definedElsewhere : Bool

/-- A declaration as `printRecord` meets it: a record with the declarations
inside it (`decls_begin() .. decls_end()`), an enum, a field, or anything else. -/
inductive NestedDecl where
  | record (info : RecordInfo) (decls : List NestedDecl)
  | enum (info : EnumInfo)
  | field (info : FieldInfo)
  | other

/-- An entry of the map `defs`: the fields `def` and `type` of `DefInfo`. -/
structure DefInfo where
  text : Str
  type : Nat
  deriving DecidableEq

/-- A row `printRecord` or `printEnum` inserts into the table `decls` of
DumpDecls (`INSERT INTO decls VALUES (...)`): name, type code, file, the text put
in the line column, and definition text. (The statement is built in a buffer of
`BUF_SIZE` bytes; its truncation and the store are outside the model.) -/
structure DumpRow where
  name : Str
  type : Nat
  file : Str
  linum : Str
  text : Str
  deriving DecidableEq

/-- A row of the table `record_fields`. -/
structure RecordFieldRow where
  record : Str
  field : Str
  text : Str
  deriving DecidableEq

/-- The state of `DumpDeclsConsumer`: the global set `explored`, the map `defs`
(latest entry of a key first), the rows inserted and the lines printed. -/
structure DumpState where
  explored : List Str
  defs : List (Str × DefInfo)
  recordFields : List RecordFieldRow
  decls : List DumpRow
  exploredRows : List Str
  outs : List Str
  deriving DecidableEq

/-- The code `TYPE_STRUCT`. -/
def TYPE_STRUCT : Nat := 3

/-- The code `TYPE_ENUM`. -/
def TYPE_ENUM : Nat := 5

/-- The code `TYPE_UNION`. -/
def TYPE_UNION : Nat := 6

/-- The end of `getLocStart` and `getLocation` (DumpDecls.cpp:258-268):
`loc.substr(0, loc.rfind(':'))`, the text before the last colon. -/
def stripColumn (loc : Str) : Str :=
  match rfind loc [':'] none with
  | some pos => loc.take pos
  | none => loc

/-- `DumpDeclsConsumer::nameAnonymous` (DumpDecls.cpp:271-277): the dots removed,
then `/`, `:` and `-` replaced by `_`. -/
def nameAnonymous (loc : Str) : Str :=
  (loc.filter (fun c => c != '.')).map
    (fun c => if c = '/' ∨ c = ':' ∨ c = '-' then '_' else c)

/-- `getTypeString(int type)` (DumpDecls.cpp:279-289). -/
def getTypeString (type : Nat) : Str :=
  if type = TYPE_ENUM then "enum ".toList
  else if type = TYPE_STRUCT then "struct ".toList
  else if type = TYPE_UNION then "union ".toList
  else []

/-- `getTypeString(const QualType qt)` (DumpDecls.cpp:291-299). -/
def getTypeStringOf : TypeTag → Str
  | .enumType => "enum ".toList
  | .structType => "struct ".toList
  | .unionType => "union ".toList
  | .other => []

/-- The entry `defs[key]`: a key that is absent reads as the empty `DefInfo`
(`operator[]` then inserts that empty entry, which reads the same afterwards). -/
def defsGet (defs : List (Str × DefInfo)) (key : Str) : DefInfo :=
  match defs.lookup key with
  | some info => info
  | none => { text := [], type := 0 }

/-- `DumpDeclsConsumer::RecordExploredFiles` (DumpDecls.cpp:649-656). -/
def RecordExploredFiles (conn : Bool) (st : DumpState) (file : Str) : DumpState :=
  if conn then
    { st with explored := st.explored ++ [file], exploredRows := st.exploredRows ++ [file] }
  else st

/-- The fields of a record, `field_begin() .. field_end()`. -/
def fieldsOf : List NestedDecl → List FieldInfo
  | [] => []
  | NestedDecl.field f :: rest => f :: fieldsOf rest
  | _ :: rest => fieldsOf rest

/-- The pair `(name, type)` the first loop over the fields stores for a field
(DumpDecls.cpp:436-451). -/
def fieldPair (f : FieldInfo) : Str × Str :=
  if f.hasUnnamedOrLocalType then
    if f.name = [] then
      (f.name, getTypeStringOf f.typeTag ++ nameAnonymous (stripColumn f.locStart))
    else (f.name, getTypeStringOf f.typeTag ++ nameAnonymous (stripColumn f.locEnd))
  else (f.name, f.typeText)

/-- The text `decl` of a stored field (DumpDecls.cpp:460-465). -/
def fieldDecl (defs : List (Str × DefInfo)) (field : Str × Str) : Str :=
  if field.1 = [] then getTypeString (defsGet defs field.2).type ++ (defsGet defs field.2).text
  else printNameWithType field.1 field.2 false

/-- The C string held by `char c[2]` when its first byte is `b`. -/
def counterText (b : Nat) : Str := if b = 0 then [] else [Char.ofNat b]

/-- The second loop over the fields (DumpDecls.cpp:458-481): `os` is the stream,
`c` the byte `c[0]`, `rows` the rows inserted into `record_fields`. -/
def renderFields (conn : Bool) (defs : List (Str × DefInfo)) (record : Str) :
    List (Str × Str) → Str → Nat → List RecordFieldRow → Str × List RecordFieldRow
  | [], os, _, rows => (os, rows)
  | field :: rest, os, c, rows =>
    let decl := fieldDecl defs field
    if conn then
      if field.1 = [] then
        renderFields conn defs record rest (os ++ decl ++ [';', ' ']) ((c + 1) % 256)
          (rows ++ [{ record := record, field := "anonymous_".toList ++ counterText c,
                      text := decl }])
      else
        renderFields conn defs record rest (os ++ decl ++ [';', ' ']) c
          (rows ++ [{ record := record, field := field.1, text := decl }])
    else renderFields conn defs record rest (os ++ decl ++ [';', ' ']) c rows

/-- The text of the enumerators in `printEnum` (DumpDecls.cpp:569-574). -/
def enumeratorsText : List (Str × Str) → Str
  | [] => []
  | e :: rest => e.1 ++ " = ".toList ++ e.2 ++ ", ".toList ++ enumeratorsText rest

/-- How a call of `printRecord` or `printEnum` ends. -/
inductive DumpResult where
  /-- It returns, the consumer being in this state. -/
  | done (st : DumpState)
  /-- A `substr` inside `SimplifyPath` throws `std::out_of_range`. -/
  | outOfRange
  /-- The loop of a `SimplifyPath` is still running after the allowed number of
  passes. -/
  | outOfFuel
  deriving DecidableEq

/-- The text `location.substr(0, first)` with `first = location.find(':')`
(DumpDecls.cpp:400-401): the file of a location; all of it when there is no
colon (`first` is npos). -/
def locationFile (location : Str) : Str :=
  match find location [':'] 0 with
  | some first => location.take first
  | none => location

/-- The text `location.substr(first + 1, second - first - 1)` with `second =
location.find(':', first + 1)` (DumpDecls.cpp:400-402): the line of a location.
Without a first colon `first + 1` wraps to 0 and the count to npos: all of it. -/
def locationLine (location : Str) : Str :=
  match find location [':'] 0 with
  | some first =>
    match find location [':'] (first + 1) with
    | some second => (location.drop (first + 1)).take (second - first - 1)
    | none => location.drop (first + 1)
  | none => location

/-- The test `isspace` of the C locale. -/
def isSpace (c : Char) : Bool :=
  decide (c.toNat = 32 ∨ (9 ≤ c.toNat ∧ c.toNat ≤ 13))

/-- The digits read by `atoi`, `acc` being the value so far. -/
def atoiDigits : Str → Nat → Nat
  | [], acc => acc
  | c :: rest, acc =>
    if 48 ≤ c.toNat ∧ c.toNat ≤ 57 then atoiDigits rest (acc * 10 + (c.toNat - 48)) else acc

/-- The call `atoi(s)`: white space skipped, an optional sign, then the decimal
digits up to the first other character. (The value is undefined in C when it does
not fit an `int`; a line number does.) -/
def atoi (s : Str) : Int :=
  match s.dropWhile isSpace with
  | '-' :: rest => - (atoiDigits rest 0 : Int)
  | '+' :: rest => (atoiDigits rest 0 : Int)
  | rest => (atoiDigits rest 0 : Int)

/-- The conversion `%d` of `snprintf`. -/
def decimal (i : Int) : Str :=
  if i < 0 then '-' :: Nat.toDigits 10 i.natAbs else Nat.toDigits 10 i.natAbs

/-- The name `printEnum` gives an enum and the flag `anonymous`
(DumpDecls.cpp:557-565). -/
def enumName (d : EnumInfo) : Str × Bool :=
  if d.name = [] then
    match d.typedefName with
    | some t => if t = [] then (nameAnonymous (stripColumn d.locEnd), true) else (t, false)
    | none => (nameAnonymous (stripColumn d.locEnd), true)
  else (d.name, false)

/-- The text `os` of `printEnum` (DumpDecls.cpp:567-575). -/
def enumText (d : EnumInfo) : Str :=
  "enum ".toList ++ (enumName d).1 ++ " \x7b".toList ++ enumeratorsText d.enumerators
    ++ "\x7d;".toList

/-- The key `n` under which `printEnum` records its text in `defs`
(DumpDecls.cpp:581). -/
def enumKey (d : EnumInfo) : Str :=
  "enum ".toList ++
    (if (enumName d).2 then nameAnonymous (stripColumn d.locStart) else (enumName d).1)

/-- `DumpDeclsConsumer::printEnum` (DumpDecls.cpp:544-612); `conn` tells whether
a database is open, `fuel` is what the loop of `SimplifyPath` is allowed. -/
def printEnum (fuel : Nat) (conn : Bool) (st : DumpState) (d : EnumInfo) (recording : Bool) :
    DumpResult :=
  let location := stripColumn d.locEnd
  if (location ++ d.name) ∈ st.explored then DumpResult.done st
  else
    let st := RecordExploredFiles conn st (location ++ d.name)
    let name := (enumName d).1
    let os := enumText d
    if d.enumerators.length = 0 then DumpResult.done st
    else
      let st :=
        if recording then
          { st with defs := (enumKey d, { text := os, type := TYPE_STRUCT }) :: st.defs }
        else st
      if conn then
        match SimplifyPath fuel (locationFile location) with
        | PathResult.value file =>
          let st :=
            if name = [] then st
            else { st with decls := st.decls ++
                    [{ name := name, type := TYPE_ENUM, file := file,
                       linum := locationLine location, text := os }] }
          DumpResult.done
            { st with decls := st.decls ++ d.enumerators.map (fun e =>
                { name := e.1, type := TYPE_ENUM, file := file,
                  linum := locationLine location, text := os }) }
        | PathResult.outOfRange => DumpResult.outOfRange
        | PathResult.outOfFuel => DumpResult.outOfFuel
      else
        DumpResult.done
          { st with outs := st.outs ++ [location ++ ":\t".toList ++ os ++ "\n".toList] }

/-- The name `printRecord` gives a record and the flag `anonymous`
(DumpDecls.cpp:414-422). -/
def recordName (info : RecordInfo) : Str × Bool :=
  if info.name = [] then
    match info.typedefName with
    | some t =>
      if t = [] then (nameAnonymous (stripColumn info.locEnd), true) else (t, false)
    | none => (nameAnonymous (stripColumn info.locEnd), true)
  else (info.name, false)

/-- The keyword of a record, `d->isUnion() ? "union" : "struct"`. -/
def recordKeyword (info : RecordInfo) : Str :=
  if info.isUnion then "union".toList else "struct".toList

/-- The key `n` under which `printRecord` records its text in `defs`
(DumpDecls.cpp:485-486). -/
def recordKey (info : RecordInfo) : Str :=
  (if info.isUnion then "union ".toList else "struct ".toList)
    ++ (if (recordName info).2 then nameAnonymous (stripColumn info.locStart)
        else (recordName info).1)

/-- The end of `printRecord` (DumpDecls.cpp:456-509), from the second loop over
the fields on: the fields are rendered with the map `defs` as it is then, the text
is recorded when asked for, `SimplifyPath` is called on the file, and the row or
the line is written. -/
def finishRecord (fuel : Nat) (conn : Bool) (st : DumpState) (info : RecordInfo)
    (decls : List NestedDecl) (recording : Bool) : DumpResult :=
  let location := stripColumn info.locEnd
  let name := (recordName info).1
  let rendered := renderFields conn st.defs
    (recordKeyword info ++ [' '] ++ name) ((fieldsOf decls).map fieldPair)
    "\x7b ".toList 97 st.recordFields
  let os := rendered.1 ++ ['}']
  let st := { st with recordFields := rendered.2 }
  let st :=
    if recording then
      { st with defs :=
          (recordKey info,
           { text := os, type := if info.isUnion then TYPE_UNION else TYPE_STRUCT })
          :: st.defs }
    else st
  match SimplifyPath fuel (locationFile location) with
  | PathResult.value file =>
    if conn then
      DumpResult.done
        { st with decls := st.decls ++
            [{ name := name, type := TYPE_STRUCT, file := file,
               linum := decimal (atoi (locationLine location)),
               text := recordKeyword info ++ [' '] ++ name ++ [' '] ++ os }] }
    else
      DumpResult.done
        { st with outs := st.outs ++
            [location ++ ":\t".toList ++ recordKeyword info ++ [' '] ++ name ++ [' '] ++ os
              ++ "\n".toList] }
  | PathResult.outOfRange => DumpResult.outOfRange
  | PathResult.outOfFuel => DumpResult.outOfFuel

mutual
/-- `DumpDeclsConsumer::printRecord` (DumpDecls.cpp:395-510); `conn` tells
whether a database is open, `fuel` is what the loop of each `SimplifyPath` is
allowed. (The parameter `linumBefore` is never passed by a caller: it is -1 and
leaves the line as `atoi` reads it.) -/
def printRecord (fuel : Nat) (conn : Bool) (st : DumpState) (d : NestedDecl)
    (recording : Bool) : DumpResult :=
  match d with
  | .record info decls =>
    let location := stripColumn info.locEnd
    if (location ++ info.name) ∈ st.explored then DumpResult.done st
    else
      let st := RecordExploredFiles conn st (location ++ info.name)
      if info.definedElsewhere then DumpResult.done st
      else
        match printNested fuel conn st decls with
        | DumpResult.done st => finishRecord fuel conn st info decls recording
        | DumpResult.outOfRange => DumpResult.outOfRange
        | DumpResult.outOfFuel => DumpResult.outOfFuel
  | _ => DumpResult.done st
/-- The loop over the declarations inside a record (DumpDecls.cpp:424-434): the
nested records and enums are printed with `recording` set. -/
def printNested (fuel : Nat) (conn : Bool) (st : DumpState) (decls : List NestedDecl) :
    DumpResult :=
  match decls with
  | [] => DumpResult.done st
  | d :: rest =>
    match d with
    | .record _ _ =>
      match printRecord fuel conn st d true with
      | DumpResult.done st => printNested fuel conn st rest
      | DumpResult.outOfRange => DumpResult.outOfRange
      | DumpResult.outOfFuel => DumpResult.outOfFuel
    | .enum e =>
      match printEnum fuel conn st e true with
      | DumpResult.done st => printNested fuel conn st rest
      | DumpResult.outOfRange => DumpResult.outOfRange
      | DumpResult.outOfFuel => DumpResult.outOfFuel
    | _ => printNested fuel conn st rest
end

/-- The consumer before anything is printed, nothing explored. -/
def DumpState.empty : DumpState :=
  { explored := [], defs := [], recordFields := [], decls := [], exploredRows := [], outs := [] }

/-- The definition text of a record whose fields are read with the map `defs`:
`{ `, then for every field, in order, its declaration text followed by `; `,
then `}`. -/
def recordText (defs : List (Str × DefInfo)) (decls : List NestedDecl) : Str :=
  "\x7b ".toList
    ++ (fieldsOf decls).flatMap (fun f => fieldDecl defs (fieldPair f) ++ [';', ' '])
    ++ ['}']

mutual
/-- The entry that one declaration directly inside a record leaves in `defs`: a
nested record that is a definition leaves the definition text read off its own
declarations, under its key and with its type code; a nested enum with
enumerators leaves its text under its key; anything else leaves nothing. -/
def nestedDefsOf : NestedDecl → List (Str × DefInfo)
  | .record info decls =>
    if info.definedElsewhere then []
    else
      [(recordKey info,
        { text := recordText (nestedDefs decls) decls,
          type := if info.isUnion then TYPE_UNION else TYPE_STRUCT })]
  | .enum e =>
    if e.enumerators.length = 0 then []
    else [(enumKey e, { text := enumText e, type := TYPE_STRUCT })]
  | _ => []
/-- The entries that the declarations directly inside a record leave in `defs`,
latest first. Declarations deeper inside are left out. -/
def nestedDefs : List NestedDecl → List (Str × DefInfo)
  | [] => []
  | d :: rest => nestedDefs rest ++ nestedDefsOf d
end

mutual
/-- The entries that one declaration inside a record and the declarations inside
it, at any depth, leave in `defs` when none is skipped, latest first. -/
def allDefsOf : NestedDecl → List (Str × DefInfo)
  | .record info decls =>
    if info.definedElsewhere then []
    else
      (recordKey info,
        { text := recordText (nestedDefs decls) decls,
          type := if info.isUnion then TYPE_UNION else TYPE_STRUCT }) :: allDefs decls
  | .enum e =>
    if e.enumerators.length = 0 then []
    else [(enumKey e, { text := enumText e, type := TYPE_STRUCT })]
  | _ => []
/-- The same for a list of declarations. -/
def allDefs : List NestedDecl → List (Str × DefInfo)
  | [] => []
  | d :: rest => allDefs rest ++ allDefsOf d
end

mutual
/-- The keys that `printRecord` and `printEnum` test and add to `explored` for
one declaration inside a record and the declarations inside it, at any depth, in
the order of the calls (a record that is defined elsewhere is left before its
declarations are visited). -/
def allExploredOf : NestedDecl → List Str
  | .record info decls =>
    if info.definedElsewhere then [stripColumn info.locEnd ++ info.name]
    else (stripColumn info.locEnd ++ info.name) :: allExplored decls
  | .enum e => [stripColumn e.locEnd ++ e.name]
  | _ => []
/-- The same for a list of declarations. -/
def allExplored : List NestedDecl → List Str
  | [] => []
  | d :: rest => allExploredOf d ++ allExplored rest
end

/-- Does `SimplifyPath` return on the file of a location within `fuel` passes. -/
def pathReturns (fuel : Nat) (location : Str) : Bool :=
  match SimplifyPath fuel (locationFile location) with
  | PathResult.value _ => true
  | _ => false

/-- Is every unnamed field among the declarations of a record an anonymous member
whose key is the key of a record or enum directly inside. -/
def membersKeyed (decls : List NestedDecl) : Bool :=
  (fieldsOf decls).all (fun f =>
    decide (f.name ≠ []) || decide ((fieldPair f).2 ∈ (nestedDefs decls).map Prod.fst))

mutual
/-- The conditions on one declaration inside a record under which it is rendered
from its own declarations: for a nested record that is a definition,
`SimplifyPath` returns on its file, its unnamed fields are keyed, and the same
holds inside it; for a nested enum that reaches `SimplifyPath`, it returns. -/
def renderableDecl (fuel : Nat) (conn : Bool) : NestedDecl → Bool
  | .record info decls =>
    if info.definedElsewhere then true
    else
      pathReturns fuel (stripColumn info.locEnd) && membersKeyed decls &&
        renderable fuel conn decls
  | .enum e =>
    !conn || decide (e.enumerators.length = 0) || pathReturns fuel (stripColumn e.locEnd)
  | _ => true
/-- The same for every declaration of a list. -/
def renderable (fuel : Nat) (conn : Bool) : List NestedDecl → Bool
  | [] => true
  | d :: rest => renderableDecl fuel conn d && renderable fuel conn rest
end

/-- The record `struct nested` of the fixture in a header whose path starts with
`/../`. -/
def recLeadingMarker : NestedDecl :=
  NestedDecl.record
    { name := "nested".toList, typedefName := none, locStart := "/../x.h:20:1".toList,
      locEnd := "/../x.h:25:1".toList, isUnion := false, definedElsewhere := false }
    [ NestedDecl.field
        { name := "c".toList, typeText := "u8".toList, hasUnnamedOrLocalType := false,
          typeTag := TypeTag.other, locStart := "/../x.h:22:3".toList,
          locEnd := "/../x.h:22:6".toList } ]

/-! ## Dead ends of the type walk, and the typedef fixture -/

/-- Whether one of the tests of `markTypeReferenced` (DeclFilter.cpp:188-248)
succeeds on the type itself, in the order of the source, so that the call returns
before its last line (DeclFilter.cpp:250). -/
def typeHandled {n : Nat} (t : QualType n) : Bool :=
  match t with
  | .builtin => true
  | .typeOfExpr _ => true
  | .typedef _ _ => true
  | t =>
    (getAsStructureType t).isSome || (getAsUnionType t).isSome ||
      (match t with
       | .enum _ => true
       | .pointer _ => true
       | .elaborated _ => true
       | .array _ => true
       | .typeOf _ => true
       | .functionProto _ _ => true
       | .paren _ => true
       | _ => false)

/-- The typedef fixture (unittests/typedef.d/basic.h): `typedef unsigned char u8;
typedef unsigned int u32; struct ttt { u32 i; }; typedef struct ttt tt;`, with a
primary file `main.c` whose `main` is the only other declaration.
Arena: 0 `u8`, 1 `u32`, 2 `struct ttt`, 3 its field `i`, 4 `tt`, 5 `main`. -/
def tuTypedef : TU 6 :=
  { decl := fun d =>
      match d with
      | 0 => { Decl.blank 0 DeclKind.typedef "u8".toList "basic.h".toList 12 with
                typeText := "unsigned char".toList }
      | 1 => { Decl.blank 1 DeclKind.typedef "u32".toList "basic.h".toList 13 with
                typeText := "unsigned int".toList }
      | 2 => { Decl.blank 2 DeclKind.record "ttt".toList "basic.h".toList 15 with
                endLine := 17, members := [3] }
      | 3 => { Decl.blank 3 DeclKind.field "i".toList "basic.h".toList 16 with
                type := QualType.typedef 1 QualType.builtin, typeText := "u32".toList }
      | 4 => { Decl.blank 4 DeclKind.typedef "tt".toList "basic.h".toList 18 with
                type := QualType.elaborated (QualType.record false 2)
                typeText := "struct ttt".toList }
      | 5 => { Decl.blank 5 DeclKind.function "main".toList "main.c".toList 3 with
                hasBody := true, typeText := "int".toList }
    topLevel := [0, 1, 2, 4, 5]
    locations := fun _ => []
    referenced := [] }

/-- The type `tt` of the typedef fixture, as a use of it is typed: a `TypedefType`
of the declaration `tt` that desugars to `struct ttt`. -/
def ttType : QualType 6 :=
  QualType.typedef 4 (QualType.elaborated (QualType.record false 2))

/-- A translation unit with what `markTypeReferenced` and `markDependencies` do
not test for: a header `v.h` with `typedef int fn_t();` (the underlying type is a
`FunctionNoProtoType`), and a primary file `main.c` with a file-scope
`asm("nop");` (a `FileScopeAsmDecl`) and a `main` that uses `fn_t`.
Arena: 0 `fn_t`, 1 the `asm` declaration, 2 `main`. -/
def tuDeadEnds : TU 3 :=
  { decl := fun d =>
      match d with
      | 0 => { Decl.blank 0 DeclKind.typedef "fn_t".toList "v.h".toList 1 with
                type := QualType.unhandled, typeText := "int ()".toList }
      | 1 => Decl.blank 1 DeclKind.other [] "main.c".toList 1
      | 2 => { Decl.blank 2 DeclKind.function "main".toList "main.c".toList 3 with
                hasBody := true, typeText := "int".toList }
    topLevel := [0, 1, 2]
    locations := fun _ => []
    referenced := [0] }
/-! ## Properties of the string primitives -/

theorem findGo_some {needle : Str} : ∀ (s : Str) (i j : Nat), findGo needle i s = some j →
    ∃ k, j = i + k ∧ k ≤ s.length ∧ needle <+: s.drop k ∧ ∀ m, m < k → ¬ needle <+: s.drop m
  | [], i, j, h => by
    simp only [findGo] at h
    split at h
    · rename_i hp
      refine ⟨0, ?_, ?_, ?_, ?_⟩
      · simpa using (Option.some.inj h).symm
      · simp
      · simpa [List.isPrefixOf_iff_prefix] using hp
      · intro m hm; omega
    · simp at h
  | c :: t, i, j, h => by
    simp only [findGo] at h
    split at h
    · rename_i hp
      refine ⟨0, ?_, ?_, ?_, ?_⟩
      · simpa using (Option.some.inj h).symm
      · simp
      · simpa [List.isPrefixOf_iff_prefix] using hp
      · intro m hm; omega
    · rename_i hp
      obtain ⟨k, hj, hk, hpre, hmin⟩ := findGo_some t (i + 1) j h
      refine ⟨k + 1, by omega, by simp; omega, by simpa using hpre, ?_⟩
      intro m hm
      cases m with
      | zero => simpa [List.isPrefixOf_iff_prefix] using hp
      | succ m => simpa using hmin m (by omega)

theorem findGo_none {needle : Str} : ∀ (s : Str) (i : Nat), findGo needle i s = none →
    ∀ k, k ≤ s.length → ¬ needle <+: s.drop k
  | [], i, h => by
    intro k hk
    simp only [findGo] at h
    split at h
    · simp at h
    · rename_i hp
      have : k = 0 := by simpa using hk
      subst this
      simpa [List.isPrefixOf_iff_prefix] using hp
  | c :: t, i, h => by
    intro k hk
    simp only [findGo] at h
    split at h
    · simp at h
    · rename_i hp
      cases k with
      | zero => simpa [List.isPrefixOf_iff_prefix] using hp
      | succ k =>
        have := findGo_none t (i + 1) h k (by simpa using hk)
        simpa using this

theorem infix_iff_drop (needle s : Str) :
    needle <:+: s ↔ ∃ k, k ≤ s.length ∧ needle <+: s.drop k := by
  constructor
  · rintro ⟨a, b, rfl⟩
    refine ⟨a.length, by simp, ?_⟩
    simp [List.append_assoc]
  · rintro ⟨k, _, b, hb⟩
    refine ⟨s.take k, b, ?_⟩
    rw [List.append_assoc, hb, List.take_append_drop]

theorem find_zero_some {s needle : Str} {j : Nat} (h : find s needle 0 = some j) :
    ∃ post, s = s.take j ++ needle ++ post ∧ j ≤ s.length ∧
      ∀ m, m < j → ¬ needle <+: s.drop m := by
  simp only [find, Nat.zero_le, if_true, List.drop_zero] at h
  obtain ⟨k, hj, hk, ⟨post, hpost⟩, hmin⟩ := findGo_some s 0 j h
  have : j = k := by omega
  subst this
  exact ⟨post, by rw [List.append_assoc, hpost, List.take_append_drop], hk, hmin⟩

theorem find_zero_none {s needle : Str} (h : find s needle 0 = none) : ¬ needle <:+: s := by
  simp only [find, Nat.zero_le, if_true, List.drop_zero] at h
  intro hin
  obtain ⟨k, hk, hp⟩ := (infix_iff_drop needle s).1 hin
  exact findGo_none s 0 h k hk hp

theorem find_zero_of_infix {s needle : Str} (h : needle <:+: s) :
    ∃ j, find s needle 0 = some j := by
  cases hf : find s needle 0 with
  | none => exact absurd h (find_zero_none hf)
  | some j => exact ⟨j, rfl⟩

theorem insert_split (pre a b x : Str) :
    insert (pre ++ a ++ b) (pre.length + a.length) x = pre ++ a ++ x ++ b := by
  have h : pre.length + a.length = (pre ++ a).length := by simp
  simp only [insert]
  rw [h, List.take_left', List.drop_left']
  all_goals rfl


/-! ## Properties of the declarator synthesizer -/

theorem singleton_infix_iff (c : Char) (s : Str) : [c] <:+: s ↔ c ∈ s := by
  constructor
  · rintro ⟨a, b, rfl⟩; simp
  · intro h
    obtain ⟨a, b, rfl⟩ := List.append_of_mem h
    exact ⟨a, b, by simp⟩

theorem not_mem_take_of_first (c : Char) (s : Str) (j : Nat)
    (hmin : ∀ m, m < j → ¬ [c] <+: s.drop m) : c ∉ s.take j := by
  intro hc
  obtain ⟨m, hm, hget⟩ := List.mem_iff_getElem.1 hc
  have hmj : m < j := by
    have := hm; simp at this; omega
  have hms : m < s.length := by
    have := hm; simp at this; omega
  apply hmin m hmj
  rw [List.drop_eq_getElem_cons hms]
  rw [List.getElem_take] at hget
  rw [hget]
  exact ⟨_, rfl⟩

theorem insert_at_first {s needle post : Str} {j : Nat}
    (hs : s = s.take j ++ needle ++ post) (hj : j ≤ s.length) (k : Nat) (hk : k ≤ needle.length)
    (x : Str) :
    insert s (j + k) x = s.take j ++ needle.take k ++ x ++ needle.drop k ++ post := by
  have hlen : (s.take j).length = j := by simp [hj]
  have h2 : s = (s.take j ++ needle.take k) ++ (needle.drop k ++ post) := by
    rw [List.append_assoc (s.take j), ← List.append_assoc (needle.take k),
      List.take_append_drop, ← List.append_assoc]
    exact hs
  have h3 : j + k = (s.take j ++ needle.take k).length := by
    simp [hj, hk]
  have h4 := insert_split (s.take j ++ needle.take k) [] (needle.drop k ++ post) x
  simp only [List.append_nil, List.length_nil, Nat.add_zero] at h4
  rw [← h2, ← h3] at h4
  rw [h4]
  simp [List.append_assoc]

theorem printNameWithType_no_marker {name type : Str} {addFormal : Bool}
    (h1 : ¬ ['(', '*', ')'] <:+: type)
    (h2 : ['t', 'y', 'p', 'e', 'o', 'f'] <:+: type ∨ '(' ∉ type) :
    printNameWithType name type addFormal =
      match find type ['['] 0 with
      | some pos => insert type pos name
      | none => type ++ [' '] ++ name := by
  have hf : find type ['(', '*', ')'] 0 = none := by
    cases hfd : find type ['(', '*', ')'] 0 with
    | none => rfl
    | some j =>
      obtain ⟨post, hs, _, _⟩ := find_zero_some hfd
      exact absurd ⟨_, _, hs.symm⟩ h1
  simp only [printNameWithType, hf]
  cases ht : find type ['t', 'y', 'p', 'e', 'o', 'f'] 0 with
  | some j => simp
  | none =>
    have hno := find_zero_none ht
    have hp : '(' ∉ type := by
      rcases h2 with h | h
      · exact absurd h hno
      · exact h
    have hfp : find type ['('] 0 = none := by
      cases hfd : find type ['('] 0 with
      | none => rfl
      | some j =>
        obtain ⟨post, hs, _, _⟩ := find_zero_some hfd
        exact absurd ((singleton_infix_iff _ _).1 ⟨_, _, hs.symm⟩) hp
    simp [hfp]

/-- C4. Declarator rule 1 without formal names: a type text that contains `(*)`
gets the name right after the `*` of its first `(*)`, the rest unchanged. -/
theorem printNameWithType_function_pointer (name type : Str)
    (h : ['(', '*', ')'] <:+: type) :
    ∃ pre post, type = pre ++ ['(', '*', ')'] ++ post ∧
      (∀ m, m < pre.length → ¬ ['(', '*', ')'] <+: type.drop m) ∧
      printNameWithType name type false = pre ++ ['(', '*'] ++ name ++ [')'] ++ post := by
  obtain ⟨j, hj⟩ := find_zero_of_infix h
  obtain ⟨post, hs, hle, hmin⟩ := find_zero_some hj
  refine ⟨type.take j, post, hs, ?_, ?_⟩
  · intro m hm
    exact hmin m (by simpa [hle] using hm)
  · simp only [printNameWithType, hj]
    have := insert_at_first hs hle 2 (by simp) name
    simpa using this

/-- Witness for C4: the example of the specification, name `f` and type text
`int (*)(int, int)`. -/
theorem printNameWithType_function_pointer_witness :
    ∃ pre post, "int (*)(int, int)".toList = pre ++ ['(', '*', ')'] ++ post ∧
      (∀ m, m < pre.length → ¬ ['(', '*', ')'] <+: "int (*)(int, int)".toList.drop m) ∧
      printNameWithType "f".toList "int (*)(int, int)".toList false
        = pre ++ ['(', '*'] ++ "f".toList ++ [')'] ++ post :=
  printNameWithType_function_pointer "f".toList "int (*)(int, int)".toList
    ⟨"int ".toList, "(int, int)".toList, by decide⟩

/-- C5 (evaluation of the code). With formal names requested, name `f` and type
text `int (*)(int, int)` give `int (*f)(int, int a)`: the comma search starts from
npos, so no name is put before a comma, and the single name `a` is put before the
last close-paren. -/
theorem printNameWithType_formal_two_params :
    printNameWithType "f".toList "int (*)(int, int)".toList true
        = "int (*f)(int, int a)".toList ∧
      printNameWithType "f".toList "int (*)(int, int)".toList true
        ≠ "int (*f)(int a, int b)".toList := by
  decide

/-- C6. Declarator rule 2: without `(*)` and without `typeof`, a type text with an
open-parenthesis gets `(name)` right before its first `(`, the rest unchanged
(whatever `addFormal` is); a type text with `typeof` never gets that result. -/
theorem printNameWithType_function_type (name type : Str) :
    (∀ addFormal, ¬ ['(', '*', ')'] <:+: type →
      ¬ ['t', 'y', 'p', 'e', 'o', 'f'] <:+: type → '(' ∈ type →
      ∃ pre post, type = pre ++ ['('] ++ post ∧ '(' ∉ pre ∧
        printNameWithType name type addFormal
          = pre ++ ['('] ++ name ++ [')'] ++ ['('] ++ post) ∧
    (['t', 'y', 'p', 'e', 'o', 'f'] <:+: type →
      ∀ pre post, type = pre ++ ['('] ++ post →
        printNameWithType name type false
          ≠ pre ++ ['('] ++ name ++ [')'] ++ ['('] ++ post) := by
  constructor
  · intro addFormal h1 h2 h3
    have hf : find type ['(', '*', ')'] 0 = none := by
      cases hfd : find type ['(', '*', ')'] 0 with
      | none => rfl
      | some j =>
        obtain ⟨post, hs, _, _⟩ := find_zero_some hfd
        exact absurd ⟨_, _, hs.symm⟩ h1
    have ht : find type ['t', 'y', 'p', 'e', 'o', 'f'] 0 = none := by
      cases hfd : find type ['t', 'y', 'p', 'e', 'o', 'f'] 0 with
      | none => rfl
      | some j =>
        obtain ⟨post, hs, _, _⟩ := find_zero_some hfd
        exact absurd ⟨_, _, hs.symm⟩ h2
    obtain ⟨j, hj⟩ := find_zero_of_infix ((singleton_infix_iff _ _).2 h3)
    obtain ⟨post, hs, hle, hmin⟩ := find_zero_some hj
    refine ⟨type.take j, post, hs, not_mem_take_of_first _ _ _ hmin, ?_⟩
    simp only [printNameWithType, hf, ht, hj]
    have := insert_at_first hs hle 0 (by simp) (['('] ++ name ++ [')'])
    simpa using this
  · intro h2 pre post hs heq
    have hlen := congrArg List.length heq
    by_cases h1 : ['(', '*', ')'] <:+: type
    · obtain ⟨j, hj⟩ := find_zero_of_infix h1
      obtain ⟨_, _, hle, _⟩ := find_zero_some hj
      simp only [printNameWithType, hj] at hlen
      simp [insert, hs] at hlen
      simp [hs] at hle
      omega
    · rw [printNameWithType_no_marker h1 (Or.inl h2)] at hlen
      split at hlen
      · rename_i pos hpos
        obtain ⟨_, _, hle, _⟩ := find_zero_some hpos
        simp [insert, hs] at hlen
        simp [hs] at hle
        omega
      · simp [hs] at hlen
        omega

/-- Witness for C6: name `g` and type text `int ()` give `int (g)()`. -/
theorem printNameWithType_function_type_witness :
    printNameWithType "g".toList "int ()".toList false = "int (g)()".toList ∧
    ∃ pre post, "int ()".toList = pre ++ ['('] ++ post ∧ '(' ∉ pre ∧
      printNameWithType "g".toList "int ()".toList false
        = pre ++ ['('] ++ "g".toList ++ [')'] ++ ['('] ++ post :=
  ⟨by decide, (printNameWithType_function_type "g".toList "int ()".toList).1 false
    (by decide) (by decide) (by decide)⟩

/-- A `typeof` type text with an open-parenthesis takes rule 4, not rule 2. -/
theorem printNameWithType_typeof_example :
    printNameWithType "v".toList "typeof (x)".toList false = "typeof (x) v".toList := by
  decide

/-- C7. Declarator rule 3: without `(*)`, and with `typeof` or without `(`, a type
text with an array bracket gets the name right before its first `[`, the rest
unchanged. -/
theorem printNameWithType_array (name type : Str) (addFormal : Bool)
    (h1 : ¬ ['(', '*', ')'] <:+: type)
    (h2 : ['t', 'y', 'p', 'e', 'o', 'f'] <:+: type ∨ '(' ∉ type)
    (h3 : '[' ∈ type) :
    ∃ pre post, type = pre ++ ['['] ++ post ∧ '[' ∉ pre ∧
      printNameWithType name type addFormal = pre ++ name ++ ['['] ++ post := by
  obtain ⟨j, hj⟩ := find_zero_of_infix ((singleton_infix_iff _ _).2 h3)
  obtain ⟨post, hs, hle, hmin⟩ := find_zero_some hj
  refine ⟨type.take j, post, hs, not_mem_take_of_first _ _ _ hmin, ?_⟩
  rw [printNameWithType_no_marker h1 h2, hj]
  have := insert_at_first hs hle 0 (by simp) name
  simpa using this

/-- Witness for C7: name `x` and type text `int [10]` give `int x[10]`. -/
theorem printNameWithType_array_witness :
    printNameWithType "x".toList "int [10]".toList false = "int x[10]".toList ∧
    ∃ pre post, "int [10]".toList = pre ++ ['['] ++ post ∧ '[' ∉ pre ∧
      printNameWithType "x".toList "int [10]".toList false
        = pre ++ "x".toList ++ ['['] ++ post :=
  ⟨by decide, printNameWithType_array "x".toList "int [10]".toList false
    (by decide) (Or.inr (by decide)) (by decide)⟩

/-- C8. Declarator rule 4: without `(*)` and `[`, and with `typeof` or without
`(`, the result is the type text, a space and the name. -/
theorem printNameWithType_plain (name type : Str) (addFormal : Bool)
    (h1 : ¬ ['(', '*', ')'] <:+: type)
    (h2 : '[' ∉ type)
    (h3 : ['t', 'y', 'p', 'e', 'o', 'f'] <:+: type ∨ '(' ∉ type) :
    printNameWithType name type addFormal = type ++ [' '] ++ name := by
  have hb : find type ['['] 0 = none := by
    cases hfd : find type ['['] 0 with
    | none => rfl
    | some j =>
      obtain ⟨post, hs, _, _⟩ := find_zero_some hfd
      exact absurd ((singleton_infix_iff _ _).1 ⟨_, _, hs.symm⟩) h2
  rw [printNameWithType_no_marker h1 h3, hb]

/-- Witness for C8: name `v` and type text `int` give `int v`. -/
theorem printNameWithType_plain_witness :
    printNameWithType "v".toList "int".toList false = "int v".toList :=
  printNameWithType_plain "v".toList "int".toList false (by decide) (by decide)
    (Or.inr (by decide))

theorem dumpArgs_eq : ∀ (rest : List Str) (i : Nat) (os : Str),
    dumpArgs (i + rest.length) i rest os
      = os ++ List.intercalate [',', ' '] (argDecls i rest)
  | [], i, os => by simp [dumpArgs, argDecls, List.intercalate]
  | [a], i, os => by simp [dumpArgs, argDecls, List.intercalate]
  | a :: b :: rest, i, os => by
    have h := dumpArgs_eq (b :: rest) (i + 1)
      (os ++ printNameWithType (paramName i) a false ++ [',', ' '])
    have hsize : i + (a :: b :: rest).length = i + 1 + (b :: rest).length := by
      simp only [List.length_cons]; omega
    rw [dumpArgs, hsize]
    have hlt : i + 1 < i + 1 + (b :: rest).length := by
      simp only [List.length_cons]; omega
    simp only [hlt, if_true]
    rw [h]
    simp [argDecls, List.intercalate, List.intersperse, List.append_assoc]

/-- C9 (as amended). `dumpFunction` renders the return-type text, a space, the
name and the parenthesised list of the parameter declarations separated by a comma
and a space, the `i`-th one being `printNameWithType` of the `i`-th generated name
(`a`, `b`, `c`, ... for the first 26) and the `i`-th type text, then `, ...` for a
variadic function; for `foo` with return type text `int` and one parameter of type
text `struct ttt *` the text is `int foo(struct ttt * a)`. -/
theorem dumpFunctionText_rendering :
    (∀ (ret name : Str) (args : List Str) (variadic : Bool),
      dumpFunctionText ret name args variadic
        = ret ++ [' '] ++ name ++ ['('] ++ List.intercalate [',', ' '] (argDecls 0 args)
            ++ (if variadic then [',', ' ', '.', '.', '.'] else []) ++ [')']) ∧
    (∀ i, i < 26 → paramName i = [Char.ofNat (97 + i)]) ∧
    (paramName 0 = ['a'] ∧ paramName 1 = ['b'] ∧ paramName 2 = ['c']) ∧
    dumpFunctionText "int".toList "foo".toList ["struct ttt *".toList] false
      = "int foo(struct ttt * a)".toList := by
  refine ⟨?_, ?_, by decide, by decide⟩
  · intro ret name args variadic
    have h := dumpArgs_eq args 0 (ret ++ [' '] ++ name ++ ['('])
    simp only [Nat.zero_add] at h
    simp only [dumpFunctionText, h]
    cases variadic <;> simp
  · intro i hi
    have h : (97 + i) % 256 = 97 + i := Nat.mod_eq_of_lt (by omega)
    have h0 : 97 + i ≠ 0 := by omega
    simp [paramName, h, h0]

/-- C9 (counterexample). For `foo` with return type text `int` and one parameter of
type text `struct ttt *`, the text built by `dumpFunction` is not
`int foo(struct ttt *a)`: rule 4 puts a space between the type text and the name. -/
theorem dumpFunctionText_scenario_differs :
    dumpFunctionText "int".toList "foo".toList ["struct ttt *".toList] false
      ≠ "int foo(struct ttt *a)".toList := by
  decide

/-! ## Properties of the reachability engine -/

section Engine
variable {n : Nat}

theorem addOut_nil (s : State n) : addOut s [] = s := by
  simp [addOut]

theorem addOut_addOut (s : State n) (a b : List Diag) :
    addOut (addOut s a) b = addOut s (a ++ b) := by
  simp [addOut, List.append_assoc]

theorem isReferenced_addOut (tu : TU n) (s : State n) (ds : List Diag) (d : Fin n) :
    isReferenced tu (addOut s ds) d = isReferenced tu s d := rfl

theorem markDeclReferenced_addOut (tu : TU n) (s : State n) (ds : List Diag) (d : Fin n) :
    markDeclReferenced tu (addOut s ds) d = addOut (markDeclReferenced tu s d) ds := by
  unfold markDeclReferenced
  rw [isReferenced_addOut]
  by_cases h : isReferenced tu s d = true
  · simp [h]
  · by_cases hk : (tu.decl d).kind = DeclKind.record <;> simp [h, hk, addOut]

theorem markAll_addOut (tu : TU n) (ts : List (Fin n)) : ∀ (s : State n) (ds : List Diag),
    markAll tu (addOut s ds) ts = addOut (markAll tu s ts) ds := by
  induction ts with
  | nil => intro s ds; rfl
  | cons t ts ih =>
    intro s ds
    simp only [markAll, List.foldl_cons] at ih ⊢
    rw [markDeclReferenced_addOut, ih]

theorem markAll_append (tu : TU n) (s : State n) (as bs : List (Fin n)) :
    markAll tu s (as ++ bs) = markAll tu (markAll tu s as) bs := by
  simp [markAll, List.foldl_append]

mutual
theorem markTypeReferenced_eq (tu : TU n) : ∀ (t : QualType n) (s : State n),
    markTypeReferenced tu s t = addOut (markAll tu s (typeTargets t)) (typeDiags t)
  | .builtin, s => by simp [markTypeReferenced, typeTargets, typeDiags, markAll, addOut]
  | .typeOfExpr _, s => by simp [markTypeReferenced, typeTargets, typeDiags, markAll, addOut]
  | .typedef d _, s => by simp [markTypeReferenced, typeTargets, typeDiags, markAll, addOut]
  | .record u d, s => by
    cases u <;>
      simp [markTypeReferenced, typeTargets, typeDiags, markAll, addOut, getAsStructureType,
        getAsUnionType, QualType.desugar]
  | .enum d, s => by
    simp [markTypeReferenced, typeTargets, typeDiags, markAll, addOut, getAsStructureType,
        getAsUnionType, QualType.desugar]
  | .pointer p, s => by
    have ih := markTypeReferenced_eq tu p s
    simp [markTypeReferenced, typeTargets, typeDiags, getAsStructureType,
        getAsUnionType, QualType.desugar, ih]
  | .array p, s => by
    have ih := markTypeReferenced_eq tu p s
    simp [markTypeReferenced, typeTargets, typeDiags, getAsStructureType,
        getAsUnionType, QualType.desugar, ih]
  | .elaborated p, s => by
    have ih := markTypeReferenced_eq tu p s
    rw [markTypeReferenced, typeTargets, typeDiags]
    cases h1 : getAsStructureType (QualType.elaborated p) with
    | some d => simp [markAll, addOut]
    | none =>
      cases h2 : getAsUnionType (QualType.elaborated p) with
      | some d => simp [markAll, addOut]
      | none => simp [ih]
  | .typeOf p, s => by
    have ih := markTypeReferenced_eq tu p s
    rw [markTypeReferenced, typeTargets, typeDiags]
    cases h1 : getAsStructureType (QualType.typeOf p) with
    | some d => simp [markAll, addOut]
    | none =>
      cases h2 : getAsUnionType (QualType.typeOf p) with
      | some d => simp [markAll, addOut]
      | none => simp [ih]
  | .paren p, s => by
    have ih := markTypeReferenced_eq tu p s
    rw [markTypeReferenced, typeTargets, typeDiags]
    cases h1 : getAsStructureType (QualType.paren p) with
    | some d => simp [markAll, addOut]
    | none =>
      cases h2 : getAsUnionType (QualType.paren p) with
      | some d => simp [markAll, addOut]
      | none => simp [ih]
  | .otherSugar p, s => by
    simp only [markTypeReferenced, typeTargets, typeDiags]
    cases h1 : getAsStructureType (QualType.otherSugar p) with
    | some d => simp [markAll, addOut]
    | none =>
      cases h2 : getAsUnionType (QualType.otherSugar p) with
      | some d => simp [markAll, addOut]
      | none => simp [markAll, addOut]
  | .unhandled, s => by
    simp [markTypeReferenced, typeTargets, typeDiags, markAll, addOut, getAsStructureType,
        getAsUnionType, QualType.desugar]
  | .functionProto args r, s => by
    have ih1 := markTypesReferenced_eq tu args s
    have ih2 := markTypeReferenced_eq tu r (markTypesReferenced tu s args)
    rw [ih1] at ih2
    simp [markTypeReferenced, typeTargets, typeDiags, getAsStructureType,
        getAsUnionType, QualType.desugar, ih2, ih1, markAll_append, markAll_addOut, addOut_addOut]
theorem markTypesReferenced_eq (tu : TU n) : ∀ (ts : List (QualType n)) (s : State n),
    markTypesReferenced tu s ts = addOut (markAll tu s (typesTargets ts)) (typesDiags ts)
  | [], s => by simp [markTypesReferenced, typesTargets, typesDiags, markAll, addOut]
  | t :: rest, s => by
    have ih1 := markTypeReferenced_eq tu t s
    have ih2 := markTypesReferenced_eq tu rest (markTypeReferenced tu s t)
    rw [ih1] at ih2
    simp [markTypesReferenced, typesTargets, typesDiags, ih2, ih1, markAll_append,
      markAll_addOut, addOut_addOut]
end

theorem markDependencies_eq (tu : TU n) (s : State n) (d : Fin n) :
    markDependencies tu s d = addOut (markAll tu s (depTargets tu d)) (depDiags tu d) := by
  unfold markDependencies depTargets depDiags
  cases (tu.decl d).kind <;>
    simp [markTypeReferenced_eq, markTypesReferenced_eq, markAll_append, markAll_addOut,
      addOut_addOut, addOut_nil] <;>
    simp [markAll, addOut]

theorem mem_redecls (tu : TU n) (d j : Fin n) :
    j ∈ tu.redecls d ↔ (tu.decl j).canonical = (tu.decl d).canonical := by
  simp only [TU.redecls, List.mem_cons, List.mem_append, List.mem_reverse, List.mem_filter,
    List.mem_finRange, true_and, Bool.and_eq_true, decide_eq_true_eq]
  constructor
  · rintro (h | h | h)
    · rw [h]
    · exact h.2
    · exact h.2
  · intro h
    rcases lt_trichotomy j d with hlt | heq | hgt
    · exact Or.inr (Or.inl ⟨hlt, h⟩)
    · exact Or.inl heq
    · exact Or.inr (Or.inr ⟨hgt, h⟩)

theorem isReferenced_iff (tu : TU n) (s : State n) (d : Fin n) :
    isReferenced tu s d = true ↔
      ∃ r, r ∈ s.referenced ∧ (tu.decl r).canonical = (tu.decl d).canonical := by
  simp only [isReferenced, List.any_eq_true, decide_eq_true_eq, mem_redecls]
  constructor
  · rintro ⟨r, h1, h2⟩; exact ⟨r, h2, h1⟩
  · rintro ⟨r, h1, h2⟩; exact ⟨r, h2, h1⟩

theorem isReferenced_congr (tu : TU n) (s : State n) {d e : Fin n}
    (h : (tu.decl d).canonical = (tu.decl e).canonical) :
    isReferenced tu s d = isReferenced tu s e := by
  rw [Bool.eq_iff_iff, isReferenced_iff, isReferenced_iff, h]

theorem mem_pushed_self (tu : TU n) (e : Fin n) : e ∈ pushed tu e := by
  unfold pushed
  split <;> simp

theorem mem_pushed_canonical (tu : TU n) {e x : Fin n} (h : x ∈ pushed tu e) :
    (tu.decl x).canonical = (tu.decl e).canonical := by
  unfold pushed at h
  split at h
  · simp only [List.singleton_append, List.mem_cons, List.mem_filter, mem_redecls] at h
    rcases h with h | h
    · rw [h]
    · exact h.1
  · simp only [List.mem_singleton] at h
    rw [h]

theorem mem_pushed_of_record (tu : TU n) {e x : Fin n}
    (hk : (tu.decl e).kind = DeclKind.record)
    (h : (tu.decl x).canonical = (tu.decl e).canonical) : x ∈ pushed tu e := by
  unfold pushed
  simp only [hk, if_true, List.singleton_append, List.mem_cons, List.mem_filter, mem_redecls,
    decide_eq_true_eq]
  by_cases hx : x = e
  · exact Or.inl hx
  · exact Or.inr ⟨h, hx⟩

/-- What `markDeclReferenced` does: nothing to a referenced declaration; else it
sets the bit and pushes `pushed tu e`. -/
theorem markDeclReferenced_eq (tu : TU n) (s : State n) (e : Fin n) :
    markDeclReferenced tu s e =
      if isReferenced tu s e then s
      else { s with referenced := e :: s.referenced, Ds := s.Ds ++ pushed tu e } := by
  unfold markDeclReferenced pushed
  by_cases h : isReferenced tu s e = true
  · simp [h]
  · by_cases hk : (tu.decl e).kind = DeclKind.record <;> simp [h, hk]

theorem markDeclReferenced_frame (tu : TU n) (s : State n) (e : Fin n) :
    (markDeclReferenced tu s e).decls = s.decls ∧
    (markDeclReferenced tu s e).prototypes = s.prototypes ∧
    (markDeclReferenced tu s e).processed = s.processed ∧
    (markDeclReferenced tu s e).out = s.out := by
  rw [markDeclReferenced_eq]
  split <;> simp

theorem isReferenced_markDeclReferenced (tu : TU n) (s : State n) (e x : Fin n) :
    isReferenced tu (markDeclReferenced tu s e) x = true ↔
      isReferenced tu s x = true ∨ (tu.decl x).canonical = (tu.decl e).canonical := by
  rw [markDeclReferenced_eq]
  by_cases h : isReferenced tu s e = true
  · simp only [h, if_true]
    constructor
    · exact Or.inl
    · rintro (h' | h')
      · exact h'
      · rw [isReferenced_congr tu s h']; exact h
  · have h' : isReferenced tu s e = false := by simpa using h
    simp only [h', Bool.false_eq_true, if_false]
    simp only [isReferenced_iff, List.mem_cons]
    constructor
    · rintro ⟨r, hr | hr, hc⟩
      · right; rw [← hc, hr]
      · left; exact ⟨r, hr, hc⟩
    · rintro (⟨r, hr, hc⟩ | hc)
      · exact ⟨r, Or.inr hr, hc⟩
      · exact ⟨e, Or.inl rfl, hc.symm⟩

theorem markAll_induction (tu : TU n) (P : State n → Prop) :
    ∀ (ts : List (Fin n)) (s : State n),
      (∀ s e, e ∈ ts → P s → P (markDeclReferenced tu s e)) → P s → P (markAll tu s ts) := by
  intro ts
  induction ts with
  | nil => intro s _ h; exact h
  | cons t ts ih =>
    intro s hstep h
    simp only [markAll, List.foldl_cons]
    exact ih _ (fun s e he => hstep s e (List.mem_cons_of_mem _ he))
      (hstep s t (List.mem_cons_self _ _) h)

theorem markAll_frame (tu : TU n) (s : State n) (ts : List (Fin n)) :
    (markAll tu s ts).decls = s.decls ∧
    (markAll tu s ts).prototypes = s.prototypes ∧
    (markAll tu s ts).processed = s.processed ∧
    (markAll tu s ts).out = s.out := by
  refine markAll_induction tu
    (fun s' => s'.decls = s.decls ∧ s'.prototypes = s.prototypes ∧
      s'.processed = s.processed ∧ s'.out = s.out) ts s ?_ ⟨rfl, rfl, rfl, rfl⟩
  intro s' e _ h
  obtain ⟨h1, h2, h3, h4⟩ := markDeclReferenced_frame tu s' e
  exact ⟨h1.trans h.1, h2.trans h.2.1, h3.trans h.2.2.1, h4.trans h.2.2.2⟩

/-- The pending list after a run of `markDeclReferenced` calls: the old list
followed by pushes, each of them in `pushed tu e` for a target `e` that was not
referenced before. -/
theorem markAll_Ds (tu : TU n) (s : State n) (ts : List (Fin n)) :
    ∃ extra, (markAll tu s ts).Ds = s.Ds ++ extra ∧
      ∀ x, x ∈ extra → ∃ e, e ∈ ts ∧ x ∈ pushed tu e := by
  refine markAll_induction tu
    (fun s' => ∃ extra, s'.Ds = s.Ds ++ extra ∧ ∀ x, x ∈ extra → ∃ e, e ∈ ts ∧ x ∈ pushed tu e)
    ts s ?_ ⟨[], by simp, by simp⟩
  rintro s' e he ⟨extra, h1, h2⟩
  rw [markDeclReferenced_eq]
  split
  · exact ⟨extra, h1, h2⟩
  · refine ⟨extra ++ pushed tu e, by simp [h1], ?_⟩
    intro x hx
    rcases List.mem_append.1 hx with hx | hx
    · exact h2 x hx
    · exact ⟨e, he, hx⟩

theorem isReferenced_markAll_mono (tu : TU n) (s : State n) (ts : List (Fin n)) (x : Fin n)
    (h : isReferenced tu s x = true) : isReferenced tu (markAll tu s ts) x = true := by
  refine markAll_induction tu (fun s' => isReferenced tu s' x = true) ts s ?_ h
  intro s' e _ h'
  exact (isReferenced_markDeclReferenced tu s' e x).2 (Or.inl h')

theorem isReferenced_markAll_target (tu : TU n) : ∀ (ts : List (Fin n)) (s : State n) (e : Fin n),
    e ∈ ts → isReferenced tu (markAll tu s ts) e = true := by
  intro ts
  induction ts with
  | nil => intro s e he; simp at he
  | cons t ts ih =>
    intro s e he
    simp only [markAll, List.foldl_cons]
    rcases List.mem_cons.1 he with rfl | he
    · exact isReferenced_markAll_mono tu _ ts e
        ((isReferenced_markDeclReferenced tu s e e).2 (Or.inr rfl))
    · exact ih _ e he

theorem persist_frame (tu : TU n) (s : State n) (d : Fin n) :
    (persist tu s d).referenced = s.referenced ∧ (persist tu s d).Ds = s.Ds ∧
    (persist tu s d).processed = s.processed := by
  unfold persist
  split
  · split
    · simp
    · split <;> simp
  · simp

theorem persist_decls (tu : TU n) (s : State n) (d : Fin n) :
    (persist tu s d).decls = s.decls ++ (if isTopLevel tu d then [declRecord tu d] else []) := by
  unfold persist
  split
  · split
    · simp
    · split <;> simp
  · simp

theorem persist_prototypes (tu : TU n) (s : State n) (d : Fin n) :
    (persist tu s d).prototypes = s.prototypes ++
      (if isTopLevel tu d then
        (if (tu.decl d).kind = DeclKind.function then [dumpFunction tu d (fileOf tu d)]
         else if (tu.decl d).kind = DeclKind.var then [dumpVar tu d (fileOf tu d)]
         else [])
       else []) := by
  unfold persist
  split
  · split
    · simp
    · split <;> simp
  · simp

/-- One pass of the closure loop on `d :: rest`, field by field: the marks of
`depTargets tu d`, the front erased, `d` added to the trace, and the rows of `d`
when it is top-level and outside the primary file. -/
theorem closureStep_fields (tu : TU n) (s : State n) (d : Fin n) (rest : List (Fin n))
    (hDs : s.Ds = d :: rest) :
    (closureStep tu s).referenced = (markAll tu s (depTargets tu d)).referenced ∧
    (closureStep tu s).Ds = (markAll tu s (depTargets tu d)).Ds.tail ∧
    (closureStep tu s).processed = s.processed ++ [d] ∧
    (closureStep tu s).decls = s.decls ++
      (if inPrimaryFile tu d then [] else if isTopLevel tu d then [declRecord tu d] else []) ∧
    (closureStep tu s).prototypes = s.prototypes ++
      (if inPrimaryFile tu d then [] else
        if isTopLevel tu d then
          (if (tu.decl d).kind = DeclKind.function then [dumpFunction tu d (fileOf tu d)]
           else if (tu.decl d).kind = DeclKind.var then [dumpVar tu d (fileOf tu d)]
           else [])
        else []) := by
  obtain ⟨f1, f2, f3, _⟩ := markAll_frame tu s (depTargets tu d)
  unfold closureStep
  rw [hDs]
  simp only [markDependencies_eq]
  by_cases hp : inPrimaryFile tu d = true
  · simp [hp, addOut, f1, f2, f3]
  · have hp' : inPrimaryFile tu d = false := by simpa using hp
    obtain ⟨p1, p2, p3⟩ := persist_frame tu (addOut (markAll tu s (depTargets tu d)) (depDiags tu d)) d
    simp only [hp', Bool.false_eq_true, if_false]
    refine ⟨p1, congrArg List.tail p2, ?_, ?_, ?_⟩
    · show (persist tu _ d).processed ++ [d] = _
      rw [p3]; simp [addOut, f3]
    · show (persist tu _ d).decls = _
      rw [persist_decls]; simp [addOut, f1]
    · show (persist tu _ d).prototypes = _
      rw [persist_prototypes]; simp [addOut, f2]

theorem isReferenced_of_referenced_eq (tu : TU n) {s s' : State n}
    (h : s.referenced = s'.referenced) (x : Fin n) :
    isReferenced tu s x = isReferenced tu s' x := by
  simp [isReferenced, h]

theorem unreferencedCount_of_referenced_eq (tu : TU n) {s s' : State n}
    (h : s.referenced = s'.referenced) :
    unreferencedCount tu s = unreferencedCount tu s' := by
  simp [unreferencedCount, isReferenced, h]

theorem filter_length_split {α : Type} (p q : α → Bool) (l : List α) :
    (l.filter p).length =
      (l.filter (fun x => p x && q x)).length + (l.filter (fun x => p x && !q x)).length := by
  induction l with
  | nil => rfl
  | cons a l ih =>
    simp only [List.filter_cons]
    cases hp : p a <;> cases hq : q a <;> simp [ih] <;> omega

/-- The number of declarations of the arena in the redeclaration group of `e`. -/
theorem redecls_length_le (tu : TU n) (e : Fin n) :
    (tu.redecls e).length ≤
      ((List.finRange n).filter
        (fun j => decide ((tu.decl j).canonical = (tu.decl e).canonical))).length := by
  have h1 := filter_length_split
    (fun j => decide ((tu.decl j).canonical = (tu.decl e).canonical))
    (fun j => decide (j < e)) (List.finRange n)
  have h2 := filter_length_split
    (fun j => decide ((tu.decl j).canonical = (tu.decl e).canonical) && !decide (j < e))
    (fun j => decide (e < j)) (List.finRange n)
  have h3 : 1 ≤ ((List.finRange n).filter (fun j =>
      (decide ((tu.decl j).canonical = (tu.decl e).canonical) && !decide (j < e))
        && !decide (e < j))).length := by
    apply List.length_pos_of_mem (a := e)
    simp
  have h4 : (List.finRange n).filter (fun j =>
      decide ((tu.decl j).canonical = (tu.decl e).canonical) && decide (j < e))
      = (List.finRange n).filter (fun j =>
      decide (j < e) && decide ((tu.decl j).canonical = (tu.decl e).canonical)) := by
    apply List.filter_congr
    intro x _
    exact Bool.and_comm _ _
  have h5 : (List.finRange n).filter (fun j =>
      (decide ((tu.decl j).canonical = (tu.decl e).canonical) && !decide (j < e))
        && decide (e < j))
      = (List.finRange n).filter (fun j =>
      decide (e < j) && decide ((tu.decl j).canonical = (tu.decl e).canonical)) := by
    apply List.filter_congr
    intro x _
    by_cases hx : e < x
    · have : ¬ x < e := by omega
      simp [hx, this]
    · simp [hx]
  simp only [TU.redecls, List.length_cons, List.length_append, List.length_reverse]
  rw [h4] at h1
  rw [h5] at h2
  omega

theorem pushed_length_le (tu : TU n) (e : Fin n) :
    (pushed tu e).length ≤ (tu.redecls e).length := by
  unfold pushed
  split
  · have : (tu.redecls e).filter (fun rd => decide (rd ≠ e))
        = (tu.redecls e).tail.filter (fun rd => decide (rd ≠ e)) := by
      simp [TU.redecls]
    rw [this]
    have h := List.length_filter_le (fun rd => decide (rd ≠ e)) (tu.redecls e).tail
    simp only [List.length_append, List.length_singleton]
    have h2 : (tu.redecls e).length = (tu.redecls e).tail.length + 1 := by
      simp [TU.redecls]
    omega
  · simp [TU.redecls]

/-- The measure of the closure loop does not grow under `markDeclReferenced`: a
push is paid for by a declaration that stops being unreferenced. -/
theorem markDeclReferenced_measure (tu : TU n) (s : State n) (e : Fin n) :
    closureFuel tu (markDeclReferenced tu s e) ≤ closureFuel tu s := by
  by_cases h : isReferenced tu s e = true
  · rw [markDeclReferenced_eq]; simp [h]
  · have hsplit := filter_length_split (fun j => !isReferenced tu s j)
      (fun j => decide ((tu.decl j).canonical = (tu.decl e).canonical)) (List.finRange n)
    have ha : (List.finRange n).filter (fun j => (!isReferenced tu s j) &&
          decide ((tu.decl j).canonical = (tu.decl e).canonical))
        = (List.finRange n).filter
          (fun j => decide ((tu.decl j).canonical = (tu.decl e).canonical)) := by
      apply List.filter_congr
      intro x _
      by_cases hx : (tu.decl x).canonical = (tu.decl e).canonical
      · have : isReferenced tu s x = false := by
          rw [isReferenced_congr tu s hx]; simpa using h
        simp [hx, this]
      · simp [hx]
    have hb : (List.finRange n).filter (fun j => (!isReferenced tu s j) &&
          !decide ((tu.decl j).canonical = (tu.decl e).canonical))
        = (List.finRange n).filter
          (fun j => !isReferenced tu (markDeclReferenced tu s e) j) := by
      apply List.filter_congr
      intro x _
      have := isReferenced_markDeclReferenced tu s e x
      by_cases h1 : isReferenced tu s x = true <;>
        by_cases h2 : (tu.decl x).canonical = (tu.decl e).canonical <;>
        simp_all
    rw [ha, hb] at hsplit
    have hp := pushed_length_le tu e
    have hr := redecls_length_le tu e
    have hDs : (markDeclReferenced tu s e).Ds = s.Ds ++ pushed tu e := by
      rw [markDeclReferenced_eq]; simp [h]
    simp only [closureFuel, unreferencedCount, hDs, List.length_append] at hsplit ⊢
    omega

theorem markAll_measure (tu : TU n) (s : State n) (ts : List (Fin n)) :
    closureFuel tu (markAll tu s ts) ≤ closureFuel tu s := by
  refine markAll_induction tu (fun s' => closureFuel tu s' ≤ closureFuel tu s) ts s ?_
    (Nat.le_refl _)
  intro s' e _ h
  exact Nat.le_trans (markDeclReferenced_measure tu s' e) h

/-- Every pass of the closure loop lowers the measure. -/
theorem closureStep_measure (tu : TU n) (s : State n) (h : s.Ds ≠ []) :
    closureFuel tu (closureStep tu s) + 1 ≤ closureFuel tu s := by
  obtain ⟨d, rest, hDs⟩ := List.exists_cons_of_ne_nil h
  obtain ⟨h1, h2, _, _, _⟩ := closureStep_fields tu s d rest hDs
  obtain ⟨extra, hex, _⟩ := markAll_Ds tu s (depTargets tu d)
  have hm := markAll_measure tu s (depTargets tu d)
  have hu := unreferencedCount_of_referenced_eq tu h1
  simp only [closureFuel, h2, hu] at hm ⊢
  rw [hex, hDs] at hm ⊢
  simp only [List.cons_append, List.tail_cons, List.length_cons, List.length_append] at hm ⊢
  omega

theorem closureLoop_Ds (tu : TU n) : ∀ (fuel : Nat) (s : State n),
    closureFuel tu s ≤ fuel → (closureLoop tu fuel s).Ds = [] := by
  intro fuel
  induction fuel with
  | zero =>
    intro s h
    simp only [closureLoop]
    have : s.Ds.length = 0 := by
      simp only [closureFuel] at h; omega
    exact List.length_eq_zero.1 this
  | succ fuel ih =>
    intro s h
    simp only [closureLoop]
    by_cases hDs : s.Ds = []
    · simp [hDs]
    · simp only [hDs, if_false]
      apply ih
      have := closureStep_measure tu s hDs
      omega

theorem closureLoop_stable (tu : TU n) : ∀ (fuel fuel' : Nat) (s : State n),
    closureFuel tu s ≤ fuel → closureFuel tu s ≤ fuel' →
      closureLoop tu fuel s = closureLoop tu fuel' s := by
  intro fuel
  induction fuel with
  | zero =>
    intro fuel' s h _
    have hl : s.Ds.length = 0 := by
      simp only [closureFuel] at h; omega
    have hDs := List.length_eq_zero.1 hl
    cases fuel' <;> simp [closureLoop, hDs]
  | succ fuel ih =>
    intro fuel' s h h'
    by_cases hDs : s.Ds = []
    · cases fuel' <;> simp [closureLoop, hDs]
    · have hm := closureStep_measure tu s hDs
      cases fuel' with
      | zero => omega
      | succ fuel' =>
        simp only [closureLoop, hDs, if_false]
        exact ih fuel' _ (by omega) (by omega)

theorem closureLoop_invariant (tu : TU n) (P : State n → Prop)
    (hstep : ∀ s, s.Ds ≠ [] → P s → P (closureStep tu s)) :
    ∀ (fuel : Nat) (s : State n), P s → P (closureLoop tu fuel s) := by
  intro fuel
  induction fuel with
  | zero => intro s h; exact h
  | succ fuel ih =>
    intro s h
    simp only [closureLoop]
    by_cases hDs : s.Ds = []
    · simpa [hDs] using h
    · simp only [hDs, if_false]
      exact ih _ (hstep s hDs h)

theorem unreferencedCount_le (tu : TU n) (s : State n) : unreferencedCount tu s ≤ n := by
  have h := List.length_filter_le (fun j => !isReferenced tu s j) (List.finRange n)
  simpa [unreferencedCount] using h

theorem closureLoop_passes (tu : TU n) (fuel : Nat) (s : State n) :
    (closureLoop tu fuel s).processed.length + closureFuel tu (closureLoop tu fuel s)
      ≤ s.processed.length + closureFuel tu s := by
  refine closureLoop_invariant tu
    (fun s' => s'.processed.length + closureFuel tu s' ≤ s.processed.length + closureFuel tu s)
    ?_ fuel s (Nat.le_refl _)
  intro s' hDs h
  obtain ⟨d, rest, hd⟩ := List.exists_cons_of_ne_nil hDs
  obtain ⟨_, _, h3, _, _⟩ := closureStep_fields tu s' d rest hd
  have hm := closureStep_measure tu s' hDs
  rw [h3, List.length_append, List.length_singleton]
  omega

/-- A declaration that is pending or already taken stays so after a pass. -/
theorem closureStep_covered (tu : TU n) (s : State n) (hDs : s.Ds ≠ []) (x : Fin n)
    (h : x ∈ s.Ds ∨ x ∈ s.processed) :
    x ∈ (closureStep tu s).Ds ∨ x ∈ (closureStep tu s).processed := by
  obtain ⟨d, rest, hd⟩ := List.exists_cons_of_ne_nil hDs
  obtain ⟨_, h2, h3, _, _⟩ := closureStep_fields tu s d rest hd
  obtain ⟨extra, hex, _⟩ := markAll_Ds tu s (depTargets tu d)
  rw [h2, h3, hex, hd]
  simp only [List.cons_append, List.tail_cons, List.mem_append, List.mem_singleton]
  rcases h with h | h
  · rw [hd] at h
    rcases List.mem_cons.1 h with h | h
    · exact Or.inr (Or.inr h)
    · exact Or.inl (Or.inl h)
  · exact Or.inr (Or.inl h)

/-- Cover invariant: every referenced declaration of the set `G` is pending or
already taken. It is kept by a pass when every declaration of `G` that becomes
referenced with a target `e` is pushed with it. -/
theorem closureStep_cover (tu : TU n) (G : Fin n → Prop)
    (hpush : ∀ d e x, e ∈ depTargets tu d → G x →
      (tu.decl x).canonical = (tu.decl e).canonical → x ∈ pushed tu e)
    (s : State n) (hDs : s.Ds ≠ [])
    (h : ∀ x, G x → isReferenced tu s x = true → x ∈ s.Ds ∨ x ∈ s.processed) :
    ∀ x, G x → isReferenced tu (closureStep tu s) x = true →
      x ∈ (closureStep tu s).Ds ∨ x ∈ (closureStep tu s).processed := by
  obtain ⟨d, rest, hd⟩ := List.exists_cons_of_ne_nil hDs
  obtain ⟨h1, h2, h3, _, _⟩ := closureStep_fields tu s d rest hd
  have hm : ∀ x, G x → isReferenced tu (markAll tu s (depTargets tu d)) x = true →
      x ∈ (markAll tu s (depTargets tu d)).Ds ∨ x ∈ s.processed := by
    refine markAll_induction tu
      (fun s' => ∀ x, G x → isReferenced tu s' x = true → x ∈ s'.Ds ∨ x ∈ s.processed)
      (depTargets tu d) s ?_ h
    intro s' e he ih x hG hx
    have hDs' : (markDeclReferenced tu s' e).Ds
        = s'.Ds ++ (if isReferenced tu s' e then [] else pushed tu e) := by
      rw [markDeclReferenced_eq]; split <;> simp
    rw [hDs']
    rcases (isReferenced_markDeclReferenced tu s' e x).1 hx with hx | hc
    · rcases ih x hG hx with h' | h'
      · exact Or.inl (List.mem_append_left _ h')
      · exact Or.inr h'
    · by_cases hr : isReferenced tu s' e = true
      · have hx : isReferenced tu s' x = true := by
          rw [isReferenced_congr tu s' hc]; exact hr
        rcases ih x hG hx with h' | h'
        · exact Or.inl (List.mem_append_left _ h')
        · exact Or.inr h'
      · left
        simp only [hr, if_false]
        exact List.mem_append_right _ (hpush d e x he hG hc)
  intro x hG hx
  rw [isReferenced_of_referenced_eq tu h1] at hx
  obtain ⟨extra, hex, _⟩ := markAll_Ds tu s (depTargets tu d)
  have := hm x hG hx
  rw [h2, h3, hex, hd]
  rw [hex, hd] at this
  simp only [List.cons_append, List.tail_cons, List.mem_append, List.mem_singleton,
    List.mem_cons] at this ⊢
  tauto

theorem mem_deps (tu : TU n) (d r : Fin n) :
    r ∈ deps tu d ↔ ∃ e, e ∈ depTargets tu d ∧ r ∈ pushed tu e := by
  simp [deps, List.mem_flatMap]

/-- Dependency invariant: the dependencies of every declaration taken so far are
referenced. -/
theorem closureStep_deps (tu : TU n) (s : State n) (hDs : s.Ds ≠ [])
    (h : ∀ d, d ∈ s.processed → ∀ r, r ∈ deps tu d → isReferenced tu s r = true) :
    ∀ d, d ∈ (closureStep tu s).processed → ∀ r, r ∈ deps tu d →
      isReferenced tu (closureStep tu s) r = true := by
  obtain ⟨d0, rest, hd⟩ := List.exists_cons_of_ne_nil hDs
  obtain ⟨h1, _, h3, _, _⟩ := closureStep_fields tu s d0 rest hd
  intro d hdp r hr
  rw [isReferenced_of_referenced_eq tu h1]
  rw [h3] at hdp
  rcases List.mem_append.1 hdp with hdp | hdp
  · exact isReferenced_markAll_mono tu s _ r (h d hdp r hr)
  · have : d = d0 := by simpa using hdp
    subst this
    obtain ⟨e, he, hre⟩ := (mem_deps tu d r).1 hr
    rw [isReferenced_congr tu _ (mem_pushed_canonical tu hre)]
    exact isReferenced_markAll_target tu _ s e he

/-- Row invariant: every declaration taken so far that is top-level and outside
the primary file has its row in `decls`. -/
theorem closureStep_rows (tu : TU n) (s : State n) (hDs : s.Ds ≠ [])
    (h : ∀ d, d ∈ s.processed → isTopLevel tu d = true → inPrimaryFile tu d = false →
      declRecord tu d ∈ s.decls) :
    ∀ d, d ∈ (closureStep tu s).processed → isTopLevel tu d = true →
      inPrimaryFile tu d = false → declRecord tu d ∈ (closureStep tu s).decls := by
  obtain ⟨d0, rest, hd⟩ := List.exists_cons_of_ne_nil hDs
  obtain ⟨_, _, h3, h4, _⟩ := closureStep_fields tu s d0 rest hd
  intro d hdp ht hp
  rw [h3] at hdp
  rw [h4]
  rcases List.mem_append.1 hdp with hdp | hdp
  · exact List.mem_append_left _ (h d hdp ht hp)
  · have : d = d0 := by simpa using hdp
    subst this
    simp [hp, ht]

theorem closureStep_origin (tu : TU n) (s : State n) (hDs : s.Ds ≠ []) (h : Origin tu s) :
    Origin tu (closureStep tu s) := by
  obtain ⟨d0, rest, hd⟩ := List.exists_cons_of_ne_nil hDs
  obtain ⟨_, h2, h3, h4, h5⟩ := closureStep_fields tu s d0 rest hd
  obtain ⟨extra, hex, hextra⟩ := markAll_Ds tu s (depTargets tu d0)
  obtain ⟨o1, o2, o3, o4⟩ := h
  have hd0 : Reach tu (isRoot tu) d0 := o1 d0 (by rw [hd]; exact List.mem_cons_self _ _)
  refine ⟨?_, ?_, ?_, ?_⟩
  · intro x hx
    rw [h2, hex, hd] at hx
    simp only [List.cons_append, List.tail_cons, List.mem_append] at hx
    rcases hx with hx | hx
    · exact o1 x (by rw [hd]; exact List.mem_cons_of_mem _ hx)
    · obtain ⟨e, he, hxe⟩ := hextra x hx
      exact Reach.step hd0 ((mem_deps tu d0 x).2 ⟨e, he, hxe⟩)
  · intro x hx
    rw [h3] at hx
    rcases List.mem_append.1 hx with hx | hx
    · exact o2 x hx
    · have : x = d0 := by simpa using hx
      rw [this]; exact hd0
  · intro r hr
    rw [h4] at hr
    rw [h3]
    rcases List.mem_append.1 hr with hr | hr
    · obtain ⟨d, hdp, rest'⟩ := o3 r hr
      exact ⟨d, List.mem_append_left _ hdp, rest'⟩
    · by_cases hp : inPrimaryFile tu d0 = true
      · simp [hp] at hr
      · by_cases ht : isTopLevel tu d0 = true
        · have hp' : inPrimaryFile tu d0 = false := by simpa using hp
          simp [hp', ht] at hr
          exact ⟨d0, by simp, ht, hp', hr⟩
        · simp [hp, ht] at hr
  · intro r hr
    rw [h5] at hr
    rw [h3]
    rcases List.mem_append.1 hr with hr | hr
    · obtain ⟨d, hdp, rest'⟩ := o4 r hr
      exact ⟨d, List.mem_append_left _ hdp, rest'⟩
    · by_cases hp : inPrimaryFile tu d0 = true
      · simp [hp] at hr
      · by_cases ht : isTopLevel tu d0 = true
        · have hp' : inPrimaryFile tu d0 = false := by simpa using hp
          refine ⟨d0, by simp, ht, hp', ?_⟩
          by_cases hk : (tu.decl d0).kind = DeclKind.function
          · simp [hp', ht, hk] at hr
            exact Or.inl ⟨hk, hr⟩
          · by_cases hv : (tu.decl d0).kind = DeclKind.var
            · simp [hp', ht, hv] at hr
              exact Or.inr ⟨hv, hr⟩
            · simp [hp', ht, hk, hv] at hr
        · simp [hp, ht] at hr

/-! ### The whole of `PrintStats` -/

theorem PrintStats_Ds (tu : TU n) : (PrintStats tu).Ds = [] :=
  closureLoop_Ds tu _ _ (Nat.le_refl _)

theorem isReferenced_prune (tu : TU n) (s : State n) (x : Fin n) :
    isReferenced tu (prune tu s) x = isReferenced tu s x := rfl

theorem mem_prune_Ds (tu : TU n) (s : State n) (x : Fin n) :
    x ∈ (prune tu s).Ds ↔
      x ∈ s.Ds ∧ (isReferenced tu s x = true ∨ inPrimaryFile tu x = true) := by
  simp [prune, List.mem_filter]

theorem closureStep_isReferenced_mono (tu : TU n) (s : State n) (hDs : s.Ds ≠ []) (x : Fin n)
    (h : isReferenced tu s x = true) : isReferenced tu (closureStep tu s) x = true := by
  obtain ⟨d, rest, hd⟩ := List.exists_cons_of_ne_nil hDs
  obtain ⟨h1, _, _, _, _⟩ := closureStep_fields tu s d rest hd
  rw [isReferenced_of_referenced_eq tu h1]
  exact isReferenced_markAll_mono tu s _ x h

theorem PrintStats_isReferenced_mono (tu : TU n) (x : Fin n)
    (h : isReferenced tu (initState tu) x = true) :
    isReferenced tu (PrintStats tu) x = true :=
  closureLoop_invariant tu (fun s => isReferenced tu s x = true)
    (fun s hDs hs => closureStep_isReferenced_mono tu s hDs x hs) _ _ h

theorem PrintStats_deps (tu : TU n) (d : Fin n) (hd : d ∈ (PrintStats tu).processed)
    (r : Fin n) (hr : r ∈ deps tu d) : isReferenced tu (PrintStats tu) r = true :=
  closureLoop_invariant tu
    (fun s => ∀ d, d ∈ s.processed → ∀ r, r ∈ deps tu d → isReferenced tu s r = true)
    (fun s hDs hs => closureStep_deps tu s hDs hs) _ _
    (by intro d hd; simp [prune, initState] at hd) d hd r hr

theorem PrintStats_rows (tu : TU n) (d : Fin n) (hd : d ∈ (PrintStats tu).processed)
    (ht : isTopLevel tu d = true) (hp : inPrimaryFile tu d = false) :
    declRecord tu d ∈ (PrintStats tu).decls :=
  closureLoop_invariant tu
    (fun s => ∀ d, d ∈ s.processed → isTopLevel tu d = true → inPrimaryFile tu d = false →
      declRecord tu d ∈ s.decls)
    (fun s hDs hs => closureStep_rows tu s hDs hs) _ _
    (by intro d hd; simp [prune, initState] at hd) d hd ht hp

theorem PrintStats_covered (tu : TU n) (x : Fin n)
    (h : x ∈ (prune tu (initState tu)).Ds) : x ∈ (PrintStats tu).processed := by
  have := closureLoop_invariant tu (fun s => x ∈ s.Ds ∨ x ∈ s.processed)
    (fun s hDs hs => closureStep_covered tu s hDs x hs)
    (closureFuel tu (prune tu (initState tu))) _ (Or.inl h)
  have hDs := PrintStats_Ds tu
  unfold PrintStats at hDs ⊢
  simp only at hDs ⊢
  dsimp only at this
  rw [hDs] at this
  simpa using this

theorem PrintStats_cover (tu : TU n) (G : Fin n → Prop)
    (hpush : ∀ d e x, e ∈ depTargets tu d → G x →
      (tu.decl x).canonical = (tu.decl e).canonical → x ∈ pushed tu e)
    (hinit : ∀ x, G x → isReferenced tu (initState tu) x = true → isTopLevel tu x = true)
    (x : Fin n) (hG : G x) (hx : isReferenced tu (PrintStats tu) x = true) :
    x ∈ (PrintStats tu).processed := by
  have := closureLoop_invariant tu
    (fun s => ∀ x, G x → isReferenced tu s x = true → x ∈ s.Ds ∨ x ∈ s.processed)
    (fun s hDs hs => closureStep_cover tu G hpush s hDs hs)
    (closureFuel tu (prune tu (initState tu))) (prune tu (initState tu))
    (by
      intro y hGy hy
      left
      rw [mem_prune_Ds]
      rw [isReferenced_prune] at hy
      have ht := hinit y hGy hy
      exact ⟨by simpa [isTopLevel, initState] using ht, Or.inl hy⟩)
  have hDs := PrintStats_Ds tu
  unfold PrintStats at hDs hx ⊢
  simp only at hDs hx ⊢
  have h' := this x hG hx
  rw [hDs] at h'
  simpa using h'

theorem PrintStats_origin (tu : TU n) : Origin tu (PrintStats tu) := by
  refine closureLoop_invariant tu (Origin tu)
    (fun s hDs hs => closureStep_origin tu s hDs hs) _ _ ?_
  refine ⟨?_, ?_, ?_, ?_⟩
  · intro x hx
    rw [mem_prune_Ds] at hx
    apply Reach.base
    simp only [isRoot, Bool.or_eq_true]
    exact hx.2
  · intro x hx; simp [prune, initState] at hx
  · intro r hr; simp [prune, initState] at hr
  · intro r hr; simp [prune, initState] at hr

/-- C1 (counterexample). In `tuFieldSeed` the typedef `u32` (declaration 0) is
reachable from the seed-referenced field `i` through the dependency that
`markDependencies` extracts from it, it is top-level and outside the primary
file, and yet the closure pass never takes it and `decls` has no row for it. -/
theorem reachable_declaration_dropped :
    Reach tuFieldSeed (isRoot tuFieldSeed) 0 ∧
    isTopLevel tuFieldSeed 0 = true ∧ inPrimaryFile tuFieldSeed 0 = false ∧
    (0 : Fin 5) ∉ (PrintStats tuFieldSeed).processed ∧
    declRecord tuFieldSeed 0 ∉ (PrintStats tuFieldSeed).decls := by
  refine ⟨?_, by decide, by decide, by decide, by decide⟩
  exact Reach.step (d := 2) (Reach.base (by decide)) (by decide)

/-- C1 (as amended). When every declaration that counts as referenced before
`PrintStats` is a collected top-level declaration, and every dependency target
that is not a record has no redeclaration, every declaration reachable through
the extracted dependencies from a collected top-level declaration that is
seed-referenced or in the primary file is taken by the closure pass and, if it is
top-level and outside the primary file, has its row in `decls`. -/
theorem reachable_declaration_survives (tu : TU n)
    (hseeds : ∀ d, isReferenced tu (initState tu) d = true → isTopLevel tu d = true)
    (hredecl : ∀ d e, e ∈ depTargets tu d → (tu.decl e).kind ≠ DeclKind.record →
      ∀ j, (tu.decl j).canonical = (tu.decl e).canonical → j = e)
    (d : Fin n) (hreach : Reach tu (isCollectedRoot tu) d) :
    d ∈ (PrintStats tu).processed ∧
    (isTopLevel tu d = true → inPrimaryFile tu d = false →
      declRecord tu d ∈ (PrintStats tu).decls) := by
  have hcover : ∀ x, isReferenced tu (PrintStats tu) x = true →
      x ∈ (PrintStats tu).processed := by
    intro x hx
    refine PrintStats_cover tu (fun _ => True) ?_ (fun y _ hy => hseeds y hy) x trivial hx
    intro d' e y he _ hc
    by_cases hk : (tu.decl e).kind = DeclKind.record
    · exact mem_pushed_of_record tu hk hc
    · rw [hredecl d' e he hk y hc]
      exact mem_pushed_self tu e
  have hproc : d ∈ (PrintStats tu).processed := by
    induction hreach with
    | base hr =>
      rename_i r
      apply PrintStats_covered
      rw [mem_prune_Ds]
      simp only [isCollectedRoot, isRoot, isTopLevel, Bool.and_eq_true, Bool.or_eq_true,
        decide_eq_true_eq] at hr
      exact ⟨by simpa [initState] using hr.1, hr.2⟩
    | step _ he ih => exact hcover _ (PrintStats_deps tu _ ih _ he)
  exact ⟨hproc, fun ht hp => PrintStats_rows tu d hproc ht hp⟩

/-- Witness for C1: in the end-to-end scenario `tuBasic` the typedef `u32` is
reached from the seed `foo` through `struct ttt` and its field, and survives. -/
theorem reachable_declaration_survives_witness :
    (0 : Fin 5) ∈ (PrintStats tuBasic).processed ∧
    (isTopLevel tuBasic 0 = true → inPrimaryFile tuBasic 0 = false →
      declRecord tuBasic 0 ∈ (PrintStats tuBasic).decls) :=
  reachable_declaration_survives tuBasic (by decide) (by decide) 0
    (Reach.step (d := 2)
      (Reach.step (d := 1)
        (Reach.step (d := 3) (Reach.base (by decide)) (by decide))
        (by decide))
      (by decide))

/-- The second way a reachable declaration is lost: in `tuTypedefTwice` the first
`typedef int T;` (declaration 0) is marked for `bar`, so the second one
(declaration 2), a dependency of the seed `foo`, already counts as referenced and
is never pushed: it is reachable, top-level, outside the primary file, and has no
row in `decls`. -/
theorem typedef_redeclaration_dropped :
    Reach tuTypedefTwice (isCollectedRoot tuTypedefTwice) 2 ∧
    isTopLevel tuTypedefTwice 2 = true ∧ inPrimaryFile tuTypedefTwice 2 = false ∧
    (2 : Fin 5) ∉ (PrintStats tuTypedefTwice).processed ∧
    declRecord tuTypedefTwice 2 ∉ (PrintStats tuTypedefTwice).decls := by
  refine ⟨?_, by decide, by decide, by decide, by decide⟩
  exact Reach.step (d := 3) (Reach.base (by decide)) (by decide)

/-- C3. From every state the closure loop ends with an empty pending list within
`closureFuel` passes, which is at most the length of the pending list plus the
number of declarations; more fuel changes nothing. Each pass erases the front and
appends only pushes of targets, and `markDeclReferenced` pushes only when it newly
marks its argument: the argument and, for a record, its redeclarations. -/
theorem closure_pass_terminates (tu : TU n) (s : State n) :
    (∀ fuel, closureFuel tu s ≤ fuel →
      (closureLoop tu fuel s).Ds = [] ∧
      closureLoop tu fuel s = closureLoop tu (closureFuel tu s) s ∧
      (closureLoop tu fuel s).processed.length ≤ s.processed.length + s.Ds.length + n) ∧
    closureFuel tu s ≤ s.Ds.length + n ∧
    (∀ d rest, s.Ds = d :: rest →
      ∃ extra, (closureStep tu s).Ds = rest ++ extra ∧
        ∀ x, x ∈ extra → ∃ e, e ∈ depTargets tu d ∧ x ∈ pushed tu e) ∧
    (∀ e, (markDeclReferenced tu s e).Ds
        = s.Ds ++ (if isReferenced tu s e then [] else pushed tu e)) ∧
    (PrintStats tu).Ds = [] := by
  have hfuel : closureFuel tu s ≤ s.Ds.length + n := by
    have := unreferencedCount_le tu s
    simp only [closureFuel]; omega
  refine ⟨?_, hfuel, ?_, ?_, PrintStats_Ds tu⟩
  · intro fuel hf
    refine ⟨closureLoop_Ds tu fuel s hf, closureLoop_stable tu _ _ s hf (Nat.le_refl _), ?_⟩
    have := closureLoop_passes tu fuel s
    omega
  · intro d rest hd
    obtain ⟨_, h2, _, _, _⟩ := closureStep_fields tu s d rest hd
    obtain ⟨extra, hex, hextra⟩ := markAll_Ds tu s (depTargets tu d)
    refine ⟨extra, ?_, hextra⟩
    rw [h2, hex, hd]
    simp
  · intro e
    rw [markDeclReferenced_eq]
    split <;> simp

/-- Witness for C3: the closure pass of the forward-declaration scenario, started
from the pruned list with fuel 7, ends with an empty pending list. -/
theorem closure_pass_terminates_witness :
    (closureLoop tuForward 7 (prune tuForward (initState tuForward))).Ds = [] :=
  ((closure_pass_terminates tuForward (prune tuForward (initState tuForward))).1 7
    (by decide)).1

/-- C10. For a record with exactly two declarations `a` and `b` (a forward
declaration and a definition), both top-level and outside the primary file:
`markDeclReferenced` on either makes both count as referenced; and if either is a
seed, or is a dependency target of a declaration the closure pass takes, both
have their rows in `decls` after `PrintStats`. -/
theorem forward_declaration_survives (tu : TU n) (a b : Fin n)
    (hka : (tu.decl a).kind = DeclKind.record)
    (hkb : (tu.decl b).kind = DeclKind.record)
    (hgroup : ∀ j, (tu.decl j).canonical = (tu.decl a).canonical ↔ (j = a ∨ j = b))
    (hta : isTopLevel tu a = true) (htb : isTopLevel tu b = true)
    (hpa : inPrimaryFile tu a = false) (hpb : inPrimaryFile tu b = false) :
    (∀ s, isReferenced tu (markDeclReferenced tu s a) a = true ∧
          isReferenced tu (markDeclReferenced tu s a) b = true ∧
          isReferenced tu (markDeclReferenced tu s b) a = true ∧
          isReferenced tu (markDeclReferenced tu s b) b = true) ∧
    (∀ s x, isReferenced tu s a = false → (x = a ∨ x = b) →
      a ∈ (markDeclReferenced tu s x).Ds ∧ b ∈ (markDeclReferenced tu s x).Ds) ∧
    ((a ∈ tu.referenced ∨ b ∈ tu.referenced ∨
        ∃ d, d ∈ (PrintStats tu).processed ∧ (a ∈ depTargets tu d ∨ b ∈ depTargets tu d)) →
      declRecord tu a ∈ (PrintStats tu).decls ∧ declRecord tu b ∈ (PrintStats tu).decls) := by
  have hab : (tu.decl b).canonical = (tu.decl a).canonical := (hgroup b).2 (Or.inr rfl)
  refine ⟨?_, ?_, ?_⟩
  · intro s
    refine ⟨?_, ?_, ?_, ?_⟩
    · exact (isReferenced_markDeclReferenced tu s a a).2 (Or.inr rfl)
    · exact (isReferenced_markDeclReferenced tu s a b).2 (Or.inr hab)
    · exact (isReferenced_markDeclReferenced tu s b a).2 (Or.inr hab.symm)
    · exact (isReferenced_markDeclReferenced tu s b b).2 (Or.inr rfl)
  · intro s x hs hx
    have hxa : (tu.decl x).canonical = (tu.decl a).canonical := (hgroup x).2 hx
    have hkx : (tu.decl x).kind = DeclKind.record := by
      rcases hx with rfl | rfl
      · exact hka
      · exact hkb
    have hsx : isReferenced tu s x = false := by
      rw [isReferenced_congr tu s hxa]; exact hs
    rw [markDeclReferenced_eq]
    simp only [hsx, Bool.false_eq_true, if_false]
    exact ⟨List.mem_append_right _ (mem_pushed_of_record tu hkx hxa.symm),
      List.mem_append_right _ (mem_pushed_of_record tu hkx (hab.trans hxa.symm))⟩
  · intro h
    have hcover : ∀ x, (x = a ∨ x = b) → isReferenced tu (PrintStats tu) x = true →
        x ∈ (PrintStats tu).processed := by
      intro x hG hx
      refine PrintStats_cover tu (fun y => y = a ∨ y = b) ?_ ?_ x hG hx
      · intro d e y _ hy hc
        have hya : (tu.decl y).canonical = (tu.decl a).canonical := (hgroup y).2 hy
        have he : e = a ∨ e = b := (hgroup e).1 (hc.symm.trans hya)
        have hke : (tu.decl e).kind = DeclKind.record := by
          rcases he with rfl | rfl
          · exact hka
          · exact hkb
        exact mem_pushed_of_record tu hke hc
      · intro y hy _
        rcases hy with rfl | rfl
        · exact hta
        · exact htb
    have href : isReferenced tu (PrintStats tu) a = true := by
      rcases h with h | h | ⟨d, hd, h | h⟩
      · apply PrintStats_isReferenced_mono
        exact (isReferenced_iff tu _ a).2 ⟨a, h, rfl⟩
      · apply PrintStats_isReferenced_mono
        exact (isReferenced_iff tu _ a).2 ⟨b, h, hab⟩
      · exact PrintStats_deps tu d hd a ((mem_deps tu d a).2 ⟨a, h, mem_pushed_self tu a⟩)
      · rw [← isReferenced_congr tu _ hab]
        exact PrintStats_deps tu d hd b ((mem_deps tu d b).2 ⟨b, h, mem_pushed_self tu b⟩)
    have hrefb : isReferenced tu (PrintStats tu) b = true := by
      rw [isReferenced_congr tu _ hab]; exact href
    exact ⟨PrintStats_rows tu a (hcover a (Or.inl rfl) href) hta hpa,
      PrintStats_rows tu b (hcover b (Or.inr rfl) hrefb) htb hpb⟩

/-- Witness for C10: in `tuForward` the definition of `struct dir` (declaration 2)
is a dependency target of the seed `foo_4`; the forward declaration `struct dir;`
(declaration 0) and the definition both have their rows in `decls`. -/
theorem forward_declaration_survives_witness :
    declRecord tuForward 2 ∈ (PrintStats tuForward).decls ∧
    declRecord tuForward 0 ∈ (PrintStats tuForward).decls :=
  (forward_declaration_survives tuForward 2 0 (by decide) (by decide) (by decide)
    (by decide) (by decide) (by decide) (by decide)).2.2
    (Or.inr (Or.inr ⟨4, by decide, Or.inl (by decide)⟩))


/-! ### Monotonicity, the prune pass and what is persisted -/

theorem refGrows_of_subset (tu : TU n) {s t : State n}
    (h : ∀ x, x ∈ s.referenced → x ∈ t.referenced) : RefGrows tu s t := by
  refine ⟨h, ?_⟩
  intro x hx
  obtain ⟨r, hr, hc⟩ := (isReferenced_iff tu s x).1 hx
  exact (isReferenced_iff tu t x).2 ⟨r, h r hr, hc⟩

theorem refGrows_refl (tu : TU n) (s : State n) : RefGrows tu s s :=
  ⟨fun _ h => h, fun _ h => h⟩

theorem refGrows_trans (tu : TU n) {s t u : State n} (h1 : RefGrows tu s t)
    (h2 : RefGrows tu t u) : RefGrows tu s u :=
  ⟨fun x h => h2.1 x (h1.1 x h), fun x h => h2.2 x (h1.2 x h)⟩

theorem refGrows_markDeclReferenced (tu : TU n) (s : State n) (e : Fin n) :
    RefGrows tu s (markDeclReferenced tu s e) := by
  apply refGrows_of_subset
  intro x hx
  rw [markDeclReferenced_eq]
  split
  · exact hx
  · exact List.mem_cons_of_mem _ hx

theorem refGrows_markAll (tu : TU n) (s : State n) (ts : List (Fin n)) :
    RefGrows tu s (markAll tu s ts) :=
  markAll_induction tu (fun s' => RefGrows tu s s') ts s
    (fun s' e _ h => refGrows_trans tu h (refGrows_markDeclReferenced tu s' e))
    (refGrows_refl tu s)

theorem refGrows_closureStep (tu : TU n) (s : State n) :
    RefGrows tu s (closureStep tu s) := by
  by_cases hDs : s.Ds = []
  · have : closureStep tu s = s := by simp [closureStep, hDs]
    rw [this]; exact refGrows_refl tu s
  · obtain ⟨d, rest, hd⟩ := List.exists_cons_of_ne_nil hDs
    obtain ⟨h1, _, _, _, _⟩ := closureStep_fields tu s d rest hd
    apply refGrows_of_subset
    intro x hx
    rw [h1]
    exact (refGrows_markAll tu s (depTargets tu d)).1 x hx

theorem refGrows_closureLoop (tu : TU n) (fuel : Nat) (s : State n) :
    RefGrows tu s (closureLoop tu fuel s) :=
  closureLoop_invariant tu (fun s' => RefGrows tu s s')
    (fun s' _ h => refGrows_trans tu h (refGrows_closureStep tu s')) fuel s (refGrows_refl tu s)

/-- C11. Monotonicity: `markDeclReferenced`, `markTypeReferenced`,
`markDependencies`, the prune pass, every pass of the closure loop, the closure
loop and the whole of `PrintStats` never clear a referenced flag: a `Referenced`
bit that is set stays set, and a declaration that counts as referenced still
does afterwards. -/
theorem referenced_monotone (tu : TU n) (s : State n) :
    (∀ e, RefGrows tu s (markDeclReferenced tu s e)) ∧
    (∀ t, RefGrows tu s (markTypeReferenced tu s t)) ∧
    (∀ d, RefGrows tu s (markDependencies tu s d)) ∧
    RefGrows tu s (prune tu s) ∧
    RefGrows tu s (closureStep tu s) ∧
    (∀ fuel, RefGrows tu s (closureLoop tu fuel s)) ∧
    RefGrows tu (initState tu) (PrintStats tu) := by
  refine ⟨refGrows_markDeclReferenced tu s, ?_, ?_, refGrows_refl tu s,
    refGrows_closureStep tu s, fun fuel => refGrows_closureLoop tu fuel s, ?_⟩
  · intro t
    rw [markTypeReferenced_eq]
    exact refGrows_markAll tu s (typeTargets t)
  · intro d
    rw [markDependencies_eq]
    exact refGrows_markAll tu s (depTargets tu d)
  · exact refGrows_closureLoop tu _ (prune tu (initState tu))

theorem pruneLoop_eq (tu : TU n) (s : State n) : ∀ (after before : List (Fin n)),
    pruneLoop tu s before after
      = before ++ after.filter (fun d => isReferenced tu s d || inPrimaryFile tu d) := by
  intro after
  induction after with
  | nil => intro before; simp [pruneLoop]
  | cons d after ih =>
    intro before
    simp only [pruneLoop, List.filter_cons]
    by_cases hr : isReferenced tu s d = true
    · simp [hr, ih]
    · by_cases hp : inPrimaryFile tu d = true
      · have hp' : endswith (fileOf tu d) ['.', 'c'] = true := hp
        simp [hr, hp, hp', ih]
      · have hp' : endswith (fileOf tu d) ['.', 'c'] = false := by
          simpa [inPrimaryFile] using hp
        simp [hr, hp, hp', ih]

/-- C12. The prune pass: the loop of step 1 leaves in `_Ds` exactly the
declarations that are referenced or whose file (their own, or the recorded
fallback when their own is empty) ends with `.c`, in their original order; a
pending declaration is dropped exactly when it is neither; nothing but `_Ds`
changes, in particular no referenced flag. -/
theorem prune_pass (tu : TU n) (s : State n) :
    pruneLoop tu s [] s.Ds = (prune tu s).Ds ∧
    (prune tu s).Ds = s.Ds.filter (fun d => isReferenced tu s d ||
      endswith (if (tu.decl d).file = [] then tu.locations d else (tu.decl d).file)
        ['.', 'c']) ∧
    List.Sublist (prune tu s).Ds s.Ds ∧
    (∀ d, d ∈ (prune tu s).Ds ↔
      d ∈ s.Ds ∧ (isReferenced tu s d = true ∨ inPrimaryFile tu d = true)) ∧
    (∀ d, d ∈ s.Ds → (d ∉ (prune tu s).Ds ↔
      (isReferenced tu s d = false ∧ inPrimaryFile tu d = false))) ∧
    (prune tu s).referenced = s.referenced ∧
    (∀ d, isReferenced tu (prune tu s) d = isReferenced tu s d) ∧
    (prune tu s).decls = s.decls ∧ (prune tu s).prototypes = s.prototypes ∧
    (prune tu s).out = s.out ∧ (prune tu s).processed = s.processed := by
  refine ⟨?_, rfl, ?_, mem_prune_Ds tu s, ?_, rfl, fun _ => rfl, rfl, rfl, rfl, rfl⟩
  · rw [pruneLoop_eq]; simp [prune]
  · exact List.filter_sublist _
  · intro d hd
    rw [mem_prune_Ds]
    constructor
    · intro h
      constructor
      · cases hr : isReferenced tu s d with
        | false => rfl
        | true => exact absurd ⟨hd, Or.inl hr⟩ h
      · cases hp : inPrimaryFile tu d with
        | false => rfl
        | true => exact absurd ⟨hd, Or.inr hp⟩ h
    · rintro ⟨h1, h2⟩ ⟨_, h | h⟩
      · rw [h1] at h; exact Bool.noConfusion h
      · rw [h2] at h; exact Bool.noConfusion h

/-- C13. Primary-file declarations are consumed, not emitted. A pass of the
closure loop on a declaration of the primary file writes no row but applies
`markDependencies` to it; a pass on a header declaration writes one `decls` row
when it is top-level and none otherwise, and one `prototypes` row only for a
top-level function (`is_function = 1`) or variable (`is_function = 0`). After
`PrintStats` no row of `decls` or `prototypes` has a header ending with `.c`, and
every top-level declaration of the primary file was taken, its dependencies
marked. -/
theorem primary_file_consumed (tu : TU n) :
    (∀ (s : State n) d rest, s.Ds = d :: rest → inPrimaryFile tu d = true →
      (closureStep tu s).decls = s.decls ∧
      (closureStep tu s).prototypes = s.prototypes ∧
      (closureStep tu s).referenced = (markDependencies tu s d).referenced ∧
      (closureStep tu s).processed = s.processed ++ [d] ∧
      ∀ e, e ∈ depTargets tu d → isReferenced tu (closureStep tu s) e = true) ∧
    (∀ (s : State n) d rest, s.Ds = d :: rest → inPrimaryFile tu d = false →
      (closureStep tu s).decls
        = s.decls ++ (if isTopLevel tu d then [declRecord tu d] else []) ∧
      (closureStep tu s).prototypes = s.prototypes ++
        (if isTopLevel tu d then
          (if (tu.decl d).kind = DeclKind.function then [dumpFunction tu d (fileOf tu d)]
           else if (tu.decl d).kind = DeclKind.var then [dumpVar tu d (fileOf tu d)]
           else [])
         else [])) ∧
    (∀ r, r ∈ (PrintStats tu).decls → endswith r.header ['.', 'c'] = false ∧
      ∃ d, d ∈ (PrintStats tu).processed ∧ isTopLevel tu d = true ∧
        inPrimaryFile tu d = false ∧ r = declRecord tu d) ∧
    (∀ r, r ∈ (PrintStats tu).prototypes → endswith r.header ['.', 'c'] = false ∧
      ∃ d, d ∈ (PrintStats tu).processed ∧ isTopLevel tu d = true ∧
        inPrimaryFile tu d = false ∧
        (((tu.decl d).kind = DeclKind.function ∧ r = dumpFunction tu d (fileOf tu d) ∧
            r.isFunction = true) ∨
         ((tu.decl d).kind = DeclKind.var ∧ r = dumpVar tu d (fileOf tu d) ∧
            r.isFunction = false))) ∧
    (∀ d, isTopLevel tu d = true → inPrimaryFile tu d = true →
      d ∈ (PrintStats tu).processed ∧
      ∀ e, e ∈ depTargets tu d → isReferenced tu (PrintStats tu) e = true) := by
  obtain ⟨_, _, o3, o4⟩ := PrintStats_origin tu
  refine ⟨?_, ?_, ?_, ?_, ?_⟩
  · intro s d rest hd hp
    obtain ⟨h1, _, h3, h4, h5⟩ := closureStep_fields tu s d rest hd
    refine ⟨by simpa [hp] using h4, by simpa [hp] using h5, ?_, h3, ?_⟩
    · rw [h1, markDependencies_eq]; rfl
    · intro e he
      rw [isReferenced_of_referenced_eq tu h1]
      exact isReferenced_markAll_target tu _ s e he
  · intro s d rest hd hp
    obtain ⟨_, _, _, h4, h5⟩ := closureStep_fields tu s d rest hd
    exact ⟨by simpa [hp] using h4, by simpa [hp] using h5⟩
  · intro r hr
    obtain ⟨d, h1, h2, h3, h4⟩ := o3 r hr
    refine ⟨?_, d, h1, h2, h3, h4⟩
    rw [h4]; exact h3
  · intro r hr
    obtain ⟨d, h1, h2, h3, h4⟩ := o4 r hr
    refine ⟨?_, d, h1, h2, h3, ?_⟩
    · rcases h4 with ⟨_, h4⟩ | ⟨_, h4⟩ <;> (rw [h4]; exact h3)
    · rcases h4 with ⟨hk, h4⟩ | ⟨hk, h4⟩
      · exact Or.inl ⟨hk, h4, by rw [h4]; rfl⟩
      · exact Or.inr ⟨hk, h4, by rw [h4]; rfl⟩
  · intro d ht hp
    have hproc : d ∈ (PrintStats tu).processed := by
      apply PrintStats_covered
      rw [mem_prune_Ds]
      exact ⟨by simpa [isTopLevel, initState] using ht, Or.inr hp⟩
    refine ⟨hproc, fun e he => ?_⟩
    exact PrintStats_deps tu d hproc e ((mem_deps tu d e).2 ⟨e, he, mem_pushed_self tu e⟩)

/-- Witness for C13: in the end-to-end scenario `main` (declaration 4) lies in
`main.c`; it is taken by the closure pass and no row has a header ending with
`.c`. -/
theorem primary_file_consumed_witness :
    ((4 : Fin 5) ∈ (PrintStats tuBasic).processed ∧
      ∀ e, e ∈ depTargets tuBasic 4 → isReferenced tuBasic (PrintStats tuBasic) e = true) ∧
    (∀ r, r ∈ (PrintStats tuBasic).decls → endswith r.header ['.', 'c'] = false ∧
      ∃ d, d ∈ (PrintStats tuBasic).processed ∧ isTopLevel tuBasic d = true ∧
        inPrimaryFile tuBasic d = false ∧ r = declRecord tuBasic d) :=
  ⟨(primary_file_consumed tuBasic).2.2.2.2 4 (by decide) (by decide),
   (primary_file_consumed tuBasic).2.2.1⟩

/-! ### Record dependency extraction -/

theorem mem_typesTargets (e : Fin n) : ∀ (ts : List (QualType n)),
    e ∈ typesTargets ts ↔ ∃ t, t ∈ ts ∧ e ∈ typeTargets t := by
  intro ts
  induction ts with
  | nil => simp [typesTargets]
  | cons t ts ih =>
    rw [typesTargets, List.mem_append, ih]
    simp

theorem depTargets_record (tu : TU n) (d : Fin n) (hk : (tu.decl d).kind = DeclKind.record) :
    depTargets tu d = (tu.decl d).members
      ++ typesTargets ((tu.fields d).map (fun f => (tu.decl f).type)) := by
  simp [depTargets, hk]

/-- C15 (counterexample). In `tuNestedSeed` the closure pass takes `struct outer`
(declaration 1), but the field `y` (declaration 4) of the nested `struct inner`
and the typedef `u32` its type names are not marked referenced: `struct inner`
already counts as referenced, so `markDeclReferenced` does not push it. -/
theorem nested_member_not_marked :
    (1 : Fin 7) ∈ (PrintStats tuNestedSeed).processed ∧
    (tuNestedSeed.decl 1).kind = DeclKind.record ∧
    Nested tuNestedSeed 1 4 ∧
    isReferenced tuNestedSeed (PrintStats tuNestedSeed) 4 = false ∧
    isReferenced tuNestedSeed (PrintStats tuNestedSeed) 0 = false := by
  refine ⟨by decide, by decide, ?_, by decide, by decide⟩
  exact Nested.deeper (m := 2) (Nested.member (by decide)) (by decide) (by decide)

/-- C15 (as amended). For a record the closure pass takes: each of its members and
each declaration named by the type of one of its fields ends up marked
referenced; and when every record that counts as referenced before `PrintStats`
is a collected top-level declaration and a redeclaration of a record is a record,
the same holds at every nesting depth: every declaration nested inside it ends up
marked referenced, every record nested inside it is taken by the closure pass,
and every declaration named by the type of a field of such a record ends up
marked referenced. -/
theorem record_members_marked (tu : TU n) (d : Fin n)
    (hk : (tu.decl d).kind = DeclKind.record) (hd : d ∈ (PrintStats tu).processed) :
    (∀ x, x ∈ (tu.decl d).members → isReferenced tu (PrintStats tu) x = true) ∧
    (∀ f, f ∈ tu.fields d → ∀ e, e ∈ typeTargets (tu.decl f).type →
      isReferenced tu (PrintStats tu) e = true) ∧
    ((∀ x, (tu.decl x).kind = DeclKind.record →
        isReferenced tu (initState tu) x = true → isTopLevel tu x = true) →
     (∀ x e, (tu.decl x).kind = DeclKind.record →
        (tu.decl x).canonical = (tu.decl e).canonical →
        (tu.decl e).kind = DeclKind.record) →
     (∀ x, Nested tu d x → isReferenced tu (PrintStats tu) x = true) ∧
     (∀ r, Nested tu d r → (tu.decl r).kind = DeclKind.record →
        r ∈ (PrintStats tu).processed ∧
        ∀ f, f ∈ tu.fields r → ∀ e, e ∈ typeTargets (tu.decl f).type →
          isReferenced tu (PrintStats tu) e = true)) := by
  have hmem : ∀ r, (tu.decl r).kind = DeclKind.record → r ∈ (PrintStats tu).processed →
      ∀ x, x ∈ (tu.decl r).members → isReferenced tu (PrintStats tu) x = true := by
    intro r hr hp x hx
    apply PrintStats_deps tu r hp x
    rw [mem_deps]
    exact ⟨x, by rw [depTargets_record tu r hr]; exact List.mem_append_left _ hx,
      mem_pushed_self tu x⟩
  have hfld : ∀ r, (tu.decl r).kind = DeclKind.record → r ∈ (PrintStats tu).processed →
      ∀ f, f ∈ tu.fields r → ∀ e, e ∈ typeTargets (tu.decl f).type →
      isReferenced tu (PrintStats tu) e = true := by
    intro r hr hp f hf e he
    apply PrintStats_deps tu r hp e
    rw [mem_deps]
    refine ⟨e, ?_, mem_pushed_self tu e⟩
    rw [depTargets_record tu r hr]
    apply List.mem_append_right
    rw [mem_typesTargets]
    exact ⟨(tu.decl f).type, List.mem_map.2 ⟨f, hf, rfl⟩, he⟩
  refine ⟨hmem d hk hd, hfld d hk hd, ?_⟩
  intro hseed hgroup
  have hcover : ∀ x, (tu.decl x).kind = DeclKind.record →
      isReferenced tu (PrintStats tu) x = true → x ∈ (PrintStats tu).processed := by
    intro x hx href
    refine PrintStats_cover tu (fun y => (tu.decl y).kind = DeclKind.record) ?_ ?_ x hx href
    · intro _ e y _ hy hc
      exact mem_pushed_of_record tu (hgroup y e hy hc) hc
    · intro y hy href0
      exact hseed y hy href0
  have hnested : ∀ x, Nested tu d x → isReferenced tu (PrintStats tu) x = true := by
    intro x hx
    induction hx with
    | member hm => exact hmem d hk hd _ hm
    | deeper _ hrec hm ih => exact hmem _ hrec (hcover _ hrec ih) _ hm
  refine ⟨hnested, ?_⟩
  intro r hr hrk
  have hp := hcover r hrk (hnested r hr)
  exact ⟨hp, hfld r hrk hp⟩

/-- Witness for C15: in `tuNested` the closure pass takes `struct outer`; the
field `y` of the nested `struct inner` is marked referenced, and so is the typedef
`u32` its type names. -/
theorem record_members_marked_witness :
    isReferenced tuNested (PrintStats tuNested) 4 = true ∧
    ((2 : Fin 7) ∈ (PrintStats tuNested).processed ∧
      ∀ f, f ∈ tuNested.fields 2 → ∀ e, e ∈ typeTargets (tuNested.decl f).type →
        isReferenced tuNested (PrintStats tuNested) e = true) :=
  have h := (record_members_marked tuNested 1 (by decide) (by decide)).2.2
    (by decide) (by decide)
  ⟨h.1 4 (Nested.deeper (m := 2) (Nested.member (by decide)) (by decide) (by decide)),
   h.2 2 (Nested.member (by decide)) (by decide)⟩

/-! ### Typedef types and dead ends of the walk -/

/-- C21. Typedef resolution stops at the alias. For a `TypedefType` of the
declaration `d` (which is never a record) with any underlying type `u`, in any
state: `markTypeReferenced` changes nothing when `d` already counts as
referenced, and otherwise sets the bit of `d` and pushes `d` alone; rows,
diagnostics and trace are untouched. The `Referenced` bit of every other
declaration is as before, and so is what `isReferenced()` answers for every
declaration that is not a redeclaration of `d`, in particular for those the
underlying type names. -/
theorem typedef_stops_at_alias (tu : TU n) (s : State n) (d : Fin n) (u : QualType n)
    (hk : (tu.decl d).kind ≠ DeclKind.record) :
    (isReferenced tu s d = true → markTypeReferenced tu s (QualType.typedef d u) = s) ∧
    (isReferenced tu s d = false →
      markTypeReferenced tu s (QualType.typedef d u) =
        { s with referenced := d :: s.referenced, Ds := s.Ds ++ [d] }) ∧
    (∀ e, e ≠ d →
      (e ∈ (markTypeReferenced tu s (QualType.typedef d u)).referenced ↔ e ∈ s.referenced)) ∧
    (∀ e, (tu.decl e).canonical ≠ (tu.decl d).canonical →
      isReferenced tu (markTypeReferenced tu s (QualType.typedef d u)) e = isReferenced tu s e) ∧
    (∀ e, e ∈ typeTargets u → (tu.decl e).canonical ≠ (tu.decl d).canonical →
      isReferenced tu (markTypeReferenced tu s (QualType.typedef d u)) e = isReferenced tu s e) := by
  have hcall : markTypeReferenced tu s (QualType.typedef d u) = markDeclReferenced tu s d := by
    simp [markTypeReferenced]
  have hpushed : pushed tu d = [d] := by
    unfold pushed
    simp [hk]
  have hflag : ∀ e, (tu.decl e).canonical ≠ (tu.decl d).canonical →
      isReferenced tu (markDeclReferenced tu s d) e = isReferenced tu s e := by
    intro e he
    rw [Bool.eq_iff_iff, isReferenced_markDeclReferenced]
    constructor
    · rintro (h | h)
      · exact h
      · exact absurd h he
    · intro h
      exact Or.inl h
  rw [hcall]
  refine ⟨?_, ?_, ?_, hflag, fun e _ he => hflag e he⟩
  · intro h
    rw [markDeclReferenced_eq, if_pos h]
  · intro h
    rw [markDeclReferenced_eq, hpushed]
    simp [h]
  · intro e he
    rw [markDeclReferenced_eq]
    split <;> simp [he]

/-- Witness for C21: in the typedef fixture, with nothing referenced yet,
`markTypeReferenced` on the type `tt` (a typedef of `struct ttt`) sets the bit of
`tt` and pushes `tt`; `struct ttt` still does not count as referenced. -/
theorem typedef_stops_at_alias_witness :
    (markTypeReferenced tuTypedef (initState tuTypedef) ttType).referenced = [4] ∧
    (markTypeReferenced tuTypedef (initState tuTypedef) ttType).Ds = [0, 1, 2, 4, 5, 4] ∧
    isReferenced tuTypedef (markTypeReferenced tuTypedef (initState tuTypedef) ttType) 2 = false :=
  have h := typedef_stops_at_alias tuTypedef (initState tuTypedef) 4
    (QualType.elaborated (QualType.record false 2)) (by decide)
  ⟨by rw [ttType, h.2.1 (by decide)]; rfl,
   by rw [ttType, h.2.1 (by decide)]; rfl,
   by rw [ttType, h.2.2.2.1 2 (by decide)]; decide⟩

/-- The types no test of `markTypeReferenced` succeeds on: a canonical class it
does not test for, and a sugar class it does not test for around a type that is
neither a struct nor a union. -/
theorem typeHandled_eq_false_iff (t : QualType n) :
    typeHandled t = false ↔
      t = QualType.unhandled ∨
      ∃ u, t = QualType.otherSugar u ∧ getAsStructureType u = none ∧ getAsUnionType u = none := by
  cases t with
  | record b d => cases b <;> simp [typeHandled, getAsStructureType, getAsUnionType, QualType.desugar]
  | _ => simp [typeHandled, getAsStructureType, getAsUnionType, QualType.desugar]

theorem persist_out (tu : TU n) (s : State n) (d : Fin n) : (persist tu s d).out = s.out := by
  unfold persist
  split
  · split
    · simp
    · split <;> simp
  · simp

theorem markTypeReferenced_unhandled (tu : TU n) (s : State n) (t : QualType n)
    (h : typeHandled t = false) :
    markTypeReferenced tu s t = { s with out := s.out ++ [Diag.notHandledType] } := by
  rcases (typeHandled_eq_false_iff t).1 h with h | ⟨u, h, hs, hu⟩
  · subst h
    simp [markTypeReferenced, getAsStructureType, getAsUnionType, QualType.desugar]
  · subst h
    have hs' : getAsStructureType (QualType.otherSugar u) = none := by
      simpa [getAsStructureType, QualType.desugar] using hs
    have hu' : getAsUnionType (QualType.otherSugar u) = none := by
      simpa [getAsUnionType, QualType.desugar] using hu
    simp [markTypeReferenced, hs', hu']

/-- What one pass of the closure loop leaves of the state when the dependency
extraction of the declaration at the front only writes diagnostic lines. -/
theorem closureStep_dead_end (tu : TU n) (s : State n) (d : Fin n) (rest : List (Fin n))
    (ds : List Diag) (hDs : s.Ds = d :: rest)
    (hdep : markDependencies tu s d = { s with out := s.out ++ ds }) :
    (closureStep tu s).referenced = s.referenced ∧
    (closureStep tu s).Ds = rest ∧
    (closureStep tu s).out = s.out ++ ds ∧
    (closureStep tu s).processed = s.processed ++ [d] := by
  obtain ⟨p1, p2, p3⟩ := persist_frame tu { s with out := s.out ++ ds } d
  have p4 := persist_out tu { s with out := s.out ++ ds } d
  unfold closureStep
  rw [hDs]
  simp only [hdep]
  by_cases hp : inPrimaryFile tu d = true
  · simp [hp, hDs]
  · have hp' : inPrimaryFile tu d = false := by simpa using hp
    simp only [hp', Bool.false_eq_true, if_false]
    refine ⟨p1, ?_, p4, ?_⟩
    · show (persist tu _ d).Ds.tail = rest
      rw [p2]; simp [hDs]
    · show (persist tu _ d).processed ++ [d] = _
      rw [p3]

/-- C22. Unrecognized variants are dead ends that do not stop the walk. In any
state: `markTypeReferenced` on a type none of its tests succeeds on returns the
state with one `not handled class` line added and nothing else changed, and a walk
over a list of types goes on with the next type; `markDependencies` on a
declaration of a class it does not test for returns the state with one
`Unhandled decl` line added and nothing else changed. When such a declaration, or
a typedef, variable, field or indirect field of such a type, is at the front of
the pending list, the pass of the closure loop leaves the `Referenced` bits as
they were, adds nothing to the pending list and erases the front, and the loop
goes on from that state. -/
theorem unrecognized_dead_end (tu : TU n) (s : State n) :
    (∀ t : QualType n, typeHandled t = false →
      markTypeReferenced tu s t = { s with out := s.out ++ [Diag.notHandledType] }) ∧
    (∀ (t : QualType n) (rest : List (QualType n)), typeHandled t = false →
      markTypesReferenced tu s (t :: rest) =
        markTypesReferenced tu { s with out := s.out ++ [Diag.notHandledType] } rest) ∧
    (∀ d, (tu.decl d).kind = DeclKind.other →
      markDependencies tu s d = { s with out := s.out ++ [Diag.unhandledDecl] }) ∧
    (∀ d rest, s.Ds = d :: rest → (tu.decl d).kind = DeclKind.other →
      (closureStep tu s).referenced = s.referenced ∧
      (closureStep tu s).Ds = rest ∧
      (closureStep tu s).out = s.out ++ [Diag.unhandledDecl] ∧
      (closureStep tu s).processed = s.processed ++ [d] ∧
      ∀ fuel, closureLoop tu (fuel + 1) s = closureLoop tu fuel (closureStep tu s)) ∧
    (∀ d rest, s.Ds = d :: rest →
      ((tu.decl d).kind = DeclKind.typedef ∨ (tu.decl d).kind = DeclKind.var ∨
        (tu.decl d).kind = DeclKind.field ∨ (tu.decl d).kind = DeclKind.indirectField) →
      typeHandled (tu.decl d).type = false →
      (closureStep tu s).referenced = s.referenced ∧
      (closureStep tu s).Ds = rest ∧
      (closureStep tu s).out = s.out ++ [Diag.notHandledType] ∧
      (closureStep tu s).processed = s.processed ++ [d] ∧
      ∀ fuel, closureLoop tu (fuel + 1) s = closureLoop tu fuel (closureStep tu s)) := by
  have hloop : ∀ d rest, s.Ds = d :: rest →
      ∀ fuel, closureLoop tu (fuel + 1) s = closureLoop tu fuel (closureStep tu s) := by
    intro d rest hDs fuel
    have hne : s.Ds ≠ [] := by rw [hDs]; exact List.cons_ne_nil _ _
    simp [closureLoop, hne]
  refine ⟨fun t ht => markTypeReferenced_unhandled tu s t ht, ?_, ?_, ?_, ?_⟩
  · intro t rest ht
    rw [markTypesReferenced, markTypeReferenced_unhandled tu s t ht]
  · intro d hk
    simp [markDependencies, hk]
  · intro d rest hDs hk
    have hdep : markDependencies tu s d = { s with out := s.out ++ [Diag.unhandledDecl] } := by
      simp [markDependencies, hk]
    obtain ⟨h1, h2, h3, h4⟩ := closureStep_dead_end tu s d rest _ hDs hdep
    exact ⟨h1, h2, h3, h4, hloop d rest hDs⟩
  · intro d rest hDs hk ht
    have hdep : markDependencies tu s d = { s with out := s.out ++ [Diag.notHandledType] } := by
      rcases hk with hk | hk | hk | hk <;>
        simp [markDependencies, hk, markTypeReferenced_unhandled tu s _ ht]
    obtain ⟨h1, h2, h3, h4⟩ := closureStep_dead_end tu s d rest _ hDs hdep
    exact ⟨h1, h2, h3, h4, hloop d rest hDs⟩

/-- Witness for C22: in `tuDeadEnds` the pass on the typedef `fn_t` of a function
type without prototype writes one line and leaves `asm` and `main` pending; the
pass on the `asm` declaration after it writes one line and leaves `main` pending;
`PrintStats` takes all three declarations and ends with both lines written. -/
theorem unrecognized_dead_end_witness :
    (closureStep tuDeadEnds (prune tuDeadEnds (initState tuDeadEnds))).Ds = [1, 2] ∧
    (closureStep tuDeadEnds (prune tuDeadEnds (initState tuDeadEnds))).out
      = [Diag.notHandledType] ∧
    (closureStep tuDeadEnds
      (closureStep tuDeadEnds (prune tuDeadEnds (initState tuDeadEnds)))).Ds = [2] ∧
    (closureStep tuDeadEnds
      (closureStep tuDeadEnds (prune tuDeadEnds (initState tuDeadEnds)))).referenced = [0] ∧
    (PrintStats tuDeadEnds).processed = [0, 1, 2] ∧
    (PrintStats tuDeadEnds).out = [Diag.notHandledType, Diag.unhandledDecl] :=
  have h1 := (unrecognized_dead_end tuDeadEnds (prune tuDeadEnds (initState tuDeadEnds))).2.2.2.2
    0 [1, 2] (by decide) (Or.inl (by decide)) (by decide)
  have h2 := (unrecognized_dead_end tuDeadEnds
    (closureStep tuDeadEnds (prune tuDeadEnds (initState tuDeadEnds)))).2.2.2.1
    1 [2] h1.2.1 (by decide)
  ⟨h1.2.1, h1.2.2.1, h2.2.1, h2.1.trans h1.1, by decide, by decide⟩
end Engine

/-! ## Formal argument names -/

theorem commaLoop_npos (fuel : Nat) (acc : Str) (arg : Nat) :
    commaLoop fuel acc arg none = (acc, arg) := by
  cases fuel <;> simp [commaLoop, findFrom]

/-- The block under `if (addFormal)`: no name is put before a comma, because the
comma search starts from npos; the name ` a` is put before the last close-paren
unless the text has `(void)` or `...`. -/
theorem addFormalNames_eq (acc : Str) :
    addFormalNames acc =
      match find acc ['(', 'v', 'o', 'i', 'd', ')'] 0 with
      | some _ => acc
      | none =>
        match find acc ['.', '.', '.'] 0 with
        | some _ => acc
        | none =>
          match rfind acc [')'] none with
          | some p => insert acc p [' ', 'a']
          | none => acc := by
  unfold addFormalNames
  simp only [commaLoop_npos]
  rfl

theorem find_zero_eq_some {s needle : Str} {j : Nat} (hocc : needle <+: s.drop j)
    (hj : j ≤ s.length) (hmin : ∀ m, m < j → ¬ needle <+: s.drop m) :
    find s needle 0 = some j := by
  obtain ⟨j', hj'⟩ := find_zero_of_infix ((infix_iff_drop needle s).2 ⟨j, hj, hocc⟩)
  obtain ⟨post, hs, hle, hmin'⟩ := find_zero_some hj'
  have hocc' : needle <+: s.drop j' := by
    refine ⟨post, ?_⟩
    have h := congrArg (List.drop j') hs
    rw [List.append_assoc, List.drop_left' (by simp [hle])] at h
    exact h.symm
  rcases Nat.lt_trichotomy j j' with h | h | h
  · exact absurd hocc (hmin' j h)
  · rw [hj', h]
  · exact absurd hocc' (hmin j' h)

theorem dots_around_marker {pre post : Str}
    (h : ['.', '.', '.'] <:+: pre ++ ['(', '*', ')'] ++ post) :
    ['.', '.', '.'] <:+: pre ∨ ['.', '.', '.'] <:+: post := by
  obtain ⟨a, b, hab⟩ := h
  simp only [List.append_assoc] at hab
  rcases List.append_eq_append_iff.1 hab with ⟨c, hpre, hc⟩ | ⟨c, ha, hc⟩
  · -- `pre = a ++ c`
    rcases c with _ | ⟨x, _ | ⟨y, _ | ⟨z, c⟩⟩⟩
    · simp at hc
    · simp at hc
    · simp at hc
    · left
      simp only [List.cons_append, List.cons.injEq] at hc
      obtain ⟨hx, hy, hz, _⟩ := hc
      exact ⟨a, c, by rw [hpre, ← hx, ← hy, ← hz]; simp⟩
  · -- `a = pre ++ c`
    rcases c with _ | ⟨x, _ | ⟨y, _ | ⟨z, c⟩⟩⟩
    · simp at hc
    · simp at hc
    · simp at hc
    · right
      simp only [List.cons_append, List.cons.injEq] at hc
      obtain ⟨_, _, _, hpost⟩ := hc
      exact ⟨c, b, by simpa using hpost.symm⟩

/-- C20. Formal names are skipped for a variadic list: a function-pointer type
text that contains `...` gives the same text with and without `addFormal`. -/
theorem printNameWithType_variadic (name type : Str)
    (h1 : ['(', '*', ')'] <:+: type) (h2 : ['.', '.', '.'] <:+: type) :
    printNameWithType name type true = printNameWithType name type false := by
  obtain ⟨j, hj⟩ := find_zero_of_infix h1
  obtain ⟨post, hs, hle, _⟩ := find_zero_some hj
  have hacc := insert_at_first hs hle 2 (by simp) name
  simp only [List.take, List.drop] at hacc
  have hdots : ['.', '.', '.'] <:+: insert type (j + 2) name := by
    rw [hacc]
    rw [hs] at h2
    rcases dots_around_marker h2 with h | h
    · obtain ⟨a, b, hab⟩ := h
      exact ⟨a, b ++ ['(', '*'] ++ name ++ [')'] ++ post, by simp [← hab, List.append_assoc]⟩
    · obtain ⟨a, b, hab⟩ := h
      exact ⟨List.take j type ++ ['(', '*'] ++ name ++ [')'] ++ a, b,
        by simp [← hab, List.append_assoc]⟩
  obtain ⟨k, hk⟩ := find_zero_of_infix hdots
  simp only [printNameWithType, hj, if_true, Bool.false_eq_true, if_false]
  rw [addFormalNames_eq, hk]
  split <;> rfl

/-- Witness for C20: name `f` and type text `int (*)(int, ...)` give
`int (*f)(int, ...)` with formal names requested, as without. -/
theorem printNameWithType_variadic_witness :
    printNameWithType "f".toList "int (*)(int, ...)".toList true
      = "int (*f)(int, ...)".toList :=
  (printNameWithType_variadic "f".toList "int (*)(int, ...)".toList
    ⟨"int ".toList, "(int, ...)".toList, by decide⟩
    ⟨"int (*)(int, ".toList, ")".toList, by decide⟩).trans (by decide)

/-- C18 (evaluation of the code). With formal names requested, a nested
function-pointer parameter does not stop the synthesis: name `f` and type text
`int (*)(int (*)(int))` give `int (*f)(int (*)(int) a)`, not the text without
formal names; the positions found by the loop over `(*)` are overwritten by the
search for the last close-paren. -/
theorem printNameWithType_nested_function_pointer :
    printNameWithType "f".toList "int (*)(int (*)(int))".toList true
        = "int (*f)(int (*)(int) a)".toList ∧
      printNameWithType "f".toList "int (*)(int (*)(int))".toList false
        = "int (*f)(int (*)(int))".toList ∧
      printNameWithType "f".toList "int (*)(int (*)(int))".toList true
        ≠ printNameWithType "f".toList "int (*)(int (*)(int))".toList false := by
  decide

/-- C19 (evaluation of the code). With formal names requested, an empty parameter
list still gets a name: name `f` and type text `int (*)()` give `int (*f)( a)`,
not `int (*f)()`; only the literal `(void)` is tested for. -/
theorem printNameWithType_empty_parameter_list :
    printNameWithType "f".toList "int (*)()".toList true = "int (*f)( a)".toList ∧
      printNameWithType "f".toList "int (*)()".toList false = "int (*f)()".toList ∧
      printNameWithType "f".toList "int (*)()".toList true
        ≠ printNameWithType "f".toList "int (*)()".toList false := by
  decide

/-- The half of C19 that the code keeps: when the text with the name in it holds
the literal `(void)`, no formal name is added. -/
theorem printNameWithType_void_list (name pre post : Str)
    (hfirst : ∀ m, m < pre.length → ¬ ['(', '*', ')'] <+: (pre ++ ['(', '*', ')'] ++ post).drop m)
    (hvoid : ['(', 'v', 'o', 'i', 'd', ')'] <:+: post) :
    printNameWithType name (pre ++ ['(', '*', ')'] ++ post) true
      = printNameWithType name (pre ++ ['(', '*', ')'] ++ post) false := by
  have hj : find (pre ++ ['(', '*', ')'] ++ post) ['(', '*', ')'] 0 = some pre.length := by
    apply find_zero_eq_some _ (by simp) hfirst
    rw [List.append_assoc, List.drop_left]
    exact ⟨post, rfl⟩
  have hacc := insert_split pre ['(', '*'] ([')'] ++ post) name
  have hacc' : insert (pre ++ ['(', '*', ')'] ++ post) (pre.length + 2) name
      = pre ++ ['(', '*'] ++ name ++ ([')'] ++ post) := by
    rw [← hacc]; simp
  have hv : ['(', 'v', 'o', 'i', 'd', ')'] <:+:
      insert (pre ++ ['(', '*', ')'] ++ post) (pre.length + 2) name := by
    rw [hacc']
    obtain ⟨a, b, hab⟩ := hvoid
    exact ⟨pre ++ ['(', '*'] ++ name ++ [')'] ++ a, b, by simp [← hab, List.append_assoc]⟩
  obtain ⟨k, hk⟩ := find_zero_of_infix hv
  simp only [printNameWithType, hj, if_true, Bool.false_eq_true, if_false]
  rw [addFormalNames_eq, hk]

/-! ## `SimplifyPath` -/

theorem toInt32_of_lt (v : Nat) (h : v < 2 ^ 31) : toInt32 v = (v : Int) := by
  have h1 : v % 2 ^ 32 = v := Nat.mod_eq_of_lt (by omega)
  unfold toInt32
  rw [h1, if_pos h]

theorem toSize_natCast (v : Nat) (h : v < 2 ^ 64) : toSize (v : Int) = v := by
  unfold toSize
  have : ((v : Int) % 2 ^ 64) = (v : Int) := Int.emod_eq_of_lt (by omega) (by omega)
  rw [this]
  simp

theorem rfindGo_none_of_limit (needle : Str) (l : Nat) : ∀ (s : Str) (i : Nat), l < i →
    rfindGo needle (some l) i s = none := by
  intro s
  induction s with
  | nil =>
    intro i hi
    have : ¬ i ≤ l := by omega
    simp [rfindGo, this]
  | cons c t ih =>
    intro i hi
    have : ¬ i ≤ l := by omega
    simp [rfindGo, ih (i + 1) (by omega), this]

theorem rfindGo_none_of_not_mem (l : Nat) (rest : Str) : ∀ (X : Str) (i : Nat), '/' ∉ X →
    l < i + X.length → rfindGo ['/'] (some l) i (X ++ rest) = none := by
  intro X
  induction X with
  | nil =>
    intro i _ hi
    exact rfindGo_none_of_limit _ l rest i (by simpa using hi)
  | cons x X ih =>
    intro i hx hi
    have hx1 : x ≠ '/' := fun h => hx (by simp [h])
    have hx2 : '/' ∉ X := fun h => hx (List.mem_cons_of_mem _ h)
    have hrec := ih (i + 1) hx2 (by simp only [List.length_cons] at hi; omega)
    have hne : ¬ ('/' = x) := fun h => hx1 h.symm
    simp [rfindGo, hrec, List.isPrefixOf, hne]

theorem rfindGo_slash_before (X rest : Str) (hX : '/' ∉ X) : ∀ (A : Str) (i : Nat),
    rfindGo ['/'] (some (i + A.length + X.length)) i (A ++ ['/'] ++ X ++ rest)
      = some (i + A.length) := by
  intro A
  induction A with
  | nil =>
    intro i
    have hrec := rfindGo_none_of_not_mem (i + X.length) rest X (i + 1) hX (by omega)
    simp [rfindGo, hrec, List.isPrefixOf]
  | cons a A ih =>
    intro i
    have hrec := ih (i + 1)
    have e1 : i + 1 + A.length + X.length = i + (a :: A).length + X.length := by
      simp only [List.length_cons]; omega
    have e2 : i + 1 + A.length = i + (a :: A).length := by
      simp only [List.length_cons]; omega
    rw [e1, e2] at hrec
    have e3 : (a :: A) ++ ['/'] ++ X ++ rest = a :: (A ++ ['/'] ++ X ++ rest) := by simp
    rw [e3, rfindGo, hrec]

theorem find_zero_none_of_not_infix {s needle : Str} (h : ¬ needle <:+: s) :
    find s needle 0 = none := by
  cases hf : find s needle 0 with
  | none => rfl
  | some j =>
    obtain ⟨post, hs, _, _⟩ := find_zero_some hf
    exact absurd ⟨_, _, hs.symm⟩ h

theorem SimplifyPath_unchanged (fuel : Nat) (path : Str)
    (h : ¬ ['/', '.', '.', '/'] <:+: path) : SimplifyPath fuel path = PathResult.value path := by
  simp [SimplifyPath, find_zero_none_of_not_infix h]

theorem simplifyLoop_unchanged (fuel : Nat) (path : Str)
    (h : ¬ ['/', '.', '.', '/'] <:+: path) : simplifyLoop fuel path = PathResult.value path := by
  cases fuel <;> simp [simplifyLoop, find_zero_none_of_not_infix h]

theorem simplifyBody_pair (A X B : Str) (hXs : '/' ∉ X)
    (hlen : (A ++ ['/'] ++ X ++ ['/', '.', '.', '/'] ++ B).length < 2 ^ 31) :
    simplifyBody (A ++ ['/'] ++ X ++ ['/', '.', '.', '/'] ++ B) (A.length + 1 + X.length)
      = some (A ++ ['/'] ++ B) := by
  have hl : A.length + X.length + B.length + 5 < 2 ^ 31 := by
    simp only [List.length_append, List.length_cons, List.length_nil] at hlen
    omega
  have h1 : toInt32 (A.length + 1 + X.length) = ((A.length + 1 + X.length : Nat) : Int) :=
    toInt32_of_lt _ (by omega)
  have h2 : toInt32 (A.length + 1 + X.length) - 1 = ((A.length + X.length : Nat) : Int) := by
    rw [h1]; omega
  have h3 : toSize (toInt32 (A.length + 1 + X.length) - 1) = A.length + X.length := by
    rw [h2]; exact toSize_natCast _ (by omega)
  have h4 : rfind (A ++ ['/'] ++ X ++ ['/', '.', '.', '/'] ++ B) ['/']
      (some (A.length + X.length)) = some A.length := by
    have := rfindGo_slash_before X (['/', '.', '.', '/'] ++ B) hXs A 0
    simpa [rfind, List.append_assoc] using this
  have h5 : toInt32 A.length = (A.length : Int) := toInt32_of_lt _ (by omega)
  have h6 : toSize ((A.length : Int) + 1) = A.length + 1 := by
    have : ((A.length : Int) + 1) = ((A.length + 1 : Nat) : Int) := by omega
    rw [this]; exact toSize_natCast _ (by omega)
  have h7 : toSize (toInt32 (A.length + 1 + X.length) + 4) = A.length + 1 + X.length + 4 := by
    rw [h1]
    have : (((A.length + 1 + X.length : Nat) : Int) + 4)
        = ((A.length + 1 + X.length + 4 : Nat) : Int) := by omega
    rw [this]; exact toSize_natCast _ (by omega)
  have h8 : toSize (toInt32 (A.length + 1 + X.length)) = A.length + 1 + X.length := by
    rw [h1]; exact toSize_natCast _ (by omega)
  have h9 : toSize (((A ++ ['/'] ++ X ++ ['/', '.', '.', '/'] ++ B).length : Int)
      - ((A.length + 1 + X.length : Nat) : Int) - 4) = B.length := by
    have : (((A ++ ['/'] ++ X ++ ['/', '.', '.', '/'] ++ B).length : Int)
      - ((A.length + 1 + X.length : Nat) : Int) - 4) = ((B.length : Nat) : Int) := by
      simp only [List.length_append, List.length_cons, List.length_nil]
      omega
    rw [this]; exact toSize_natCast _ (by omega)
  have hleft : substr (A ++ ['/'] ++ X ++ ['/', '.', '.', '/'] ++ B) 0 (A.length + 1)
      = some (A ++ ['/']) := by
    have e : A.length + 1 = (A ++ ['/']).length := by simp
    simp only [substr, Nat.zero_le, if_true, List.drop_zero]
    rw [List.append_assoc (A ++ ['/']), List.append_assoc (A ++ ['/']), e, List.take_left']
    rfl
  have hright : substr (A ++ ['/'] ++ X ++ ['/', '.', '.', '/'] ++ B)
      (A.length + 1 + X.length + 4) B.length = some B := by
    have e : A.length + 1 + X.length + 4 = (A ++ ['/'] ++ X ++ ['/', '.', '.', '/']).length := by
      simp only [List.length_append, List.length_cons, List.length_nil]
    have hle : A.length + 1 + X.length + 4
        ≤ (A ++ ['/'] ++ X ++ ['/', '.', '.', '/'] ++ B).length := by
      simp only [List.length_append, List.length_cons, List.length_nil]; omega
    simp only [substr, hle, if_true]
    rw [e, List.drop_left']
    · simp
    · rfl
  simp only [simplifyBody, h3, h4, sizeValue, h5, h6, h7, h8, h9, hleft, hright]

/-- C17. `SimplifyPath` removes a `segment/../` pair: for a path `A/X/../B` in
which `X` has no `/`, the first `/../` is the one after `X`, `A/B` has no `/../`
and the positions fit an `int`, one pass of the loop suffices and the result is
`A/B`; a path with no `/../` is returned unchanged, whatever the fuel. -/
theorem SimplifyPath_removes_pair (A X B : Str) (fuel : Nat)
    (_hX : X ≠ []) (hXs : '/' ∉ X)
    (hfirst : ∀ m, m < A.length + 1 + X.length →
      ¬ ['/', '.', '.', '/'] <+: (A ++ ['/'] ++ X ++ ['/', '.', '.', '/'] ++ B).drop m)
    (hclean : ¬ ['/', '.', '.', '/'] <:+: A ++ ['/'] ++ B)
    (hlen : (A ++ ['/'] ++ X ++ ['/', '.', '.', '/'] ++ B).length < 2 ^ 31)
    (hfuel : 1 ≤ fuel) :
    SimplifyPath fuel (A ++ ['/'] ++ X ++ ['/', '.', '.', '/'] ++ B)
        = PathResult.value (A ++ ['/'] ++ B) ∧
    (∀ (path : Str) (fuel' : Nat), ¬ ['/', '.', '.', '/'] <:+: path →
      SimplifyPath fuel' path = PathResult.value path) := by
  refine ⟨?_, fun path fuel' h => SimplifyPath_unchanged fuel' path h⟩
  have hj : find (A ++ ['/'] ++ X ++ ['/', '.', '.', '/'] ++ B) ['/', '.', '.', '/'] 0
      = some (A.length + 1 + X.length) := by
    apply find_zero_eq_some _
      (by simp only [List.length_append, List.length_cons, List.length_nil]; omega) hfirst
    have e : A.length + 1 + X.length = (A ++ ['/'] ++ X).length := by
      simp only [List.length_append, List.length_cons, List.length_nil]
    rw [List.append_assoc (A ++ ['/'] ++ X), e, List.drop_left']
    · exact ⟨B, rfl⟩
    · rfl
  obtain ⟨f, rfl⟩ : ∃ f, fuel = f + 1 := ⟨fuel - 1, by omega⟩
  simp only [SimplifyPath, hj, simplifyLoop, simplifyBody_pair A X B hXs hlen]
  exact simplifyLoop_unchanged f _ hclean

/-- Witness for C17: `aaa/xxx/../bbb` becomes `aaa/bbb`. -/
theorem SimplifyPath_removes_pair_witness :
    SimplifyPath 1 "aaa/xxx/../bbb".toList = PathResult.value "aaa/bbb".toList :=
  (SimplifyPath_removes_pair "aaa".toList "xxx".toList "bbb".toList 1
    (by decide) (by decide) (by decide) (by decide) (by decide) (by decide)).1

/-! ## Macro records -/

theorem foldl_onMacroEvent (events : List PPEvent) : ∀ (rows : List MacroRecord),
    events.foldl onMacroEvent rows = rows ++ events.flatMap rowsOfEvent := by
  induction events with
  | nil => intro rows; simp
  | cons e events ih =>
    intro rows
    rw [List.foldl_cons, ih]
    have h : onMacroEvent rows e = rows ++ rowsOfEvent e := by
      cases e with
      | macroDefined tok md => simp [onMacroEvent, rowsOfEvent]
      | macroUndefined tok md => cases md <;> simp [onMacroEvent, rowsOfEvent, removeMacro]
      | defined tok md => cases md <;> simp [onMacroEvent, rowsOfEvent, addMacro]
      | ifdef tok md => cases md <;> simp [onMacroEvent, rowsOfEvent, addMacro]
      | ifndef tok md => cases md <;> simp [onMacroEvent, rowsOfEvent, addMacro]
      | macroExpands tok md => cases md <;> simp [onMacroEvent, rowsOfEvent, addMacro]
    rw [h]
    simp [List.flatMap_cons, List.append_assoc]

/-- C16 (counterexample). The definition `#define MAX_INT 0x7fffffff` alone
leaves `macros` empty, and so does a definition followed by a redefinition:
`DeclFilterCallbacks` has no `MacroDefined` callback. -/
theorem macro_definition_writes_no_row :
    macroRows [PPEvent.macroDefined maxIntToken maxIntInfo] = [] ∧
    macroRows [PPEvent.macroDefined maxIntToken maxIntInfo,
               PPEvent.macroDefined maxIntToken maxIntInfo] = [] := by
  decide

/-- C16 (as amended). For every stream of preprocessor events the rows inserted
into `macros` are, in order: for each `defined(X)`, `#ifdef`, `#ifndef` and
expansion of a macro that is defined, one row with the file and the start and end
line and column of the macro's definition and the macro's name; for each `#undef`
of a macro that is defined, one row with the file and line of the `#undef` and
columns 1; nothing for a definition or redefinition, nor for an event on a macro
that is not defined. -/
theorem macro_rows (events : List PPEvent) :
    macroRows events = events.flatMap rowsOfEvent ∧
    (∀ tok md, rowsOfEvent (PPEvent.macroDefined tok md) = []) ∧
    (∀ tok, rowsOfEvent (PPEvent.macroUndefined tok none) = [] ∧
      rowsOfEvent (PPEvent.defined tok none) = [] ∧
      rowsOfEvent (PPEvent.ifdef tok none) = [] ∧
      rowsOfEvent (PPEvent.ifndef tok none) = [] ∧
      rowsOfEvent (PPEvent.macroExpands tok none) = []) ∧
    (∀ tok mi, rowsOfEvent (PPEvent.macroUndefined tok (some mi))
      = [{ header := tok.file, name := tok.name, startLine := tok.line,
           startColumn := 1, endLine := tok.line, endColumn := 1 }]) ∧
    (∀ tok mi, ∀ e, (e = PPEvent.defined tok (some mi) ∨ e = PPEvent.ifdef tok (some mi) ∨
        e = PPEvent.ifndef tok (some mi) ∨ e = PPEvent.macroExpands tok (some mi)) →
      rowsOfEvent e
        = [{ header := mi.file, name := tok.name, startLine := mi.startLine,
             startColumn := mi.startColumn, endLine := mi.endLine,
             endColumn := mi.endColumn }]) := by
  refine ⟨?_, fun _ _ => rfl, fun _ => ⟨rfl, rfl, rfl, rfl, rfl⟩, fun _ _ => rfl, ?_⟩
  · have := foldl_onMacroEvent events []
    simpa [macroRows] using this
  · intro tok mi e he
    rcases he with rfl | rfl | rfl | rfl <;> rfl

/-! ## Aggregate completeness: `printRecord` -/

/-- A path that a pass of the loop leaves as it is keeps the loop running. -/
theorem simplifyLoop_fixed (path : Str) (p : Nat)
    (hf : find path ['/', '.', '.', '/'] 0 = some p)
    (hb : simplifyBody path p = some path) :
    ∀ fuel, simplifyLoop fuel path = PathResult.outOfFuel := by
  intro fuel
  induction fuel with
  | zero => simp only [simplifyLoop, hf]
  | succ k ih => simp only [simplifyLoop, hf, hb, ih]

/-- C23, at the failing input. On the path `/../x` the first `/../` is at index 0,
so `pos_dot - 1` is -1 and `rfind` searches from the end: it finds the `/` at
index 3, and the pass rebuilds `/../` ++ `x`, the path it started from. The loop
is still running after any number of passes. A path that reaches this shape after
a pass that does shorten it, `/a/../../x`, does the same; and on `/../a/b` a pass
makes the path longer. -/
theorem SimplifyPath_leading_marker_loops :
    find "/../x".toList ['/', '.', '.', '/'] 0 = some 0 ∧
    simplifyBody "/../x".toList 0 = some "/../x".toList ∧
    (∀ fuel, SimplifyPath fuel "/../x".toList = PathResult.outOfFuel) ∧
    simplifyBody "/a/../../x".toList 2 = some "/../x".toList ∧
    (∀ fuel, SimplifyPath fuel "/a/../../x".toList = PathResult.outOfFuel) ∧
    simplifyBody "/../a/b".toList 0 = some "/../a/a/b".toList := by
  have hf : find "/../x".toList ['/', '.', '.', '/'] 0 = some 0 := by decide
  have hb : simplifyBody "/../x".toList 0 = some "/../x".toList := by decide
  have hf2 : find "/a/../../x".toList ['/', '.', '.', '/'] 0 = some 2 := by decide
  have hb2 : simplifyBody "/a/../../x".toList 2 = some "/../x".toList := by decide
  refine ⟨hf, hb, ?_, hb2, ?_, by decide⟩
  · intro fuel
    simp only [SimplifyPath, hf]
    exact simplifyLoop_fixed _ 0 hf hb fuel
  · intro fuel
    simp only [SimplifyPath, hf2]
    cases fuel with
    | zero => simp only [simplifyLoop, hf2]
    | succ k =>
      simp only [simplifyLoop, hf2, hb2]
      exact simplifyLoop_fixed _ 0 hf hb k

theorem rfindGo_le_limit (needle : Str) (l : Nat) : ∀ (s : Str) (i q : Nat),
    rfindGo needle (some l) i s = some q → q ≤ l := by
  intro s
  induction s with
  | nil =>
    intro i q h
    simp only [rfindGo] at h
    split at h
    · rename_i hc
      simp only [Bool.and_eq_true, decide_eq_true_eq] at hc
      simp only [Option.some.injEq] at h
      omega
    · simp at h
  | cons c t ih =>
    intro i q h
    simp only [rfindGo] at h
    split at h
    · rename_i j hj
      simp only [Option.some.injEq] at h
      subst h
      exact ih (i + 1) j hj
    · split at h
      · rename_i hc
        simp only [Bool.and_eq_true, decide_eq_true_eq] at hc
        simp only [Option.some.injEq] at h
        omega
      · simp at h

theorem toInt32_npos : toInt32 (sizeValue none) = -1 := by decide

/-- One pass of the loop of `SimplifyPath` on a path whose first `/../` is not at
its start, the positions fitting an `int`: the new path is a prefix of the old
one that ends before the `/../`, followed by what comes after the `/../`; it is
shorter by four characters at least. -/
theorem simplifyBody_shortens (path : Str) (p : Nat)
    (hlen : path.length < 2 ^ 31)
    (hf : find path ['/', '.', '.', '/'] 0 = some p) (hp : 0 < p) :
    ∃ k, k ≤ p ∧ simplifyBody path p = some (path.take k ++ path.drop (p + 4)) ∧
      (path.take k ++ path.drop (p + 4)).length + 4 ≤ path.length := by
  obtain ⟨post, hsplit, hple, _⟩ := find_zero_some hf
  have hlen4 : p + 4 ≤ path.length := by
    have h := congrArg List.length hsplit
    simp only [List.length_append, List.length_take, List.length_cons, List.length_nil] at h
    omega
  have h1 : toInt32 p = (p : Int) := toInt32_of_lt _ (by omega)
  have h3 : toSize (toInt32 p - 1) = p - 1 := by
    have : toInt32 p - 1 = ((p - 1 : Nat) : Int) := by rw [h1]; omega
    rw [this]; exact toSize_natCast _ (by omega)
  have h7 : toSize (toInt32 p + 4) = p + 4 := by
    have : toInt32 p + 4 = ((p + 4 : Nat) : Int) := by rw [h1]; omega
    rw [this]; exact toSize_natCast _ (by omega)
  have h8 : toSize (toInt32 p) = p := by
    rw [h1]; exact toSize_natCast _ (by omega)
  have h9 : toSize ((path.length : Int) - ((p : Nat) : Int) - 4) = path.length - p - 4 := by
    have : ((path.length : Int) - ((p : Nat) : Int) - 4) = ((path.length - p - 4 : Nat) : Int) := by
      omega
    rw [this]; exact toSize_natCast _ (by omega)
  have hright : substr path (p + 4) (path.length - p - 4) = some (path.drop (p + 4)) := by
    simp only [substr, hlen4, if_true]
    rw [List.take_of_length_le]
    simp only [List.length_drop]
    omega
  have hlenk : ∀ k, k ≤ p → (path.take k ++ path.drop (p + 4)).length + 4 ≤ path.length := by
    intro k hk
    simp only [List.length_append, List.length_take, List.length_drop]
    omega
  cases hr : rfind path ['/'] (some (p - 1)) with
  | none =>
    refine ⟨0, Nat.zero_le _, ?_, hlenk 0 (Nat.zero_le _)⟩
    have h6 : toSize ((-1 : Int) + 1) = 0 := by decide
    have hleft : substr path 0 0 = some (path.take 0) := by simp [substr]
    simp only [simplifyBody, h3, hr, toInt32_npos, h6, h7, h8, h9, hleft, hright]
  | some q =>
    have hq : q ≤ p - 1 := rfindGo_le_limit _ _ _ _ _ hr
    refine ⟨q + 1, by omega, ?_, hlenk (q + 1) (by omega)⟩
    have h5 : toInt32 q = (q : Int) := toInt32_of_lt _ (by omega)
    have h6 : toSize ((q : Int) + 1) = q + 1 := by
      have : ((q : Int) + 1) = ((q + 1 : Nat) : Int) := by omega
      rw [this]; exact toSize_natCast _ (by omega)
    have hleft : substr path 0 (q + 1) = some (path.take (q + 1)) := by simp [substr]
    simp only [simplifyBody, h3, hr, sizeValue, h5, h6, h7, h8, h9, hleft, hright]

/-- The hang of `SimplifyPath` reaches `printRecord`: for a record in a header
whose path starts with `/../` the call does not return, with or without a
database, whatever the fuel. -/
theorem printRecord_leading_marker (fuel : Nat) (conn recording : Bool) :
    printRecord fuel conn DumpState.empty recLeadingMarker recording = DumpResult.outOfFuel := by
  have hf : find "/../x.h".toList ['/', '.', '.', '/'] 0 = some 0 := by decide
  have hb : simplifyBody "/../x.h".toList 0 = some "/../x.h".toList := by decide
  have hS : SimplifyPath fuel "/../x.h".toList = PathResult.outOfFuel := by
    simp only [SimplifyPath, hf]
    exact simplifyLoop_fixed _ 0 hf hb fuel
  have hloc : locationFile (stripColumn "/../x.h:25:1".toList) = "/../x.h".toList := by decide
  have hnew : stripColumn "/../x.h:25:1".toList ++ "nested".toList
      ∉ (DumpState.empty).explored := by decide
  rw [recLeadingMarker, printRecord]
  simp only [hnew, if_false, Bool.false_eq_true, printNested, finishRecord, hloc, hS]

end HeaderGen
